import Mathlib

/-!
go-dxf: reader and writer of the DXF tag/value format.

A shallow embedding of `reader.go`, `writer.go`, `dxf.go` and `group_code.go`.

* A Go `string` and the contents of the input stream are lists of characters
  (the text is taken to be valid UTF-8, one `Char` per code point).
* The `bufio.Reader` held by a `Reader` is the list of characters not yet
  consumed; every reading function returns the remaining list with its result.
* The `bufio.Writer` held by a `Writer` is the list of characters written so
  far, with an in-memory sink that never fails.
* A Go `map` is an association list without repeated keys.  The order of the
  list stands for the order in which a `range` loop yields the entries, which
  Go leaves unspecified: a statement made "for every enumeration order" is a
  statement about every permutation of the list.
* A `for { ... }` loop is a recursive function carrying a fuel counter; the
  entry points start it with more fuel than the input has characters, and
  `Err.outOfFuel` is the result of an exhausted counter.
-/

namespace Dxf

/-! ## Data model (`dxf.go`, `group_code.go`) -/

/-- The type `GroupCode` (an `int64`); values are kept inside the 64-bit range by `ParseInt`. -/
abbrev GroupCode := Int

/-- A Go `map[GroupCode]string`, as the list of its entries. -/
abbrev Attrs := List (GroupCode × List Char)

/-- A Go `map[string]map[GroupCode]string`, as the list of its entries. -/
abbrev HeaderMap := List (List Char × Attrs)

/-- The struct `Class`. -/
structure Class where
  Attributes : Attrs
deriving DecidableEq, Repr

/-- The struct `Entity`. -/
structure Entity where
  Name : List Char
  Attributes : Attrs
deriving DecidableEq, Repr

/-- The struct `Block`. -/
structure Block where
  Entities : List Entity
  Attributes : Attrs
deriving DecidableEq, Repr

/-- The struct `Drawing`; `none` is a nil field. -/
structure Drawing where
  Header : Option HeaderMap
  Classes : Option (List Class)
  Blocks : Option (List Block)
  Entities : Option (List Entity)
deriving DecidableEq, Repr

/-- The errors a reading function returns: `io.EOF`, the two package errors, a write to a
nil map, and the exhausted fuel of a loop. -/
inductive Err where
  | ioEOF
  | ErrInvalidFormat
  | ErrInvalidGroupCode
  | nilMapWrite
  | outOfFuel
deriving DecidableEq, Repr

/-- Equality of results is decidable. -/
instance instDecidableEqExcept {ε α : Type} [DecidableEq ε] [DecidableEq α] :
    DecidableEq (Except ε α)
  | .ok a, .ok b =>
    if h : a = b then isTrue (by rw [h]) else isFalse (fun h1 => h (Except.ok.inj h1))
  | .error a, .error b =>
    if h : a = b then isTrue (by rw [h]) else isFalse (fun h1 => h (Except.error.inj h1))
  | .ok _, .error _ => isFalse (fun h => Except.noConfusion h)
  | .error _, .ok _ => isFalse (fun h => Except.noConfusion h)

/-- The map read `m[k]`, with its presence flag. -/
def mapGet {κ ν : Type} [DecidableEq κ] : List (κ × ν) → κ → Option ν
  | [], _ => none
  | (k', v') :: t, k => if k' = k then some v' else mapGet t k

/-- The map assignment `m[k] = v`: replaces the entry of `k`, or adds one. -/
def mapSet {κ ν : Type} [DecidableEq κ] : List (κ × ν) → κ → ν → List (κ × ν)
  | [], k, v => [(k, v)]
  | (k', v') :: t, k, v => if k' = k then (k, v) :: t else (k', v') :: mapSet t k v

/-! ## Library functions used by the reader and the writer -/

/-- The call `bufio.Reader.ReadString('\n')`: the text up to and including the first line
feed, whether a line feed was found (`false` is the error `io.EOF`), and the rest. -/
def readString : List Char → List Char × Bool × List Char
  | [] => ([], false, [])
  | c :: cs =>
    if c = '\n' then ([c], true, cs)
    else (c :: (readString cs).1, (readString cs).2.1, (readString cs).2.2)

/-- The predicate `unicode.IsSpace`. -/
def isSpace (c : Char) : Bool :=
  let n := c.toNat
  (9 ≤ n && n ≤ 13) || n = 32 || n = 0x85 || n = 0xA0 || n = 0x1680 ||
  (0x2000 ≤ n && n ≤ 0x200A) || n = 0x2028 || n = 0x2029 || n = 0x202F ||
  n = 0x205F || n = 0x3000

/-- The function `strings.TrimSpace`. -/
def TrimSpace (s : List Char) : List Char :=
  ((s.dropWhile isSpace).reverse.dropWhile isSpace).reverse

/-- The value of a decimal digit. -/
def digitVal (c : Char) : Option Nat :=
  if 48 ≤ c.toNat ∧ c.toNat ≤ 57 then some (c.toNat - 48) else none

/-- The digit loop of `strconv.ParseUint` in base 10, without its overflow check. -/
def parseDigits : List Char → Nat → Option Nat
  | [], acc => some acc
  | c :: cs, acc =>
    match digitVal c with
    | none => none
    | some d => parseDigits cs (acc * 10 + d)

/-- The function `strconv.ParseUint(s, 10, 64)` before the range check of its caller. -/
def ParseUint (s : List Char) : Option Nat :=
  if s = [] then none else parseDigits s 0

/-- The function `strconv.ParseInt(s, 10, 64)`; `none` is any error (syntax or range). -/
def ParseInt (s : List Char) : Option Int :=
  match s with
  | [] => none
  | c :: cs =>
    let neg : Bool := c = '-'
    let body := if c = '+' ∨ c = '-' then cs else c :: cs
    match ParseUint body with
    | none => none
    | some un =>
      if neg = false ∧ 2 ^ 63 ≤ un then none
      else if neg = true ∧ 2 ^ 63 < un then none
      else some (if neg then - (un : Int) else (un : Int))

/-- The decimal digits of a natural number, most significant first. -/
def natDigits : Nat → Nat → List Char → List Char
  | 0, _, acc => acc
  | fuel + 1, n, acc =>
    if n < 10 then Char.ofNat (48 + n) :: acc
    else natDigits fuel (n / 10) (Char.ofNat (48 + n % 10) :: acc)

/-- The method `GroupCode.String`, that is `strconv.FormatInt(int64(c), 10)`. -/
def FormatInt (c : GroupCode) : List Char :=
  if c < 0 then '-' :: natDigits (c.natAbs + 1) c.natAbs []
  else natDigits (c.natAbs + 1) c.natAbs []

/-! ## The reader (`reader.go`) -/

/-- The function `Reader.readCodes`: group code, value and the remaining input. -/
def readCodes (r : List Char) : Except Err (GroupCode × List Char × List Char) :=
  let code := readString r
  if code.2.1 = false then
    if code.1 = [] then .error .ioEOF else .error .ErrInvalidFormat
  else
    let value := readString code.2.2
    if value.2.1 = false ∧ value.1 = [] then .error .ErrInvalidFormat
    else
      match ParseInt (TrimSpace code.1) with
      | none => .error .ErrInvalidGroupCode
      | some codeInt => .ok (codeInt, TrimSpace value.1, value.2.2)

/-- The conversion of `io.EOF` that every caller of `readCodes` applies to its error. -/
def eofToFormat (e : Err) : Err :=
  if e = .ioEOF then .ErrInvalidFormat else e

/-- The statement `header[key][groupCode] = value`. -/
def headerSet (header : HeaderMap) (key : List Char) (groupCode : GroupCode)
    (value : List Char) : Except Err HeaderMap :=
  match mapGet header key with
  | none => .error .nilMapWrite
  | some m => .ok (mapSet header key (mapSet m groupCode value))

/-- The loop of `Reader.readHeader`. -/
def readHeaderLoop : Nat → HeaderMap → List Char → List Char →
    Except Err (HeaderMap × List Char)
  | 0, _, _, _ => .error .outOfFuel
  | fuel + 1, header, key, r =>
    match readCodes r with
    | .error e => .error (eofToFormat e)
    | .ok (groupCode, value, r1) =>
      if groupCode = 0 ∧ value = "ENDSEC".toList then .ok (header, r1)
      else if groupCode = 9 then readHeaderLoop fuel (mapSet header value []) value r1
      else if key = [] then .error .ErrInvalidFormat
      else
        match headerSet header key groupCode value with
        | .error e => .error e
        | .ok header1 => readHeaderLoop fuel header1 key r1

/-- The loop of `Reader.readHeader` entered with the table and the key held so far. -/
def readHeaderFrom (header : HeaderMap) (key : List Char) (r : List Char) :
    Except Err (HeaderMap × List Char) :=
  readHeaderLoop (r.length + 1) header key r

/-- The function `Reader.readHeader`. -/
def readHeader (r : List Char) : Except Err (HeaderMap × List Char) :=
  readHeaderFrom [] [] r

/-- The loop `for i := 0; i < 7; i++` of `Reader.readClass`, by the iterations left. -/
def readClassLoop : Nat → Class → List Char → Except Err (Class × List Char)
  | 0, cls, r => .ok (cls, r)
  | left + 1, cls, r =>
    match readCodes r with
    | .error e => .error (eofToFormat e)
    | .ok (groupCode, value, r1) =>
      readClassLoop left { Attributes := mapSet cls.Attributes groupCode value } r1

/-- The function `Reader.readClass`. -/
def readClass (r : List Char) : Except Err (Class × List Char) :=
  readClassLoop 7 { Attributes := [] } r

/-- The loop of `Reader.readClasses`. -/
def readClassesLoop : Nat → List Class → List Char → Except Err (List Class × List Char)
  | 0, _, _ => .error .outOfFuel
  | fuel + 1, classes, r =>
    match readCodes r with
    | .error e => .error (eofToFormat e)
    | .ok (groupCode, value, r1) =>
      if groupCode = 0 then
        if value = "ENDSEC".toList then .ok (classes, r1)
        else if value = "CLASS".toList then
          match readClass r1 with
          | .error e => .error e
          | .ok (cls, r2) => readClassesLoop fuel (classes ++ [cls]) r2
        else .error .ErrInvalidFormat
      else .error .ErrInvalidFormat

/-- The loop of `Reader.readClasses` entered with the classes read so far. -/
def readClassesFrom (classes : List Class) (r : List Char) :
    Except Err (List Class × List Char) :=
  readClassesLoop (r.length + 1) classes r

/-- The function `Reader.readClasses`. -/
def readClasses (r : List Char) : Except Err (List Class × List Char) :=
  readClassesFrom [] r

/-- The statement `if entity != nil { entities = append(entities, entity) }`. -/
def appendEntity (entities : List Entity) (entity : Option Entity) : List Entity :=
  match entity with
  | some e => entities ++ [e]
  | none => entities

/-- The loop of `Reader.readBlock`; `entity` is the pointer `entity`, `none` when nil. -/
def readBlockLoop : Nat → Block → Option Entity → List Char → Except Err (Block × List Char)
  | 0, _, _, _ => .error .outOfFuel
  | fuel + 1, block, entity, r =>
    match readCodes r with
    | .error e => .error (eofToFormat e)
    | .ok (groupCode, value, r1) =>
      if groupCode = 0 then
        if value = "ENDBLK".toList then
          .ok ({ block with Entities := appendEntity block.Entities entity }, r1)
        else
          readBlockLoop fuel { block with Entities := appendEntity block.Entities entity }
            (some { Name := value, Attributes := [] }) r1
      else
        match entity with
        | some e =>
          readBlockLoop fuel block
            (some { e with Attributes := mapSet e.Attributes groupCode value }) r1
        | none =>
          readBlockLoop fuel
            { block with Attributes := mapSet block.Attributes groupCode value } none r1

/-- The loop of `Reader.readBlock` entered with the block and the entity held so far. -/
def readBlockFrom (block : Block) (entity : Option Entity) (r : List Char) :
    Except Err (Block × List Char) :=
  readBlockLoop (r.length + 1) block entity r

/-- The function `Reader.readBlock`. -/
def readBlock (r : List Char) : Except Err (Block × List Char) :=
  readBlockFrom { Entities := [], Attributes := [] } none r

/-- The loop of `Reader.readBlocks`. -/
def readBlocksLoop : Nat → List Block → List Char → Except Err (List Block × List Char)
  | 0, _, _ => .error .outOfFuel
  | fuel + 1, blocks, r =>
    match readCodes r with
    | .error e => .error (eofToFormat e)
    | .ok (groupCode, value, r1) =>
      if groupCode = 0 then
        if value = "ENDSEC".toList then .ok (blocks, r1)
        else if value = "BLOCK".toList then
          match readBlock r1 with
          | .error e => .error e
          | .ok (block, r2) => readBlocksLoop fuel (blocks ++ [block]) r2
        else .error .ErrInvalidFormat
      else .error .ErrInvalidFormat

/-- The loop of `Reader.readBlocks` entered with the blocks read so far. -/
def readBlocksFrom (blocks : List Block) (r : List Char) :
    Except Err (List Block × List Char) :=
  readBlocksLoop (r.length + 1) blocks r

/-- The function `Reader.readBlocks`. -/
def readBlocks (r : List Char) : Except Err (List Block × List Char) :=
  readBlocksFrom [] r

/-- The loop of `Reader.readEntities`; `entity` is the pointer `entity`, `none` when nil. -/
def readEntitiesLoop : Nat → List Entity → Option Entity → List Char →
    Except Err (List Entity × List Char)
  | 0, _, _, _ => .error .outOfFuel
  | fuel + 1, entities, entity, r =>
    match readCodes r with
    | .error e => .error (eofToFormat e)
    | .ok (groupCode, value, r1) =>
      if groupCode = 0 then
        if value = "ENDSEC".toList then .ok (appendEntity entities entity, r1)
        else
          readEntitiesLoop fuel (appendEntity entities entity)
            (some { Name := value, Attributes := [] }) r1
      else
        match entity with
        | none => .error .ErrInvalidFormat
        | some e =>
          readEntitiesLoop fuel entities
            (some { e with Attributes := mapSet e.Attributes groupCode value }) r1

/-- The loop of `Reader.readEntities` entered with the list and the entity held so far. -/
def readEntitiesFrom (entities : List Entity) (entity : Option Entity) (r : List Char) :
    Except Err (List Entity × List Char) :=
  readEntitiesLoop (r.length + 1) entities entity r

/-- The function `Reader.readEntities`. -/
def readEntities (r : List Char) : Except Err (List Entity × List Char) :=
  readEntitiesFrom [] none r

/-- The inner loop of the `default` case of `Reader.Read`, which ignores a section. -/
def skipLoop : Nat → List Char → Except Err (List Char)
  | 0, _ => .error .outOfFuel
  | fuel + 1, r =>
    match readCodes r with
    | .error e => .error (eofToFormat e)
    | .ok (groupCode, value, r1) =>
      if groupCode = 0 ∧ value = "ENDSEC".toList then .ok r1
      else skipLoop fuel r1

/-- The `default` case of `Reader.Read`. -/
def skipSection (r : List Char) : Except Err (List Char) :=
  skipLoop (r.length + 1) r

/-- The loop of `Reader.Read`. -/
def ReadLoop : Nat → Drawing → List Char → Except Err Drawing
  | 0, _, _ => .error .outOfFuel
  | fuel + 1, drawing, r =>
    match readCodes r with
    | .error e => .error (eofToFormat e)
    | .ok (groupCode, value, r1) =>
      if groupCode ≠ 0 then .error .ErrInvalidFormat
      else if value = "EOF".toList then .ok drawing
      else if value ≠ "SECTION".toList then .error .ErrInvalidFormat
      else
        match readCodes r1 with
        | .error e => .error (eofToFormat e)
        | .ok (groupCode2, value2, r2) =>
          if groupCode2 ≠ 2 then .error .ErrInvalidFormat
          else if value2 = "HEADER".toList then
            match readHeader r2 with
            | .error e => .error e
            | .ok (header, r3) => ReadLoop fuel { drawing with Header := some header } r3
          else if value2 = "CLASSES".toList then
            match readClasses r2 with
            | .error e => .error e
            | .ok (classes, r3) => ReadLoop fuel { drawing with Classes := some classes } r3
          else if value2 = "BLOCKS".toList then
            match readBlocks r2 with
            | .error e => .error e
            | .ok (blocks, r3) => ReadLoop fuel { drawing with Blocks := some blocks } r3
          else if value2 = "ENTITIES".toList then
            match readEntities r2 with
            | .error e => .error e
            | .ok (entities, r3) => ReadLoop fuel { drawing with Entities := some entities } r3
          else
            match skipSection r2 with
            | .error e => .error e
            | .ok r3 => ReadLoop fuel drawing r3

/-- The loop of `Reader.Read` entered with the drawing accumulated so far. -/
def ReadFrom (drawing : Drawing) (r : List Char) : Except Err Drawing :=
  ReadLoop (r.length + 1) drawing r

/-- The function `Reader.Read` on a reader over the text `input`. -/
def Read (input : List Char) : Except Err Drawing :=
  ReadFrom { Header := none, Classes := none, Blocks := none, Entities := none } input

/-! ## The writer (`writer.go`) -/

/-- The call `w.w.WriteString(s)` on the text written so far. -/
def WriteString (w : List Char) (s : List Char) : List Char := w ++ s

/-- The text `fmt.Sprintf(" %s\n%s\n", groupCode, value)`. -/
def sprintfAttr (groupCode : GroupCode) (value : List Char) : List Char :=
  " ".toList ++ FormatInt groupCode ++ "\n".toList ++ value ++ "\n".toList

/-- The text `fmt.Sprintf(" 0\n%s\n", name)`. -/
def sprintfName (name : List Char) : List Char :=
  " 0\n".toList ++ name ++ "\n".toList

/-- A loop `for groupCode, value := range attributes`, in the order of the list. -/
def writeAttributes (w : List Char) (attributes : Attrs) : List Char :=
  attributes.foldl (fun w1 p => WriteString w1 (sprintfAttr p.1 p.2)) w

/-- The function `Writer.startSection`. -/
def startSection (w : List Char) : List Char := WriteString w " 0\nSECTION\n".toList

/-- The function `Writer.endSection`. -/
def endSection (w : List Char) : List Char := WriteString w " 0\nENDSEC\n".toList

/-- The function `Writer.writeEntity`. -/
def writeEntity (w : List Char) (entity : Entity) : List Char :=
  writeAttributes (WriteString w (sprintfName entity.Name)) entity.Attributes

/-- The function `Writer.writeHeader`. -/
def writeHeader (w : List Char) (header : HeaderMap) : List Char :=
  endSection
    (header.foldl (fun w1 kv => writeAttributes (WriteString w1 (sprintfName kv.1)) kv.2)
      (WriteString (startSection w) " 2\nHEADER\n".toList))

/-- The function `Writer.writeClass`. -/
def writeClass (w : List Char) (cls : Class) : List Char :=
  writeAttributes (WriteString w " 0\nCLASS\n".toList) cls.Attributes

/-- The function `Writer.writeClasses`. -/
def writeClasses (w : List Char) (classes : List Class) : List Char :=
  endSection (classes.foldl writeClass (WriteString (startSection w) " 2\nCLASSES\n".toList))

/-- The function `Writer.writeBlock`. -/
def writeBlock (w : List Char) (block : Block) : List Char :=
  WriteString
    (block.Entities.foldl writeEntity
      (writeAttributes (WriteString w " 0\nBLOCK\n".toList) block.Attributes))
    " 0\nENDBLK\n".toList

/-- The function `Writer.writeBlocks`. -/
def writeBlocks (w : List Char) (blocks : List Block) : List Char :=
  endSection (blocks.foldl writeBlock (WriteString (startSection w) " 2\nBLOCKS\n".toList))

/-- The function `Writer.writeEntities`. -/
def writeEntities (w : List Char) (entities : List Entity) : List Char :=
  endSection
    (entities.foldl writeEntity (WriteString (startSection w) " 2\nENTITIES\n".toList))

/-- The function `Writer.Write` on an empty sink: the text written. -/
def Write (drawing : Drawing) : List Char :=
  let w0 : List Char := []
  let w1 := match drawing.Header with
    | some header => writeHeader w0 header
    | none => w0
  let w2 := match drawing.Classes with
    | some classes => writeClasses w1 classes
    | none => w1
  let w3 := match drawing.Blocks with
    | some blocks => writeBlocks w2 blocks
    | none => w2
  let w4 := match drawing.Entities with
    | some entities => writeEntities w3 entities
    | none => w3
  WriteString w4 " 0\nEOF".toList

/-! ## Vocabulary of the statements -/

/-- The drawing `&Drawing{}` with which `Read` starts: every field nil. -/
def emptyDrawing : Drawing :=
  { Header := none, Classes := none, Blocks := none, Entities := none }

/-- The text `bs` is one well-formed pair with group code `c` and value `v`: two complete
lines that `readCodes` decodes to `(c, v)`, whatever follows them. -/
def IsPair (bs : List Char) (c : GroupCode) (v : List Char) : Prop :=
  ∀ rest, readCodes (bs ++ rest) = .ok (c, v, rest)

/-- The text `bs` is the sequence of well-formed pairs `ps`. -/
inductive IsPairs : List Char → List (GroupCode × List Char) → Prop where
  | nil : IsPairs [] []
  | cons {b bs : List Char} {c : GroupCode} {v : List Char}
      {ps : List (GroupCode × List Char)} :
      IsPair b c v → IsPairs bs ps → IsPairs (b ++ bs) ((c, v) :: ps)

/-- The reader gets from the input `r` to the input `r1` by decoding pairs one after the
other with `readCodes`. -/
inductive Advances : List Char → List Char → Prop where
  | refl (r : List Char) : Advances r r
  | step {r r1 r2 : List Char} {c : GroupCode} {v : List Char} :
      readCodes r = .ok (c, v, r1) → Advances r1 r2 → Advances r r2

/-- The text `Write` produces for one field of the drawing: nothing for a nil field, and
what the section writer `f` writes to an empty sink otherwise. -/
def sectionText {α : Type} (f : List Char → α → List Char) : Option α → List Char
  | none => []
  | some x => f [] x

/-- The integer `c` is in the range of `int64`, the type under `GroupCode`. -/
def IsInt64 (c : Int) : Prop := -9223372036854775808 ≤ c ∧ c ≤ 9223372036854775807

/-- The assignments `m[k] = v` for the pairs of a list, in order. -/
def mapSetAll {κ ν : Type} [DecidableEq κ] (m : List (κ × ν)) (ps : List (κ × ν)) :
    List (κ × ν) :=
  ps.foldl (fun m1 p => mapSet m1 p.1 p.2) m

/-- What the writer needs of an attribute for the reader to decode it: a non-zero `int64`
group code and a trimmed value free of line feeds. -/
def GoodAttr (p : GroupCode × List Char) : Prop :=
  p.1 ≠ 0 ∧ IsInt64 p.1 ∧ TrimSpace p.2 = p.2 ∧ '\n' ∉ p.2

/-- What the writer needs of an entity for the reader to decode it inside a region closed by
the name `stop`. -/
def GoodEntity (stop : List Char) (e : Entity) : Prop :=
  TrimSpace e.Name = e.Name ∧ '\n' ∉ e.Name ∧ e.Name ≠ stop ∧
    (∀ p ∈ e.Attributes, GoodAttr p) ∧ (e.Attributes.map Prod.fst).Nodup

/-- The two lists hold the same entities: the same length and, position by position, the
same name and the same attribute mapping (the same entries, in whatever order a `range` loop
yields them). -/
def SameEntities (es1 es2 : List Entity) : Prop :=
  List.Forall₂ (fun a b => a.Name = b.Name ∧ a.Attributes.Perm b.Attributes) es1 es2

/-- The text `pre` is a sequence of complete sections: entered at a section boundary with
`pre` ahead, the loop of `Read` consumes exactly `pre` and is back at a section boundary,
with the drawing updated by the sections of `pre`. -/
def CompleteSections (pre : List Char) : Prop :=
  ∃ f : Drawing → Drawing, ∀ d rest, ReadFrom d (pre ++ rest) = ReadFrom (f d) rest

/-- The lines of a text: the pieces successive calls of `ReadString` return, each with its
line feed, but for a last line that has none. -/
def splitLines : List Char → List (List Char)
  | [] => []
  | c :: cs =>
    if c = '\n' then [c] :: splitLines cs
    else
      match splitLines cs with
      | [] => [[c]]
      | l :: ls => (c :: l) :: ls

/-- The lines taken two by two: a code line and the value line after it. -/
def linePairs : List (List Char) → List (List Char × List Char)
  | c :: v :: rest => (c, v) :: linePairs rest
  | _ => []

/-- The pairs of an input, as its code lines and value lines. -/
def inputPairs (input : List Char) : List (List Char × List Char) :=
  linePairs (splitLines input)

/-- The pair of lines is the end marker 0/EOF. -/
def IsEOFPair (p : List Char × List Char) : Prop :=
  ParseInt (TrimSpace p.1) = some 0 ∧ TrimSpace p.2 = "EOF".toList

/-- Being the end marker is decidable. -/
instance instDecidableIsEOFPair (p : List Char × List Char) : Decidable (IsEOFPair p) := by
  unfold IsEOFPair
  infer_instance

/-- The input has a pair whose code line is not an integer. -/
def HasBadCode (input : List Char) : Prop :=
  ∃ p ∈ inputPairs input, ParseInt (TrimSpace p.1) = none

/-- The error `e` is one `Read` may return on the input `r`: `ErrInvalidFormat`, or
`ErrInvalidGroupCode` when a code line of `r` is not an integer. -/
def ErrOK (e : Err) (r : List Char) : Prop :=
  e = .ErrInvalidFormat ∨ (e = .ErrInvalidGroupCode ∧ HasBadCode r)

/-- What the writer needs of a block for the reader to decode it. -/
def GoodBlock (b : Block) : Prop :=
  (∀ e ∈ b.Entities, GoodEntity "ENDBLK".toList e) ∧
    (∀ p ∈ b.Attributes, GoodAttr p) ∧ (b.Attributes.map Prod.fst).Nodup

/-- The name of the header variable in force after the pairs `pre` of a HEADER section: the
value of the most recent pair with group code 9, empty when there is none. -/
def lastName (pre : List (GroupCode × List Char)) : List Char :=
  match (pre.filter (fun p => p.1 = 9)).getLast? with
  | some p => p.2
  | none => []

/-- The header table with the attribute `c = v` stored in the mapping of the variable `name`. -/
def headerStore (hd : HeaderMap) (name : List Char) (c : GroupCode) (v : List Char) :
    HeaderMap :=
  mapSet hd name (mapSet ((mapGet hd name).getD []) c v)

/-- The header table after the pairs `ps` that follow the pairs `pre` of the section, by the
rule of the specification: a pair with group code 9 opens a fresh empty mapping under its
value, replacing a prior mapping of that name; any other pair is stored in the mapping of
the variable named by the most recent pair with group code 9. -/
def headerTable : List (GroupCode × List Char) → HeaderMap → List (GroupCode × List Char) →
    HeaderMap
  | _, hd, [] => hd
  | pre, hd, (c, v) :: ps =>
    headerTable (pre ++ [(c, v)])
      (if c = 9 then mapSet hd v [] else headerStore hd (lastName pre) c v) ps

/-- Some pair of `ps`, after the pairs `pre` of the section, has a group code other than 9
while no variable name is in force. -/
def headerBad : List (GroupCode × List Char) → List (GroupCode × List Char) → Bool
  | _, [] => false
  | pre, (c, v) :: ps =>
    (decide (c ≠ 9) && decide (lastName pre = [])) || headerBad (pre ++ [(c, v)]) ps

/-- The value of the last pair of `ps` with the group code `c`, if there is one. -/
def lastValue (ps : List (GroupCode × List Char)) (c : GroupCode) : Option (List Char) :=
  ((ps.filter (fun p => p.1 = c)).getLast?).map Prod.snd

/-- The text is a base-10 signed integer: an optional sign and at least one decimal digit. -/
def IsSignedDecimal (s : List Char) : Prop :=
  ∃ sign digits : List Char, s = sign ++ digits ∧ (sign = [] ∨ sign = ['+'] ∨ sign = ['-']) ∧
    digits ≠ [] ∧ ∀ x ∈ digits, (digitVal x).isSome = true

/-- The pairs at the head of `ps` that come before its first pair with group code 0. -/
def leadingAttrs (ps : List (GroupCode × List Char)) : List (GroupCode × List Char) :=
  ps.takeWhile (fun p => decide (p.1 ≠ 0))

/-- The entities of a sequence of pairs, by the rule of the specification: one entity per
pair with group code 0, in order, named by the value of that pair, with the attributes of
the pairs between it and the next pair with group code 0. -/
def entitiesOf : List (GroupCode × List Char) → List Entity
  | [] => []
  | (c, v) :: ps =>
    if c = 0 then { Name := v, Attributes := mapSetAll [] (leadingAttrs ps) } :: entitiesOf ps
    else entitiesOf ps

/-- The entity in progress, if any, once it has taken the pairs at the head of `ps`. -/
def closeEntity (cur : Option Entity) (ps : List (GroupCode × List Char)) : List Entity :=
  match cur with
  | none => []
  | some e => [{ Name := e.Name, Attributes := mapSetAll e.Attributes (leadingAttrs ps) }]

/-- The first pair of an ENTITIES section has a non-zero group code: an attribute comes
before any entity. -/
def hasPreamble : List (GroupCode × List Char) → Bool
  | [] => false
  | (c, _) :: _ => decide (c ≠ 0)

/-- The two lists hold the same blocks: the same length and, position by position, the same
attribute mapping and the same entities. -/
def SameBlocks (bs1 bs2 : List Block) : Prop :=
  List.Forall₂
    (fun a b => a.Attributes.Perm b.Attributes ∧ SameEntities a.Entities b.Entities) bs1 bs2

/-- Two fields of a drawing are both nil, or both non-nil and related by `R`. -/
def SameField {α : Type} (R : α → α → Prop) : Option α → Option α → Prop
  | none, none => True
  | some a, some b => R a b
  | _, _ => False

/-- The text is empty or ends with a line feed: each of its lines has its line terminator. -/
def Terminated (r : List Char) : Prop :=
  r = [] ∨ r.getLast? = some '\n'

/-- A section of the input as `Read` decodes it: the value a sub-reader returns, or the name
of a section that is skipped. -/
inductive Section where
  | header (hd : HeaderMap)
  | classes (cs : List Class)
  | blocks (bs : List Block)
  | entities (es : List Entity)
  | other (name : List Char)

/-- The input `r`, entered at a section boundary, is the sequence of sections `secs` followed
by the end marker 0/EOF. -/
inductive Parses : List Char → List Section → Prop where
  | eof {r r1 : List Char} : readCodes r = .ok (0, "EOF".toList, r1) → Parses r []
  | header {r r1 r2 r3 : List Char} {hd : HeaderMap} {secs : List Section} :
      readCodes r = .ok (0, "SECTION".toList, r1) →
      readCodes r1 = .ok (2, "HEADER".toList, r2) →
      readHeader r2 = .ok (hd, r3) → Parses r3 secs → Parses r (Section.header hd :: secs)
  | classes {r r1 r2 r3 : List Char} {cs : List Class} {secs : List Section} :
      readCodes r = .ok (0, "SECTION".toList, r1) →
      readCodes r1 = .ok (2, "CLASSES".toList, r2) →
      readClasses r2 = .ok (cs, r3) → Parses r3 secs → Parses r (Section.classes cs :: secs)
  | blocks {r r1 r2 r3 : List Char} {bs : List Block} {secs : List Section} :
      readCodes r = .ok (0, "SECTION".toList, r1) →
      readCodes r1 = .ok (2, "BLOCKS".toList, r2) →
      readBlocks r2 = .ok (bs, r3) → Parses r3 secs → Parses r (Section.blocks bs :: secs)
  | entities {r r1 r2 r3 : List Char} {es : List Entity} {secs : List Section} :
      readCodes r = .ok (0, "SECTION".toList, r1) →
      readCodes r1 = .ok (2, "ENTITIES".toList, r2) →
      readEntities r2 = .ok (es, r3) → Parses r3 secs → Parses r (Section.entities es :: secs)
  | other {r r1 r2 r3 : List Char} {name : List Char} {secs : List Section} :
      readCodes r = .ok (0, "SECTION".toList, r1) →
      readCodes r1 = .ok (2, name, r2) →
      (name ≠ "HEADER".toList ∧ name ≠ "CLASSES".toList ∧ name ≠ "BLOCKS".toList ∧
        name ≠ "ENTITIES".toList) →
      skipSection r2 = .ok r3 → Parses r3 secs → Parses r (Section.other name :: secs)

/-- The content of a HEADER section. -/
def Section.header? : Section → Option HeaderMap
  | .header hd => some hd
  | _ => none

/-- The content of a CLASSES section. -/
def Section.classes? : Section → Option (List Class)
  | .classes cs => some cs
  | _ => none

/-- The content of a BLOCKS section. -/
def Section.blocks? : Section → Option (List Block)
  | .blocks bs => some bs
  | _ => none

/-- The content of an ENTITIES section. -/
def Section.entities? : Section → Option (List Entity)
  | .entities es => some es
  | _ => none

/-- The content of the last section of one name among `secs`, `none` when there is none. -/
def lastOf {α : Type} (f : Section → Option α) (secs : List Section) : Option α :=
  (secs.filterMap f).getLast?

/-- The assignment to the field of the drawing that follows the decoding of a section. -/
def applySection (d : Drawing) : Section → Drawing
  | .header hd => { d with Header := some hd }
  | .classes cs => { d with Classes := some cs }
  | .blocks bs => { d with Blocks := some bs }
  | .entities es => { d with Entities := some es }
  | .other _ => d

/-- The text with which `writeBlocks` opens its section: the pairs 0/SECTION and 2/BLOCKS. -/
def blocksOpen : List Char := " 0\nSECTION\n 2\nBLOCKS\n".toList

/-- The BLOCKS bracket appears in a text: the text of the pairs 0/SECTION, 2/BLOCKS and, after
a body, the text of the pair 0/ENDSEC. -/
def HasBlocksBracket (text : List Char) : Prop :=
  ∃ pre body post, text = pre ++ blocksOpen ++ body ++ " 0\nENDSEC\n".toList ++ post

/-- A pair written outside the BLOCKS section that cannot be taken for the opening of a
section: its value has no line feed and it is not the pair 0/SECTION. -/
def PlainPair (c : GroupCode) (v : List Char) : Prop :=
  '\n' ∉ v ∧ ¬ (c = 0 ∧ v = "SECTION".toList)

/-- Every attribute of the mapping is written as a plain pair. -/
def PlainAttrs (a : Attrs) : Prop := ∀ p ∈ a, PlainPair p.1 p.2

/-- The fields of the drawing other than `Blocks` are written as plain pairs: the header
variable names and the entity names (all written with group code 0) and every attribute. -/
def PlainOutside (d : Drawing) : Prop :=
  (∀ h, d.Header = some h → ∀ kv ∈ h, PlainPair 0 kv.1 ∧ PlainAttrs kv.2) ∧
  (∀ cs, d.Classes = some cs → ∀ c ∈ cs, PlainAttrs c.Attributes) ∧
  (∀ es, d.Entities = some es → ∀ e ∈ es, PlainPair 0 e.Name ∧ PlainAttrs e.Attributes)

/-- The text holds no opening of a BLOCKS section and, when it is not empty, begins with the
blank the writer puts before a group code. -/
def NoBracket (X : List Char) : Prop :=
  (X = [] ∨ ∃ Y, X = ' ' :: Y) ∧ ¬ blocksOpen <:+: X

/-! ## Theorems -/

/-! ### Lines and pairs -/

theorem readString_length (r : List Char) :
    (readString r).1.length + (readString r).2.2.length = r.length := by
  induction r with
  | nil => simp [readString]
  | cons c cs ih =>
    unfold readString
    split
    · simp; omega
    · simp; omega

theorem readString_found_pos (r : List Char) (h : (readString r).2.1 = true) :
    0 < (readString r).1.length := by
  cases r with
  | nil => simp [readString] at h
  | cons c cs =>
    unfold readString
    split <;> simp

theorem readString_rest_lt (r : List Char) (h : (readString r).2.1 = true) :
    (readString r).2.2.length < r.length := by
  have h1 := readString_length r
  have h2 := readString_found_pos r h
  omega

theorem readString_rest_le (r : List Char) : (readString r).2.2.length ≤ r.length := by
  have h1 := readString_length r
  omega

theorem readString_line (l rest : List Char) (h : '\n' ∉ l) :
    readString (l ++ '\n' :: rest) = (l ++ ['\n'], true, rest) := by
  induction l with
  | nil => simp [readString]
  | cons c cs ih =>
    have hc : c ≠ '\n' := fun e => h (by simp [e])
    have hcs : '\n' ∉ cs := fun e => h (by simp [e])
    simp [readString, hc, ih hcs]

theorem readCodes_length {r : List Char} {c : GroupCode} {v r1 : List Char}
    (h : readCodes r = .ok (c, v, r1)) : r1.length < r.length := by
  unfold readCodes at h
  simp only at h
  split at h
  · split at h <;> cases h
  · rename_i hf
    split at h
    · cases h
    · split at h
      · cases h
      · cases h
        have h1 := readString_rest_lt r (by simpa using hf)
        have h2 := readString_rest_le (readString r).2.2
        omega

/-! ### What a loop consumes -/

theorem Advances.length_le {r r1 : List Char} (h : Advances r r1) : r1.length ≤ r.length := by
  induction h with
  | refl r => exact le_rfl
  | step hc _ ih => have := readCodes_length hc; omega

theorem Advances.trans {r r1 r2 : List Char} (h : Advances r r1) (h1 : Advances r1 r2) :
    Advances r r2 := by
  induction h with
  | refl r => exact h1
  | step hc _ ih => exact Advances.step hc (ih h1)

theorem skipLoop_adv : ∀ (n : Nat) (r r1 : List Char), skipLoop n r = .ok r1 → Advances r r1 := by
  intro n
  induction n with
  | zero => intro r r1 h; simp [skipLoop] at h
  | succ n ih =>
    intro r r1 h
    rw [skipLoop] at h
    split at h
    · cases h
    · rename_i c v r2 hc
      split at h
      · cases h; exact Advances.step hc (Advances.refl _)
      · exact Advances.step hc (ih _ _ h)

theorem readHeaderLoop_adv : ∀ (n : Nat) (hd : HeaderMap) (key r : List Char)
    (res : HeaderMap) (r1 : List Char),
    readHeaderLoop n hd key r = .ok (res, r1) → Advances r r1 := by
  intro n
  induction n with
  | zero => intro hd key r res r1 h; simp [readHeaderLoop] at h
  | succ n ih =>
    intro hd key r res r1 h
    rw [readHeaderLoop] at h
    split at h
    · cases h
    · rename_i c v r2 hc
      split at h
      · cases h; exact Advances.step hc (Advances.refl _)
      · split at h
        · exact Advances.step hc (ih _ _ _ _ _ h)
        · split at h
          · cases h
          · split at h
            · cases h
            · exact Advances.step hc (ih _ _ _ _ _ h)

theorem readClassLoop_adv : ∀ (n : Nat) (cls : Class) (r : List Char) (res : Class)
    (r1 : List Char), readClassLoop n cls r = .ok (res, r1) → Advances r r1 := by
  intro n
  induction n with
  | zero => intro cls r res r1 h; simp [readClassLoop] at h; rw [h.2]; exact Advances.refl _
  | succ n ih =>
    intro cls r res r1 h
    rw [readClassLoop] at h
    split at h
    · cases h
    · rename_i c v r2 hc
      exact Advances.step hc (ih _ _ _ _ h)

theorem readBlockLoop_adv : ∀ (n : Nat) (b : Block) (e : Option Entity) (r : List Char)
    (res : Block) (r1 : List Char),
    readBlockLoop n b e r = .ok (res, r1) → Advances r r1 := by
  intro n
  induction n with
  | zero => intro b e r res r1 h; simp [readBlockLoop] at h
  | succ n ih =>
    intro b e r res r1 h
    rw [readBlockLoop] at h
    split at h
    · cases h
    · rename_i c v r2 hc
      split at h
      · split at h
        · cases h; exact Advances.step hc (Advances.refl _)
        · exact Advances.step hc (ih _ _ _ _ _ h)
      · split at h
        · exact Advances.step hc (ih _ _ _ _ _ h)
        · exact Advances.step hc (ih _ _ _ _ _ h)

theorem readEntitiesLoop_adv : ∀ (n : Nat) (es : List Entity) (e : Option Entity)
    (r : List Char) (res : List Entity) (r1 : List Char),
    readEntitiesLoop n es e r = .ok (res, r1) → Advances r r1 := by
  intro n
  induction n with
  | zero => intro es e r res r1 h; simp [readEntitiesLoop] at h
  | succ n ih =>
    intro es e r res r1 h
    rw [readEntitiesLoop] at h
    split at h
    · cases h
    · rename_i c v r2 hc
      split at h
      · split at h
        · cases h; exact Advances.step hc (Advances.refl _)
        · exact Advances.step hc (ih _ _ _ _ _ h)
      · split at h
        · cases h
        · exact Advances.step hc (ih _ _ _ _ _ h)

theorem readClassesLoop_adv : ∀ (n : Nat) (cs : List Class) (r : List Char)
    (res : List Class) (r1 : List Char),
    readClassesLoop n cs r = .ok (res, r1) → Advances r r1 := by
  intro n
  induction n with
  | zero => intro cs r res r1 h; simp [readClassesLoop] at h
  | succ n ih =>
    intro cs r res r1 h
    rw [readClassesLoop] at h
    split at h
    · cases h
    · rename_i c v r2 hc
      split at h
      · split at h
        · cases h; exact Advances.step hc (Advances.refl _)
        · split at h
          · split at h
            · cases h
            · rename_i cls r3 hcl
              exact Advances.step hc ((readClassLoop_adv _ _ _ _ _ hcl).trans (ih _ _ _ _ h))
          · cases h
      · cases h

theorem readBlocksLoop_adv : ∀ (n : Nat) (bs : List Block) (r : List Char)
    (res : List Block) (r1 : List Char),
    readBlocksLoop n bs r = .ok (res, r1) → Advances r r1 := by
  intro n
  induction n with
  | zero => intro bs r res r1 h; simp [readBlocksLoop] at h
  | succ n ih =>
    intro bs r res r1 h
    rw [readBlocksLoop] at h
    split at h
    · cases h
    · rename_i c v r2 hc
      split at h
      · split at h
        · cases h; exact Advances.step hc (Advances.refl _)
        · split at h
          · split at h
            · cases h
            · rename_i blk r3 hb
              exact Advances.step hc ((readBlockLoop_adv _ _ _ _ _ _ hb).trans (ih _ _ _ _ h))
          · cases h
      · cases h

/-! ### The loops do not depend on their fuel -/

theorem skipLoop_fuel : ∀ (n m : Nat) (r : List Char), r.length < n → r.length < m →
    skipLoop n r = skipLoop m r := by
  intro n
  induction n with
  | zero => intro m r h; omega
  | succ n ih =>
    intro m r hn hm
    cases m with
    | zero => omega
    | succ m =>
      simp only [skipLoop]
      cases h : readCodes r with
      | error e => rfl
      | ok p =>
        obtain ⟨c, v, r1⟩ := p
        have hl := readCodes_length h
        simp only
        split
        · rfl
        · exact ih m r1 (by omega) (by omega)

theorem skipSection_step (r : List Char) :
    skipSection r =
      match readCodes r with
      | .error e => .error (eofToFormat e)
      | .ok (groupCode, value, r1) =>
        if groupCode = 0 ∧ value = "ENDSEC".toList then .ok r1 else skipSection r1 := by
  unfold skipSection
  rw [skipLoop]
  cases h : readCodes r with
  | error e => rfl
  | ok p =>
    obtain ⟨c, v, r1⟩ := p
    have hl := readCodes_length h
    simp only
    split
    · rfl
    · apply skipLoop_fuel <;> omega

theorem readHeaderLoop_fuel : ∀ (n m : Nat) (hd : HeaderMap) (key r : List Char),
    r.length < n → r.length < m → readHeaderLoop n hd key r = readHeaderLoop m hd key r := by
  intro n
  induction n with
  | zero => intro m hd key r h; omega
  | succ n ih =>
    intro m hd key r hn hm
    cases m with
    | zero => omega
    | succ m =>
      simp only [readHeaderLoop]
      cases h : readCodes r with
      | error e => rfl
      | ok p =>
        obtain ⟨c, v, r1⟩ := p
        have hl := readCodes_length h
        simp only
        split
        · rfl
        · split
          · exact ih m _ _ r1 (by omega) (by omega)
          · split
            · rfl
            · split
              · rfl
              · exact ih m _ _ r1 (by omega) (by omega)

theorem readHeaderFrom_step (hd : HeaderMap) (key r : List Char) :
    readHeaderFrom hd key r =
      match readCodes r with
      | .error e => .error (eofToFormat e)
      | .ok (groupCode, value, r1) =>
        if groupCode = 0 ∧ value = "ENDSEC".toList then .ok (hd, r1)
        else if groupCode = 9 then readHeaderFrom (mapSet hd value []) value r1
        else if key = [] then .error .ErrInvalidFormat
        else
          match headerSet hd key groupCode value with
          | .error e => .error e
          | .ok header1 => readHeaderFrom header1 key r1 := by
  unfold readHeaderFrom
  rw [readHeaderLoop]
  cases h : readCodes r with
  | error e => rfl
  | ok p =>
    obtain ⟨c, v, r1⟩ := p
    have hl := readCodes_length h
    simp only
    split
    · rfl
    · split
      · apply readHeaderLoop_fuel <;> omega
      · split
        · rfl
        · cases hs : headerSet hd key c v with
          | error e => rfl
          | ok h1 =>
            simp only
            apply readHeaderLoop_fuel <;> omega

theorem readEntitiesLoop_fuel : ∀ (n m : Nat) (es : List Entity) (e : Option Entity)
    (r : List Char), r.length < n → r.length < m →
    readEntitiesLoop n es e r = readEntitiesLoop m es e r := by
  intro n
  induction n with
  | zero => intro m es e r h; omega
  | succ n ih =>
    intro m es e r hn hm
    cases m with
    | zero => omega
    | succ m =>
      simp only [readEntitiesLoop]
      cases h : readCodes r with
      | error e => rfl
      | ok p =>
        obtain ⟨c, v, r1⟩ := p
        have hl := readCodes_length h
        simp only
        split
        · split
          · rfl
          · apply ih <;> omega
        · cases e with
          | none => rfl
          | some e0 => simp only; apply ih <;> omega

theorem readEntitiesFrom_step (es : List Entity) (e : Option Entity) (r : List Char) :
    readEntitiesFrom es e r =
      match readCodes r with
      | .error e1 => .error (eofToFormat e1)
      | .ok (groupCode, value, r1) =>
        if groupCode = 0 then
          if value = "ENDSEC".toList then .ok (appendEntity es e, r1)
          else readEntitiesFrom (appendEntity es e) (some { Name := value, Attributes := [] }) r1
        else
          match e with
          | none => .error .ErrInvalidFormat
          | some e0 =>
            readEntitiesFrom es
              (some { e0 with Attributes := mapSet e0.Attributes groupCode value }) r1 := by
  unfold readEntitiesFrom
  rw [readEntitiesLoop]
  cases h : readCodes r with
  | error e => rfl
  | ok p =>
    obtain ⟨c, v, r1⟩ := p
    have hl := readCodes_length h
    simp only
    split
    · split
      · rfl
      · apply readEntitiesLoop_fuel <;> omega
    · cases e with
      | none => rfl
      | some e0 => simp only; apply readEntitiesLoop_fuel <;> omega

theorem readBlockLoop_fuel : ∀ (n m : Nat) (b : Block) (e : Option Entity)
    (r : List Char), r.length < n → r.length < m →
    readBlockLoop n b e r = readBlockLoop m b e r := by
  intro n
  induction n with
  | zero => intro m b e r h; omega
  | succ n ih =>
    intro m b e r hn hm
    cases m with
    | zero => omega
    | succ m =>
      simp only [readBlockLoop]
      cases h : readCodes r with
      | error e => rfl
      | ok p =>
        obtain ⟨c, v, r1⟩ := p
        have hl := readCodes_length h
        simp only
        split
        · split
          · rfl
          · apply ih <;> omega
        · cases e with
          | none => simp only; apply ih <;> omega
          | some e0 => simp only; apply ih <;> omega

theorem readBlockFrom_step (b : Block) (e : Option Entity) (r : List Char) :
    readBlockFrom b e r =
      match readCodes r with
      | .error e1 => .error (eofToFormat e1)
      | .ok (groupCode, value, r1) =>
        if groupCode = 0 then
          if value = "ENDBLK".toList then
            .ok ({ b with Entities := appendEntity b.Entities e }, r1)
          else
            readBlockFrom { b with Entities := appendEntity b.Entities e }
              (some { Name := value, Attributes := [] }) r1
        else
          match e with
          | some e0 =>
            readBlockFrom b (some { e0 with Attributes := mapSet e0.Attributes groupCode value }) r1
          | none =>
            readBlockFrom { b with Attributes := mapSet b.Attributes groupCode value } none r1 := by
  unfold readBlockFrom
  rw [readBlockLoop]
  cases h : readCodes r with
  | error e => rfl
  | ok p =>
    obtain ⟨c, v, r1⟩ := p
    have hl := readCodes_length h
    simp only
    split
    · split
      · rfl
      · apply readBlockLoop_fuel <;> omega
    · cases e with
      | none => simp only; apply readBlockLoop_fuel <;> omega
      | some e0 => simp only; apply readBlockLoop_fuel <;> omega

theorem readClass_adv {r : List Char} {cls : Class} {r1 : List Char}
    (h : readClass r = .ok (cls, r1)) : Advances r r1 :=
  readClassLoop_adv _ _ _ _ _ h

theorem readBlock_adv {r : List Char} {b : Block} {r1 : List Char}
    (h : readBlock r = .ok (b, r1)) : Advances r r1 :=
  readBlockLoop_adv _ _ _ _ _ _ h

theorem readClassesLoop_fuel : ∀ (n m : Nat) (cs : List Class) (r : List Char),
    r.length < n → r.length < m → readClassesLoop n cs r = readClassesLoop m cs r := by
  intro n
  induction n with
  | zero => intro m cs r h; omega
  | succ n ih =>
    intro m cs r hn hm
    cases m with
    | zero => omega
    | succ m =>
      simp only [readClassesLoop]
      cases h : readCodes r with
      | error e => rfl
      | ok p =>
        obtain ⟨c, v, r1⟩ := p
        have hl := readCodes_length h
        simp only
        split
        · split
          · rfl
          · split
            · cases hc : readClass r1 with
              | error e => rfl
              | ok q =>
                obtain ⟨cls, r2⟩ := q
                have hl2 := (readClass_adv hc).length_le
                simp only
                apply ih <;> omega
            · rfl
        · rfl

theorem readClassesFrom_step (cs : List Class) (r : List Char) :
    readClassesFrom cs r =
      match readCodes r with
      | .error e => .error (eofToFormat e)
      | .ok (groupCode, value, r1) =>
        if groupCode = 0 then
          if value = "ENDSEC".toList then .ok (cs, r1)
          else if value = "CLASS".toList then
            match readClass r1 with
            | .error e => .error e
            | .ok (cls, r2) => readClassesFrom (cs ++ [cls]) r2
          else .error .ErrInvalidFormat
        else .error .ErrInvalidFormat := by
  unfold readClassesFrom
  rw [readClassesLoop]
  cases h : readCodes r with
  | error e => rfl
  | ok p =>
    obtain ⟨c, v, r1⟩ := p
    have hl := readCodes_length h
    simp only
    split
    · split
      · rfl
      · split
        · cases hc : readClass r1 with
          | error e => rfl
          | ok q =>
            obtain ⟨cls, r2⟩ := q
            have hl2 := (readClass_adv hc).length_le
            simp only
            apply readClassesLoop_fuel <;> omega
        · rfl
    · rfl

theorem readBlocksLoop_fuel : ∀ (n m : Nat) (bs : List Block) (r : List Char),
    r.length < n → r.length < m → readBlocksLoop n bs r = readBlocksLoop m bs r := by
  intro n
  induction n with
  | zero => intro m bs r h; omega
  | succ n ih =>
    intro m bs r hn hm
    cases m with
    | zero => omega
    | succ m =>
      simp only [readBlocksLoop]
      cases h : readCodes r with
      | error e => rfl
      | ok p =>
        obtain ⟨c, v, r1⟩ := p
        have hl := readCodes_length h
        simp only
        split
        · split
          · rfl
          · split
            · cases hc : readBlock r1 with
              | error e => rfl
              | ok q =>
                obtain ⟨blk, r2⟩ := q
                have hl2 := (readBlock_adv hc).length_le
                simp only
                apply ih <;> omega
            · rfl
        · rfl

theorem readBlocksFrom_step (bs : List Block) (r : List Char) :
    readBlocksFrom bs r =
      match readCodes r with
      | .error e => .error (eofToFormat e)
      | .ok (groupCode, value, r1) =>
        if groupCode = 0 then
          if value = "ENDSEC".toList then .ok (bs, r1)
          else if value = "BLOCK".toList then
            match readBlock r1 with
            | .error e => .error e
            | .ok (block, r2) => readBlocksFrom (bs ++ [block]) r2
          else .error .ErrInvalidFormat
        else .error .ErrInvalidFormat := by
  unfold readBlocksFrom
  rw [readBlocksLoop]
  cases h : readCodes r with
  | error e => rfl
  | ok p =>
    obtain ⟨c, v, r1⟩ := p
    have hl := readCodes_length h
    simp only
    split
    · split
      · rfl
      · split
        · cases hc : readBlock r1 with
          | error e => rfl
          | ok q =>
            obtain ⟨blk, r2⟩ := q
            have hl2 := (readBlock_adv hc).length_le
            simp only
            apply readBlocksLoop_fuel <;> omega
        · rfl
    · rfl

theorem readHeader_adv {r : List Char} {hd : HeaderMap} {r1 : List Char}
    (h : readHeader r = .ok (hd, r1)) : Advances r r1 :=
  readHeaderLoop_adv _ _ _ _ _ _ h

theorem readClasses_adv {r : List Char} {cs : List Class} {r1 : List Char}
    (h : readClasses r = .ok (cs, r1)) : Advances r r1 :=
  readClassesLoop_adv _ _ _ _ _ h

theorem readBlocks_adv {r : List Char} {bs : List Block} {r1 : List Char}
    (h : readBlocks r = .ok (bs, r1)) : Advances r r1 :=
  readBlocksLoop_adv _ _ _ _ _ h

theorem readEntities_adv {r : List Char} {es : List Entity} {r1 : List Char}
    (h : readEntities r = .ok (es, r1)) : Advances r r1 :=
  readEntitiesLoop_adv _ _ _ _ _ _ h

theorem skipSection_adv {r r1 : List Char} (h : skipSection r = .ok r1) : Advances r r1 :=
  skipLoop_adv _ _ _ h

theorem ReadLoop_fuel : ∀ (n m : Nat) (d : Drawing) (r : List Char),
    r.length < n → r.length < m → ReadLoop n d r = ReadLoop m d r := by
  intro n
  induction n with
  | zero => intro m d r h; omega
  | succ n ih =>
    intro m d r hn hm
    cases m with
    | zero => omega
    | succ m =>
      simp only [ReadLoop]
      cases h : readCodes r with
      | error e => rfl
      | ok p =>
        obtain ⟨c, v, r1⟩ := p
        have hl := readCodes_length h
        simp only
        split
        · rfl
        · split
          · rfl
          · split
            · rfl
            · cases h2 : readCodes r1 with
              | error e => rfl
              | ok p2 =>
                obtain ⟨c2, v2, r2⟩ := p2
                have hl2 := readCodes_length h2
                simp only
                split
                · rfl
                · split
                  · cases hs : readHeader r2 with
                    | error e => rfl
                    | ok q =>
                      obtain ⟨x, r3⟩ := q
                      have hl3 := (readHeader_adv hs).length_le
                      simp only
                      apply ih <;> omega
                  · split
                    · cases hs : readClasses r2 with
                      | error e => rfl
                      | ok q =>
                        obtain ⟨x, r3⟩ := q
                        have hl3 := (readClasses_adv hs).length_le
                        simp only
                        apply ih <;> omega
                    · split
                      · cases hs : readBlocks r2 with
                        | error e => rfl
                        | ok q =>
                          obtain ⟨x, r3⟩ := q
                          have hl3 := (readBlocks_adv hs).length_le
                          simp only
                          apply ih <;> omega
                      · split
                        · cases hs : readEntities r2 with
                          | error e => rfl
                          | ok q =>
                            obtain ⟨x, r3⟩ := q
                            have hl3 := (readEntities_adv hs).length_le
                            simp only
                            apply ih <;> omega
                        · cases hs : skipSection r2 with
                          | error e => rfl
                          | ok r3 =>
                            have hl3 := (skipSection_adv hs).length_le
                            simp only
                            apply ih <;> omega

theorem ReadFrom_step (d : Drawing) (r : List Char) :
    ReadFrom d r =
      match readCodes r with
      | .error e => .error (eofToFormat e)
      | .ok (groupCode, value, r1) =>
        if groupCode ≠ 0 then .error .ErrInvalidFormat
        else if value = "EOF".toList then .ok d
        else if value ≠ "SECTION".toList then .error .ErrInvalidFormat
        else
          match readCodes r1 with
          | .error e => .error (eofToFormat e)
          | .ok (groupCode2, value2, r2) =>
            if groupCode2 ≠ 2 then .error .ErrInvalidFormat
            else if value2 = "HEADER".toList then
              match readHeader r2 with
              | .error e => .error e
              | .ok (header, r3) => ReadFrom { d with Header := some header } r3
            else if value2 = "CLASSES".toList then
              match readClasses r2 with
              | .error e => .error e
              | .ok (classes, r3) => ReadFrom { d with Classes := some classes } r3
            else if value2 = "BLOCKS".toList then
              match readBlocks r2 with
              | .error e => .error e
              | .ok (blocks, r3) => ReadFrom { d with Blocks := some blocks } r3
            else if value2 = "ENTITIES".toList then
              match readEntities r2 with
              | .error e => .error e
              | .ok (entities, r3) => ReadFrom { d with Entities := some entities } r3
            else
              match skipSection r2 with
              | .error e => .error e
              | .ok r3 => ReadFrom d r3 := by
  unfold ReadFrom
  rw [ReadLoop]
  cases h : readCodes r with
  | error e => rfl
  | ok p =>
    obtain ⟨c, v, r1⟩ := p
    have hl := readCodes_length h
    simp only
    split
    · rfl
    · split
      · rfl
      · split
        · rfl
        · cases h2 : readCodes r1 with
          | error e => rfl
          | ok p2 =>
            obtain ⟨c2, v2, r2⟩ := p2
            have hl2 := readCodes_length h2
            simp only
            split
            · rfl
            · split
              · cases hs : readHeader r2 with
                | error e => rfl
                | ok q =>
                  obtain ⟨x, r3⟩ := q
                  have hl3 := (readHeader_adv hs).length_le
                  simp only
                  apply ReadLoop_fuel <;> omega
              · split
                · cases hs : readClasses r2 with
                  | error e => rfl
                  | ok q =>
                    obtain ⟨x, r3⟩ := q
                    have hl3 := (readClasses_adv hs).length_le
                    simp only
                    apply ReadLoop_fuel <;> omega
                · split
                  · cases hs : readBlocks r2 with
                    | error e => rfl
                    | ok q =>
                      obtain ⟨x, r3⟩ := q
                      have hl3 := (readBlocks_adv hs).length_le
                      simp only
                      apply ReadLoop_fuel <;> omega
                  · split
                    · cases hs : readEntities r2 with
                      | error e => rfl
                      | ok q =>
                        obtain ⟨x, r3⟩ := q
                        have hl3 := (readEntities_adv hs).length_le
                        simp only
                        apply ReadLoop_fuel <;> omega
                    · cases hs : skipSection r2 with
                      | error e => rfl
                      | ok r3 =>
                        have hl3 := (skipSection_adv hs).length_le
                        simp only
                        apply ReadLoop_fuel <;> omega

/-! ### The writer appends to its sink -/

theorem foldl_sink {α : Type} (g : List Char → α → List Char)
    (hg : ∀ w x, g w x = w ++ g [] x) (w : List Char) (l : List α) :
    l.foldl g w = w ++ l.flatMap (g []) := by
  induction l generalizing w with
  | nil => simp
  | cons x xs ih => rw [List.foldl_cons, ih, hg w x]; simp

theorem writeAttributes_sink (w : List Char) (a : Attrs) :
    writeAttributes w a = w ++ a.flatMap (fun p => sprintfAttr p.1 p.2) := by
  unfold writeAttributes
  have h := foldl_sink
    (fun (w1 : List Char) (p : GroupCode × List Char) => WriteString w1 (sprintfAttr p.1 p.2))
    (by intro w x; simp [WriteString]) w a
  simpa [WriteString] using h

theorem writeEntity_sink (w : List Char) (e : Entity) :
    writeEntity w e = w ++ writeEntity [] e := by
  simp [writeEntity, writeAttributes_sink, WriteString]

theorem writeEntity_text (e : Entity) :
    writeEntity [] e =
      sprintfName e.Name ++ e.Attributes.flatMap (fun p => sprintfAttr p.1 p.2) := by
  simp [writeEntity, writeAttributes_sink, WriteString]

theorem writeClass_sink (w : List Char) (c : Class) :
    writeClass w c = w ++ writeClass [] c := by
  simp [writeClass, writeAttributes_sink, WriteString]

theorem writeBlock_sink (w : List Char) (b : Block) :
    writeBlock w b = w ++ writeBlock [] b := by
  simp [writeBlock, writeAttributes_sink, WriteString, foldl_sink writeEntity writeEntity_sink]

theorem writeBlock_text (b : Block) :
    writeBlock [] b =
      " 0\nBLOCK\n".toList ++ b.Attributes.flatMap (fun p => sprintfAttr p.1 p.2) ++
        b.Entities.flatMap (writeEntity []) ++ " 0\nENDBLK\n".toList := by
  simp [writeBlock, writeAttributes_sink, WriteString, foldl_sink writeEntity writeEntity_sink]

theorem writeHeader_text (w : List Char) (h : HeaderMap) :
    writeHeader w h =
      w ++ (" 0\nSECTION\n 2\nHEADER\n".toList ++
        h.flatMap (fun kv => sprintfName kv.1 ++ kv.2.flatMap (fun p => sprintfAttr p.1 p.2)) ++
        " 0\nENDSEC\n".toList) := by
  unfold writeHeader
  have h1 := foldl_sink
    (fun (w1 : List Char) (kv : List Char × Attrs) =>
      writeAttributes (WriteString w1 (sprintfName kv.1)) kv.2)
    (by intro w x; simp [WriteString, writeAttributes_sink])
    (WriteString (startSection w) " 2\nHEADER\n".toList) h
  rw [h1]
  simp [endSection, startSection, WriteString, writeAttributes_sink]

theorem writeClasses_text (w : List Char) (cs : List Class) :
    writeClasses w cs =
      w ++ (" 0\nSECTION\n 2\nCLASSES\n".toList ++ cs.flatMap (writeClass []) ++
        " 0\nENDSEC\n".toList) := by
  unfold writeClasses
  rw [foldl_sink writeClass writeClass_sink]
  simp [endSection, startSection, WriteString]

theorem writeBlocks_text (w : List Char) (bs : List Block) :
    writeBlocks w bs =
      w ++ (" 0\nSECTION\n 2\nBLOCKS\n".toList ++ bs.flatMap (writeBlock []) ++
        " 0\nENDSEC\n".toList) := by
  unfold writeBlocks
  rw [foldl_sink writeBlock writeBlock_sink]
  simp [endSection, startSection, WriteString]

theorem writeEntities_text (w : List Char) (es : List Entity) :
    writeEntities w es =
      w ++ (" 0\nSECTION\n 2\nENTITIES\n".toList ++ es.flatMap (writeEntity []) ++
        " 0\nENDSEC\n".toList) := by
  unfold writeEntities
  rw [foldl_sink writeEntity writeEntity_sink]
  simp [endSection, startSection, WriteString]

theorem Write_text (d : Drawing) :
    Write d = sectionText writeHeader d.Header ++ sectionText writeClasses d.Classes ++
      sectionText writeBlocks d.Blocks ++ sectionText writeEntities d.Entities ++
      " 0\nEOF".toList := by
  obtain ⟨h, c, b, e⟩ := d
  unfold Write
  cases h <;> cases c <;> cases b <;> cases e <;>
    simp only [sectionText, WriteString, List.nil_append, List.append_assoc] <;>
    simp only [writeHeader_text ([] ++ _), writeClasses_text (_ ++ _), writeBlocks_text (_ ++ _),
      writeEntities_text (_ ++ _), writeHeader_text [], writeClasses_text [], writeBlocks_text [],
      writeEntities_text [], List.nil_append, List.append_assoc]

/-- C6: the text written is the HEADER, CLASSES, BLOCKS and ENTITIES sections of the non-nil
fields, in this order, followed by the pair 0/EOF; every section written starts with the pairs
0/SECTION, 2/NAME and ends with the pair 0/ENDSEC; the text always ends with 0/EOF. -/
theorem Write_emission_order (d : Drawing) :
    Write d = sectionText writeHeader d.Header ++ sectionText writeClasses d.Classes ++
      sectionText writeBlocks d.Blocks ++ sectionText writeEntities d.Entities ++
      " 0\nEOF".toList ∧
    (∀ x, ∃ body, writeHeader [] x =
      " 0\nSECTION\n 2\nHEADER\n".toList ++ body ++ " 0\nENDSEC\n".toList) ∧
    (∀ x, ∃ body, writeClasses [] x =
      " 0\nSECTION\n 2\nCLASSES\n".toList ++ body ++ " 0\nENDSEC\n".toList) ∧
    (∀ x, ∃ body, writeBlocks [] x =
      " 0\nSECTION\n 2\nBLOCKS\n".toList ++ body ++ " 0\nENDSEC\n".toList) ∧
    (∀ x, ∃ body, writeEntities [] x =
      " 0\nSECTION\n 2\nENTITIES\n".toList ++ body ++ " 0\nENDSEC\n".toList) ∧
    " 0\nEOF".toList <:+ Write d := by
  refine ⟨Write_text d, ?_, ?_, ?_, ?_, ?_⟩
  · intro x; exact ⟨_, by rw [writeHeader_text]; rfl⟩
  · intro x; exact ⟨_, by rw [writeClasses_text]; rfl⟩
  · intro x; exact ⟨_, by rw [writeBlocks_text]; rfl⟩
  · intro x; exact ⟨_, by rw [writeEntities_text]; rfl⟩
  · rw [Write_text]; exact List.suffix_append _ _

/-! ### Trimming -/

theorem TrimSpace_eq (s : List Char) :
    TrimSpace s = (s.dropWhile isSpace).rdropWhile isSpace := rfl

theorem TrimSpace_cons_space (c : Char) (s : List Char) (hc : isSpace c = true) :
    TrimSpace (c :: s) = TrimSpace s := by
  simp [TrimSpace, List.dropWhile_cons, hc]

theorem TrimSpace_concat_space (s : List Char) (c : Char) (hc : isSpace c = true) :
    TrimSpace (s ++ [c]) = TrimSpace s := by
  rw [TrimSpace_eq, TrimSpace_eq, List.dropWhile_append]
  split
  · rename_i h
    have h1 : s.dropWhile isSpace = [] := by simpa using h
    simp [h1, List.dropWhile_cons, hc, List.rdropWhile]
  · exact List.rdropWhile_concat_pos _ _ _ hc

theorem TrimSpace_sublist (s : List Char) : (TrimSpace s).Sublist s := by
  rw [TrimSpace_eq]
  exact ((List.rdropWhile_prefix _ _).sublist).trans (List.dropWhile_sublist _)

theorem TrimSpace_of_no_space (s : List Char) (h : ∀ c ∈ s, isSpace c = false) :
    TrimSpace s = s := by
  rw [TrimSpace_eq]
  have h1 : s.dropWhile isSpace = s := by
    cases s with
    | nil => rfl
    | cons a t => simp [List.dropWhile_cons, h a (by simp)]
  rw [h1, List.rdropWhile_eq_self_iff]
  intro hl
  simp [h _ (List.getLast_mem hl)]

theorem dropWhile_rdropWhile_self {α : Type} (p : α → Bool) (u : List α)
    (hu : u.dropWhile p = u) : (u.rdropWhile p).dropWhile p = u.rdropWhile p := by
  obtain ⟨t, ht⟩ := List.rdropWhile_prefix p u
  generalize u.rdropWhile p = q at ht
  cases q with
  | nil => rfl
  | cons a q1 =>
    subst ht
    have ha : p a = false := by
      cases hpa : p a with
      | false => rfl
      | true =>
        exfalso
        have hlen := congrArg List.length hu
        have hle := (List.dropWhile_sublist p (l := q1 ++ t)).length_le
        simp only [List.cons_append, List.dropWhile_cons, hpa, if_true, List.length_cons] at hlen
        omega
    simp [List.dropWhile_cons, ha]

theorem TrimSpace_idem (s : List Char) : TrimSpace (TrimSpace s) = TrimSpace s := by
  rw [TrimSpace_eq (TrimSpace s), TrimSpace_eq s,
    dropWhile_rdropWhile_self isSpace _ (List.dropWhile_idempotent isSpace s),
    List.rdropWhile_idempotent]

theorem isSpace_newline : isSpace '\n' = true := by decide

theorem isSpace_blank : isSpace ' ' = true := by decide

theorem newline_not_mem_TrimSpace (s : List Char) (h : '\n' ∉ s) : '\n' ∉ TrimSpace s :=
  fun hm => h ((TrimSpace_sublist s).subset hm)

/-! ### Decimal text of a group code -/

theorem natDigits_acc : ∀ (f n : Nat) (acc : List Char),
    natDigits f n acc = natDigits f n [] ++ acc := by
  intro f
  induction f with
  | zero => intro n acc; simp [natDigits]
  | succ k ih =>
    intro n acc
    simp only [natDigits]
    split
    · simp
    · rw [ih (n / 10) (_ :: acc), ih (n / 10) [_]]; simp

theorem natDigits_fuel : ∀ (f g n : Nat), n < f → n < g →
    natDigits f n [] = natDigits g n [] := by
  intro f
  induction f with
  | zero => intro g n h; omega
  | succ k ih =>
    intro g n hf hg
    cases g with
    | zero => omega
    | succ j =>
      simp only [natDigits]
      split
      · rfl
      · rw [natDigits_acc k, natDigits_acc j, ih j (n / 10) (by omega) (by omega)]

theorem natDigits_small (n : Nat) (h : n < 10) :
    natDigits (n + 1) n [] = [Char.ofNat (48 + n)] := by
  simp [natDigits, h]

theorem natDigits_large (n : Nat) (h : ¬ n < 10) :
    natDigits (n + 1) n [] = natDigits (n / 10 + 1) (n / 10) [] ++ [Char.ofNat (48 + n % 10)] := by
  rw [natDigits]
  simp only [h, if_false]
  rw [natDigits_acc, natDigits_fuel n (n / 10 + 1) (n / 10) (by omega) (by omega)]

theorem digitVal_ofNat (d : Nat) (h : d < 10) : digitVal (Char.ofNat (48 + d)) = some d := by
  interval_cases d <;> decide

theorem digit_props (d : Nat) (h : d < 10) :
    isSpace (Char.ofNat (48 + d)) = false ∧ Char.ofNat (48 + d) ≠ '\n' ∧
    Char.ofNat (48 + d) ≠ '+' ∧ Char.ofNat (48 + d) ≠ '-' := by
  interval_cases d <;> decide

theorem parseDigits_append (s t : List Char) (a : Nat) :
    parseDigits (s ++ t) a = (parseDigits s a).bind (parseDigits t) := by
  induction s generalizing a with
  | nil => simp [parseDigits]
  | cons c cs ih =>
    simp only [List.cons_append, parseDigits]
    cases digitVal c with
    | none => simp
    | some d => simp [ih]

theorem parseDigits_natDigits (n : Nat) : parseDigits (natDigits (n + 1) n []) 0 = some n := by
  induction n using Nat.strong_induction_on with
  | _ n ih =>
    by_cases h : n < 10
    · rw [natDigits_small n h]
      simp [parseDigits, digitVal_ofNat n h]
    · rw [natDigits_large n h, parseDigits_append, ih (n / 10) (by omega)]
      simp only [Option.some_bind, parseDigits, digitVal_ofNat (n % 10) (Nat.mod_lt _ (by omega))]
      congr 1
      omega

/-- Every character of the decimal text is a digit: no space, line feed or sign. -/
theorem natDigits_chars (n : Nat) : ∀ c ∈ natDigits (n + 1) n [],
    isSpace c = false ∧ c ≠ '\n' ∧ c ≠ '+' ∧ c ≠ '-' := by
  induction n using Nat.strong_induction_on with
  | _ n ih =>
    by_cases h : n < 10
    · rw [natDigits_small n h]
      intro c hc
      simp only [List.mem_singleton] at hc
      rw [hc]; exact digit_props n h
    · rw [natDigits_large n h]
      intro c hc
      rcases List.mem_append.mp hc with h1 | h1
      · exact ih (n / 10) (by omega) c h1
      · simp only [List.mem_singleton] at h1
        rw [h1]; exact digit_props _ (Nat.mod_lt _ (by omega))

theorem natDigits_ne_nil (n : Nat) : natDigits (n + 1) n [] ≠ [] := by
  by_cases h : n < 10
  · rw [natDigits_small n h]; simp
  · rw [natDigits_large n h]; simp

theorem ParseUint_natDigits (n : Nat) : ParseUint (natDigits (n + 1) n []) = some n := by
  simp [ParseUint, natDigits_ne_nil, parseDigits_natDigits]

theorem ParseInt_cons (c : Char) (cs : List Char) :
    ParseInt (c :: cs) =
      match ParseUint (if c = '+' ∨ c = '-' then cs else c :: cs) with
      | none => none
      | some un =>
        if decide (c = '-') = false ∧ 2 ^ 63 ≤ un then none
        else if decide (c = '-') = true ∧ 2 ^ 63 < un then none
        else some (if decide (c = '-') = true then - (un : Int) else (un : Int)) := rfl

theorem ParseInt_FormatInt (c : Int) (h : IsInt64 c) : ParseInt (FormatInt c) = some c := by
  obtain ⟨h1, h2⟩ := h
  have hp : (2 : Nat) ^ 63 = 9223372036854775808 := by norm_num
  unfold FormatInt
  by_cases hc : c < 0
  · simp only [hc, if_true]
    rw [ParseInt_cons]
    simp only [or_true, if_true, ParseUint_natDigits, hp]
    have h3 : ¬ (9223372036854775808 < c.natAbs) := by omega
    simp only [decide_True, Bool.true_eq_false, false_and, if_false, h3, and_false, if_true]
    congr 1
    omega
  · simp only [hc, if_false]
    have hne := natDigits_ne_nil c.natAbs
    have hch := natDigits_chars c.natAbs
    have hpu := ParseUint_natDigits c.natAbs
    generalize natDigits (c.natAbs + 1) c.natAbs [] = ds at hne hch hpu
    cases ds with
    | nil => exact absurd rfl hne
    | cons a t =>
      have ha := hch a (by simp)
      rw [ParseInt_cons]
      simp only [ha.2.2.1, ha.2.2.2, or_self, if_false, hpu, hp]
      have h3 : ¬ (9223372036854775808 ≤ c.natAbs) := by omega
      simp only [decide_False, h3, and_false, if_false, Bool.false_eq_true, false_and]
      congr 1
      omega

theorem FormatInt_chars (c : GroupCode) : ∀ x ∈ FormatInt c, isSpace x = false ∧ x ≠ '\n' := by
  intro x hx
  unfold FormatInt at hx
  split at hx
  · rcases List.mem_cons.mp hx with h | h
    · rw [h]; decide
    · exact ⟨(natDigits_chars _ x h).1, (natDigits_chars _ x h).2.1⟩
  · exact ⟨(natDigits_chars _ x hx).1, (natDigits_chars _ x hx).2.1⟩

/-! ### Pairs in the text -/

theorem ParseInt_range (s : List Char) (c : Int) (h : ParseInt s = some c) : IsInt64 c := by
  cases s with
  | nil => simp [ParseInt] at h
  | cons a t =>
    rw [ParseInt_cons] at h
    have hp : (2 : Nat) ^ 63 = 9223372036854775808 := by norm_num
    rw [hp] at h
    split at h
    · cases h
    · rename_i un _
      split at h
      · cases h
      · split at h
        · cases h
        · rename_i h1 h2
          simp only [Option.some.injEq] at h
          unfold IsInt64
          by_cases ha : a = '-'
          · simp only [ha, decide_True, if_true, true_and, not_lt] at h h2
            omega
          · simp only [ha, decide_False, Bool.false_eq_true, if_false, true_and, not_le] at h h1
            omega

theorem readString_no_newline (l : List Char) (h : '\n' ∉ l) :
    readString l = (l, false, []) := by
  induction l with
  | nil => rfl
  | cons c cs ih =>
    have hc : c ≠ '\n' := fun e => h (by simp [e])
    have hcs : '\n' ∉ cs := fun e => h (by simp [e])
    simp [readString, hc, ih hcs]

/-- The line `ReadString` returns is free of line feeds but for its last character. -/
theorem readString_shape (r : List Char) :
    ∃ l, '\n' ∉ l ∧
      (((readString r).2.1 = true ∧ (readString r).1 = l ++ ['\n'] ∧
          r = l ++ '\n' :: (readString r).2.2) ∨
        ((readString r).2.1 = false ∧ (readString r).1 = l ∧ r = l ∧
          (readString r).2.2 = [])) := by
  induction r with
  | nil => exact ⟨[], by simp, Or.inr ⟨rfl, rfl, rfl, rfl⟩⟩
  | cons c cs ih =>
    by_cases hc : c = '\n'
    · refine ⟨[], by simp, Or.inl ?_⟩
      simp [readString, hc]
    · obtain ⟨l, hl, h⟩ := ih
      refine ⟨c :: l, ?_, ?_⟩
      · simp only [List.mem_cons, not_or]; exact ⟨fun e => hc e.symm, hl⟩
      · rcases h with ⟨h1, h2, h3⟩ | ⟨h1, h2, h3, h4⟩
        · left
          simp only [readString, hc, if_false]
          refine ⟨h1, by rw [h2]; rfl, ?_⟩
          rw [List.cons_append, ← h3]
        · right
          simp only [readString, hc, if_false]
          exact ⟨h1, by rw [h2], by rw [← h3], h4⟩

theorem readCodes_lines (cl vl rest : List Char) (c : GroupCode)
    (hcl : '\n' ∉ cl) (hvl : '\n' ∉ vl) (hp : ParseInt (TrimSpace cl) = some c) :
    readCodes (cl ++ '\n' :: (vl ++ '\n' :: rest)) = .ok (c, TrimSpace vl, rest) := by
  unfold readCodes
  simp only [readString_line cl _ hcl, readString_line vl _ hvl,
    TrimSpace_concat_space _ _ isSpace_newline, hp]
  simp

/-- The value `readCodes` returns is trimmed and free of line feeds, and the group code is an
`int64`. -/
theorem readCodes_value {r : List Char} {c : GroupCode} {v r1 : List Char}
    (h : readCodes r = .ok (c, v, r1)) : TrimSpace v = v ∧ '\n' ∉ v ∧ IsInt64 c := by
  unfold readCodes at h
  simp only at h
  split at h
  · split at h <;> cases h
  · split at h
    · cases h
    · split at h
      · cases h
      · rename_i codeInt hpi
        simp only [Except.ok.injEq, Prod.mk.injEq] at h
        obtain ⟨h1, h2, _⟩ := h
        subst h1 h2
        refine ⟨TrimSpace_idem _, ?_, ParseInt_range _ _ hpi⟩
        obtain ⟨l, hl, hs⟩ := readString_shape (readString r).2.2
        rcases hs with ⟨-, h2, -⟩ | ⟨-, h2, -, -⟩
        · rw [h2, TrimSpace_concat_space _ _ isSpace_newline]
          exact newline_not_mem_TrimSpace l hl
        · rw [h2]
          exact newline_not_mem_TrimSpace l hl

/-- The text of an attribute written by the writer is a well-formed pair. -/
theorem IsPair_sprintfAttr (c : GroupCode) (v : List Char) (hc : IsInt64 c)
    (hv : TrimSpace v = v) (hn : '\n' ∉ v) : IsPair (sprintfAttr c v) c v := by
  intro rest
  have h := readCodes_lines (' ' :: FormatInt c) v rest c
    (by
      simp only [List.mem_cons, not_or]
      exact ⟨by decide, fun hm => (FormatInt_chars c _ hm).2 rfl⟩)
    hn
    (by
      rw [TrimSpace_cons_space _ _ isSpace_blank,
        TrimSpace_of_no_space _ (fun x hx => (FormatInt_chars c x hx).1)]
      exact ParseInt_FormatInt c hc)
  rw [hv] at h
  rw [← h]
  simp [sprintfAttr]

/-- The text of a name written by the writer is a well-formed pair with group code 0. -/
theorem IsPair_sprintfName (v : List Char) (hv : TrimSpace v = v) (hn : '\n' ∉ v) :
    IsPair (sprintfName v) 0 v := by
  intro rest
  have h := readCodes_lines " 0".toList v rest 0 (by decide) hn (by decide)
  rw [hv] at h
  rw [← h]
  simp [sprintfName]

/-! ### Maps -/

section
variable {κ ν : Type} [DecidableEq κ]

theorem mapSet_keys (m : List (κ × ν)) (k : κ) (v : ν) :
    (mapSet m k v).map Prod.fst = if k ∈ m.map Prod.fst then m.map Prod.fst
      else m.map Prod.fst ++ [k] := by
  induction m with
  | nil => simp [mapSet]
  | cons a t ih =>
    obtain ⟨k1, v1⟩ := a
    by_cases h : k1 = k
    · simp [mapSet, h]
    · have h2 : ¬ k = k1 := fun e => h e.symm
      simp only [mapSet, h, if_false, List.map_cons, ih, List.mem_cons, h2, false_or]
      split <;> simp

theorem mapSet_new (m : List (κ × ν)) (k : κ) (v : ν) (h : k ∉ m.map Prod.fst) :
    mapSet m k v = m ++ [(k, v)] := by
  induction m with
  | nil => rfl
  | cons a t ih =>
    obtain ⟨k1, v1⟩ := a
    simp only [List.map_cons, List.mem_cons, not_or] at h
    have h1 : ¬ k1 = k := fun e => h.1 e.symm
    simp [mapSet, h1, ih h.2]

theorem mapSet_nodup (m : List (κ × ν)) (k : κ) (v : ν) (h : (m.map Prod.fst).Nodup) :
    ((mapSet m k v).map Prod.fst).Nodup := by
  rw [mapSet_keys]
  split
  · exact h
  · rename_i hk
    rw [List.nodup_append]
    refine ⟨h, List.nodup_singleton k, ?_⟩
    intro a ha hb
    simp only [List.mem_singleton] at hb
    exact hk (hb ▸ ha)

theorem mapSet_mem (m : List (κ × ν)) (k : κ) (v : ν) (p : κ × ν) (h : p ∈ mapSet m k v) :
    p ∈ m ∨ p = (k, v) := by
  induction m with
  | nil => simp [mapSet] at h; exact Or.inr h
  | cons a t ih =>
    obtain ⟨k1, v1⟩ := a
    simp only [mapSet] at h
    split at h
    · rcases List.mem_cons.mp h with h1 | h1
      · exact Or.inr h1
      · exact Or.inl (List.mem_cons_of_mem _ h1)
    · rcases List.mem_cons.mp h with h1 | h1
      · exact Or.inl (by rw [h1]; exact List.mem_cons_self _ _)
      · rcases ih h1 with h2 | h2
        · exact Or.inl (List.mem_cons_of_mem _ h2)
        · exact Or.inr h2

theorem mapSet_length_le (m : List (κ × ν)) (k : κ) (v : ν) :
    (mapSet m k v).length ≤ m.length + 1 ∧ m.length ≤ (mapSet m k v).length ∧
      0 < (mapSet m k v).length := by
  have h := congrArg List.length (mapSet_keys m k v)
  simp only [List.length_map] at h
  split at h
  · simp only [List.length_map] at h
    refine ⟨by omega, by omega, ?_⟩
    cases m with
    | nil => simp [mapSet]
    | cons a t => rw [h]; simp
  · simp only [List.length_append, List.length_map, List.length_singleton] at h
    omega

theorem mapSetAll_nil (m : List (κ × ν)) : mapSetAll m [] = m := rfl

theorem mapSetAll_cons (m : List (κ × ν)) (p : κ × ν) (ps : List (κ × ν)) :
    mapSetAll m (p :: ps) = mapSetAll (mapSet m p.1 p.2) ps := rfl

/-- Assigning the entries of a map without repeated keys to fresh keys appends them. -/
theorem mapSetAll_fresh (m ps : List (κ × ν)) (h : ((m ++ ps).map Prod.fst).Nodup) :
    mapSetAll m ps = m ++ ps := by
  induction ps generalizing m with
  | nil => simp [mapSetAll]
  | cons p t ih =>
    rw [mapSetAll_cons]
    have hp : p.1 ∉ m.map Prod.fst := by
      intro hm
      rw [List.map_append, List.nodup_append] at h
      exact h.2.2 hm (by simp)
    rw [mapSet_new m p.1 p.2 hp, ih]
    · simp
    · simpa using h

theorem mapSetAll_empty (ps : List (κ × ν)) (h : (ps.map Prod.fst).Nodup) :
    mapSetAll [] ps = ps := by
  simpa using mapSetAll_fresh [] ps (by simpa using h)

end

/-! ### The entity loop on a sequence of pairs -/

theorem IsPairs.append {b1 b2 : List Char} {p1 p2 : List (GroupCode × List Char)}
    (h1 : IsPairs b1 p1) (h2 : IsPairs b2 p2) : IsPairs (b1 ++ b2) (p1 ++ p2) := by
  induction h1 with
  | nil => simpa using h2
  | cons hp _ ih =>
    rw [List.append_assoc, List.cons_append]
    exact IsPairs.cons hp ih

theorem IsPairs.single {b : List Char} {c : GroupCode} {v : List Char} (h : IsPair b c v) :
    IsPairs b [(c, v)] := by
  simpa using IsPairs.cons h IsPairs.nil

/-- An in-progress entity takes the attribute pairs that follow, in order. -/
theorem readEntitiesFrom_attrs {bs : List Char} {ps : List (GroupCode × List Char)}
    (h : IsPairs bs ps) (h0 : ∀ p ∈ ps, p.1 ≠ 0) (es : List Entity) (e : Entity)
    (rest : List Char) :
    readEntitiesFrom es (some e) (bs ++ rest) =
      readEntitiesFrom es (some { e with Attributes := mapSetAll e.Attributes ps }) rest := by
  induction h generalizing e with
  | nil => rfl
  | @cons b bs c v ps hp _ ih =>
    have hc : c ≠ 0 := h0 (c, v) (List.mem_cons_self _ _)
    rw [List.append_assoc, readEntitiesFrom_step, hp]
    simp only [hc, if_false]
    rw [ih (fun p hp => h0 p (List.mem_cons_of_mem _ hp))]
    rfl

/-- A pair with group code 0 and a value other than ENDSEC closes the entity in progress and
opens a new one. -/
theorem readEntitiesFrom_open {b : List Char} {v : List Char} (h : IsPair b 0 v)
    (hv : v ≠ "ENDSEC".toList) (es : List Entity) (e : Option Entity) (rest : List Char) :
    readEntitiesFrom es e (b ++ rest) =
      readEntitiesFrom (appendEntity es e) (some { Name := v, Attributes := [] }) rest := by
  rw [readEntitiesFrom_step, h]
  simp only [↓reduceIte, hv]

/-- The pair 0/ENDSEC closes the entity in progress and ends the section. -/
theorem readEntitiesFrom_close {b : List Char} (h : IsPair b 0 "ENDSEC".toList)
    (es : List Entity) (e : Option Entity) (rest : List Char) :
    readEntitiesFrom es e (b ++ rest) = .ok (appendEntity es e, rest) := by
  rw [readEntitiesFrom_step, h]
  simp

theorem IsPairs_attrs (as : Attrs) (h : ∀ p ∈ as, GoodAttr p) :
    IsPairs (as.flatMap (fun p => sprintfAttr p.1 p.2)) as := by
  induction as with
  | nil => exact IsPairs.nil
  | cons a t ih =>
    obtain ⟨_, h2, h3, h4⟩ := h a (List.mem_cons_self _ _)
    rw [List.flatMap_cons]
    exact IsPairs.cons (IsPair_sprintfAttr a.1 a.2 h2 h3 h4)
      (ih (fun p hp => h p (List.mem_cons_of_mem _ hp)))

/-- The reader decodes the text of one entity written by the writer. -/
theorem readEntitiesFrom_writeEntity (e : Entity) (h : GoodEntity "ENDSEC".toList e)
    (es : List Entity) (cur : Option Entity) (rest : List Char) :
    readEntitiesFrom es cur (writeEntity [] e ++ rest) =
      readEntitiesFrom (appendEntity es cur) (some e) rest := by
  obtain ⟨h1, h2, h3, h4, h5⟩ := h
  rw [writeEntity_text, List.append_assoc,
    readEntitiesFrom_open (IsPair_sprintfName e.Name h1 h2) h3,
    readEntitiesFrom_attrs (IsPairs_attrs e.Attributes h4) (fun p hp => (h4 p hp).1)]
  simp only [mapSetAll_empty _ h5]

/-- The reader decodes the body of an ENTITIES section written by the writer. -/
theorem readEntitiesFrom_written (es : List Entity)
    (h : ∀ e ∈ es, GoodEntity "ENDSEC".toList e) (acc : List Entity) (cur : Option Entity)
    (rest : List Char) :
    readEntitiesFrom acc cur (es.flatMap (writeEntity []) ++ (" 0\nENDSEC\n".toList ++ rest)) =
      .ok (appendEntity acc cur ++ es, rest) := by
  induction es generalizing acc cur with
  | nil =>
    have hp : IsPair " 0\nENDSEC\n".toList 0 "ENDSEC".toList :=
      IsPair_sprintfName "ENDSEC".toList (by decide) (by decide)
    simpa using readEntitiesFrom_close hp acc cur rest
  | cons e t ih =>
    rw [List.flatMap_cons, List.append_assoc,
      readEntitiesFrom_writeEntity e (h e (List.mem_cons_self _ _)),
      ih (fun x hx => h x (List.mem_cons_of_mem _ hx))]
    simp [appendEntity]

/-! ### What the reader returns can be written -/

theorem mapSet_good (m : Attrs) (c : GroupCode) (v : List Char)
    (hm : (∀ p ∈ m, GoodAttr p) ∧ (m.map Prod.fst).Nodup) (hp : GoodAttr (c, v)) :
    (∀ p ∈ mapSet m c v, GoodAttr p) ∧ ((mapSet m c v).map Prod.fst).Nodup := by
  refine ⟨fun p hmem => ?_, mapSet_nodup m c v hm.2⟩
  rcases mapSet_mem m c v p hmem with h | h
  · exact hm.1 p h
  · rw [h]; exact hp

theorem appendEntity_mem (es : List Entity) (e : Option Entity) (x : Entity)
    (h : x ∈ appendEntity es e) : x ∈ es ∨ e = some x := by
  cases e with
  | none => exact Or.inl h
  | some e0 =>
    simp only [appendEntity, List.mem_append, List.mem_singleton] at h
    rcases h with h | h
    · exact Or.inl h
    · exact Or.inr (by rw [h])

theorem readEntitiesLoop_good : ∀ (n : Nat) (es : List Entity) (e : Option Entity)
    (r : List Char) (res : List Entity) (r1 : List Char),
    readEntitiesLoop n es e r = .ok (res, r1) →
    (∀ x ∈ es, GoodEntity "ENDSEC".toList x) →
    (∀ x, e = some x → GoodEntity "ENDSEC".toList x) →
    ∀ x ∈ res, GoodEntity "ENDSEC".toList x := by
  intro n
  induction n with
  | zero => intro es e r res r1 h; simp [readEntitiesLoop] at h
  | succ n ih =>
    intro es e r res r1 h hes he
    rw [readEntitiesLoop] at h
    split at h
    · cases h
    · rename_i c v r2 hc
      obtain ⟨hv1, hv2, hv3⟩ := readCodes_value hc
      have happ : ∀ x ∈ appendEntity es e, GoodEntity "ENDSEC".toList x := by
        intro x hx
        rcases appendEntity_mem es e x hx with h1 | h1
        · exact hes x h1
        · exact he x h1
      split at h
      · split at h
        · simp only [Except.ok.injEq, Prod.mk.injEq] at h
          rw [← h.1]; exact happ
        · rename_i hne
          refine ih _ _ _ _ _ h happ ?_
          intro x hx
          simp only [Option.some.injEq] at hx
          subst hx
          exact ⟨hv1, hv2, hne, by simp, by simp⟩
      · rename_i hc0
        split at h
        · cases h
        · rename_i e0
          obtain ⟨g1, g2, g3, g4, g5⟩ := he e0 rfl
          refine ih _ _ _ _ _ h hes ?_
          intro x hx
          simp only [Option.some.injEq] at hx
          subst hx
          have := mapSet_good e0.Attributes c v ⟨g4, g5⟩ ⟨hc0, hv3, hv1, hv2⟩
          exact ⟨g1, g2, g3, this.1, this.2⟩

theorem readEntities_good {r : List Char} {es : List Entity} {r1 : List Char}
    (h : readEntities r = .ok (es, r1)) : ∀ x ∈ es, GoodEntity "ENDSEC".toList x :=
  readEntitiesLoop_good _ _ _ _ _ _ h (by simp) (by simp)

/-! ### The section loop, one section at a time -/

theorem ReadFrom_eof {r r1 : List Char} (h : readCodes r = .ok (0, "EOF".toList, r1))
    (d : Drawing) : ReadFrom d r = .ok d := by
  rw [ReadFrom_step, h]
  simp

theorem ReadFrom_header {r r1 r2 : List Char} (h1 : readCodes r = .ok (0, "SECTION".toList, r1))
    (h2 : readCodes r1 = .ok (2, "HEADER".toList, r2)) (d : Drawing) :
    ReadFrom d r =
      match readHeader r2 with
      | .error e => .error e
      | .ok (header, r3) => ReadFrom { d with Header := some header } r3 := by
  rw [ReadFrom_step, h1]
  simp +decide only [ne_eq, not_true_eq_false, ↓reduceIte]
  rw [h2]
  simp +decide only [ne_eq, not_true_eq_false, ↓reduceIte]

theorem ReadFrom_classes {r r1 r2 : List Char}
    (h1 : readCodes r = .ok (0, "SECTION".toList, r1))
    (h2 : readCodes r1 = .ok (2, "CLASSES".toList, r2)) (d : Drawing) :
    ReadFrom d r =
      match readClasses r2 with
      | .error e => .error e
      | .ok (classes, r3) => ReadFrom { d with Classes := some classes } r3 := by
  rw [ReadFrom_step, h1]
  simp +decide only [ne_eq, not_true_eq_false, ↓reduceIte]
  rw [h2]
  simp +decide only [ne_eq, not_true_eq_false, ↓reduceIte]

theorem ReadFrom_blocks {r r1 r2 : List Char}
    (h1 : readCodes r = .ok (0, "SECTION".toList, r1))
    (h2 : readCodes r1 = .ok (2, "BLOCKS".toList, r2)) (d : Drawing) :
    ReadFrom d r =
      match readBlocks r2 with
      | .error e => .error e
      | .ok (blocks, r3) => ReadFrom { d with Blocks := some blocks } r3 := by
  rw [ReadFrom_step, h1]
  simp +decide only [ne_eq, not_true_eq_false, ↓reduceIte]
  rw [h2]
  simp +decide only [ne_eq, not_true_eq_false, ↓reduceIte]

theorem ReadFrom_entities {r r1 r2 : List Char}
    (h1 : readCodes r = .ok (0, "SECTION".toList, r1))
    (h2 : readCodes r1 = .ok (2, "ENTITIES".toList, r2)) (d : Drawing) :
    ReadFrom d r =
      match readEntities r2 with
      | .error e => .error e
      | .ok (entities, r3) => ReadFrom { d with Entities := some entities } r3 := by
  rw [ReadFrom_step, h1]
  simp +decide only [ne_eq, not_true_eq_false, ↓reduceIte]
  rw [h2]
  simp +decide only [ne_eq, not_true_eq_false, ↓reduceIte]

theorem ReadFrom_other {r r1 r2 : List Char} {name : List Char}
    (h1 : readCodes r = .ok (0, "SECTION".toList, r1))
    (h2 : readCodes r1 = .ok (2, name, r2))
    (hn : name ≠ "HEADER".toList ∧ name ≠ "CLASSES".toList ∧ name ≠ "BLOCKS".toList ∧
      name ≠ "ENTITIES".toList) (d : Drawing) :
    ReadFrom d r =
      match skipSection r2 with
      | .error e => .error e
      | .ok r3 => ReadFrom d r3 := by
  rw [ReadFrom_step, h1]
  simp +decide only [ne_eq, not_true_eq_false, ↓reduceIte]
  rw [h2]
  simp +decide only [ne_eq, not_true_eq_false, ↓reduceIte]
  rw [if_neg hn.1, if_neg hn.2.1, if_neg hn.2.2.1, if_neg hn.2.2.2]

/-- The reader decodes an ENTITIES section and the end marker written by the writer. -/
theorem Read_written_entities (es : List Entity) (h : ∀ e ∈ es, GoodEntity "ENDSEC".toList e)
    (d : Drawing) :
    ReadFrom d (writeEntities [] es ++ " 0\nEOF".toList) =
      .ok { d with Entities := some es } := by
  have p1 : IsPair " 0\nSECTION\n".toList 0 "SECTION".toList :=
    IsPair_sprintfName "SECTION".toList (by decide) (by decide)
  have p2 : IsPair " 2\nENTITIES\n".toList 2 "ENTITIES".toList :=
    IsPair_sprintfAttr 2 "ENTITIES".toList (by unfold IsInt64; omega) (by decide) (by decide)
  have e1 : writeEntities [] es ++ " 0\nEOF".toList =
      " 0\nSECTION\n".toList ++ (" 2\nENTITIES\n".toList ++
        (es.flatMap (writeEntity []) ++ (" 0\nENDSEC\n".toList ++ " 0\nEOF".toList))) := by
    rw [writeEntities_text]
    simp
  have e2 : readEntities (es.flatMap (writeEntity []) ++
      (" 0\nENDSEC\n".toList ++ " 0\nEOF".toList)) = .ok (es, " 0\nEOF".toList) := by
    have := readEntitiesFrom_written es h [] none " 0\nEOF".toList
    simpa [appendEntity, readEntities] using this
  have e3 : readCodes " 0\nEOF".toList = .ok (0, "EOF".toList, []) := by decide
  rw [e1, ReadFrom_entities (p1 _) (p2 _), e2]
  exact ReadFrom_eof e3 _

theorem GoodEntity_perm {stop : List Char} {a b : Entity} (hn : a.Name = b.Name)
    (hp : a.Attributes.Perm b.Attributes) (h : GoodEntity stop b) : GoodEntity stop a := by
  obtain ⟨h1, h2, h3, h4, h5⟩ := h
  refine ⟨by rw [hn]; exact h1, by rw [hn]; exact h2, by rw [hn]; exact h3, ?_, ?_⟩
  · intro p hpm
    exact h4 p (hp.subset hpm)
  · exact (hp.map Prod.fst).nodup_iff.mpr h5

theorem SameEntities_good {stop : List Char} {es1 es2 : List Entity} (h : SameEntities es1 es2)
    (hg : ∀ e ∈ es2, GoodEntity stop e) : ∀ e ∈ es1, GoodEntity stop e := by
  induction h with
  | nil => simp
  | cons hab _ ih =>
    intro e he
    rcases List.mem_cons.mp he with h1 | h1
    · rw [h1]; exact GoodEntity_perm hab.1 hab.2 (hg _ (List.mem_cons_self _ _))
    · exact ih (fun x hx => hg x (List.mem_cons_of_mem _ hx)) e h1

/-- C1: an input made of one ENTITIES section and the pair 0/EOF is read as a drawing `d` with
entities `es` alone; whatever the order `es1` in which the writer enumerates the attribute
mappings of `es`, reading back what it writes succeeds and returns the same entities: same
length, same order, same names and same attribute mappings. -/
theorem roundtrip_entities (input r1 r2 r3 r4 : List Char) (es : List Entity)
    (h1 : readCodes input = .ok (0, "SECTION".toList, r1))
    (h2 : readCodes r1 = .ok (2, "ENTITIES".toList, r2))
    (h3 : readEntities r2 = .ok (es, r3))
    (h4 : readCodes r3 = .ok (0, "EOF".toList, r4))
    (es1 : List Entity) (henum : SameEntities es1 es) :
    Read input = .ok { emptyDrawing with Entities := some es } ∧
    ∃ es2, Read (Write { emptyDrawing with Entities := some es1 }) =
        .ok { emptyDrawing with Entities := some es2 } ∧ SameEntities es2 es := by
  constructor
  · unfold Read
    rw [ReadFrom_entities h1 h2, h3]
    exact ReadFrom_eof h4 _
  · refine ⟨es1, ?_, henum⟩
    have hw : Write { emptyDrawing with Entities := some es1 } =
        writeEntities [] es1 ++ " 0\nEOF".toList := by
      rw [Write_text]; rfl
    rw [hw]
    exact Read_written_entities es1 (SameEntities_good henum (readEntities_good h3)) _

/-- C1 at an input with two attributes, written back in the other order. -/
theorem roundtrip_entities_witness :
    Read "0\nSECTION\n2\nENTITIES\n0\nLINE\n8\n0\n10\n1.5\n0\nENDSEC\n0\nEOF\n".toList =
      .ok { emptyDrawing with
        Entities := some [⟨"LINE".toList, [(8, "0".toList), (10, "1.5".toList)]⟩] } ∧
    ∃ es2, Read (Write { emptyDrawing with
        Entities := some [⟨"LINE".toList, [(10, "1.5".toList), (8, "0".toList)]⟩] }) =
        .ok { emptyDrawing with Entities := some es2 } ∧
      SameEntities es2 [⟨"LINE".toList, [(8, "0".toList), (10, "1.5".toList)]⟩] :=
  roundtrip_entities
    "0\nSECTION\n2\nENTITIES\n0\nLINE\n8\n0\n10\n1.5\n0\nENDSEC\n0\nEOF\n".toList
    "2\nENTITIES\n0\nLINE\n8\n0\n10\n1.5\n0\nENDSEC\n0\nEOF\n".toList
    "0\nLINE\n8\n0\n10\n1.5\n0\nENDSEC\n0\nEOF\n".toList
    "0\nEOF\n".toList
    []
    [⟨"LINE".toList, [(8, "0".toList), (10, "1.5".toList)]⟩]
    (by decide) (by decide) (by decide) (by decide)
    [⟨"LINE".toList, [(10, "1.5".toList), (8, "0".toList)]⟩]
    (List.Forall₂.cons ⟨rfl, List.Perm.swap _ _ _⟩ List.Forall₂.nil)

/-- C2 at the header of the specification: the input with the one header variable `$ACADVER`
is read as a drawing whose header holds that variable; the writer writes the name of the
variable with group code 0, not 9; and reading back what it writes fails with
`ErrInvalidFormat`. -/
theorem Write_header_not_readable :
    Read "0\nSECTION\n2\nHEADER\n9\n$ACADVER\n1\nAC1009\n0\nENDSEC\n0\nEOF\n".toList =
      .ok { emptyDrawing with
        Header := some [("$ACADVER".toList, [(1, "AC1009".toList)])] } ∧
    Write { emptyDrawing with Header := some [("$ACADVER".toList, [(1, "AC1009".toList)])] } =
      " 0\nSECTION\n 2\nHEADER\n 0\n$ACADVER\n 1\nAC1009\n 0\nENDSEC\n 0\nEOF".toList ∧
    Read (Write { emptyDrawing with
        Header := some [("$ACADVER".toList, [(1, "AC1009".toList)])] }) =
      .error .ErrInvalidFormat := by
  refine ⟨by decide, by decide, by decide⟩

/-! ### Skipping a section -/

/-- Skip mode passes over pairs other than 0/ENDSEC. -/
theorem skipSection_pairs {bs : List Char} {ps : List (GroupCode × List Char)}
    (h : IsPairs bs ps) (hno : (0, "ENDSEC".toList) ∉ ps) (rest : List Char) :
    skipSection (bs ++ rest) = skipSection rest := by
  induction h with
  | nil => rfl
  | @cons b bs c v ps hp _ ih =>
    have hcv : ¬ (c = 0 ∧ v = "ENDSEC".toList) := by
      rintro ⟨h1, h2⟩
      exact hno (by rw [h1, h2]; exact List.mem_cons_self _ _)
    rw [List.append_assoc, skipSection_step, hp]
    simp only [hcv, if_false]
    exact ih (fun hm => hno (List.mem_cons_of_mem _ hm))

/-- Skip mode ends after the pair 0/ENDSEC. -/
theorem skipSection_close {b : List Char} (h : IsPair b 0 "ENDSEC".toList) (rest : List Char) :
    skipSection (b ++ rest) = .ok rest := by
  rw [skipSection_step, h]
  simp

theorem IsPair_of_lines (cl vl : List Char) (c : GroupCode) (hcl : '\n' ∉ cl)
    (hvl : '\n' ∉ vl) (hp : ParseInt (TrimSpace cl) = some c) :
    IsPair (cl ++ '\n' :: (vl ++ ['\n'])) c (TrimSpace vl) := by
  intro rest
  have := readCodes_lines cl vl rest c hcl hvl hp
  simpa using this

theorem CompleteSections_nil : CompleteSections [] :=
  ⟨id, fun _ _ => rfl⟩

/-- An ENTITIES section that `readEntities` decodes is a complete section. -/
theorem CompleteSections_entities {b1 b2 body : List Char} {es : List Entity}
    (h1 : IsPair b1 0 "SECTION".toList) (h2 : IsPair b2 2 "ENTITIES".toList)
    (h3 : ∀ rest, readEntities (body ++ rest) = .ok (es, rest)) :
    CompleteSections (b1 ++ (b2 ++ body)) := by
  refine ⟨fun d => { d with Entities := some es }, fun d rest => ?_⟩
  rw [List.append_assoc, List.append_assoc, ReadFrom_entities (h1 _) (h2 _), h3]

/-- C3: a section with a name other than HEADER, CLASSES, BLOCKS and ENTITIES, holding pairs
none of which is 0/ENDSEC, and closed by 0/ENDSEC, is transparent: at any section boundary
the reader goes on as if the section were absent, so `Read` returns on
`pre ++ section ++ rest` what it returns on `pre ++ rest`; and such a section followed by
`0/SECTION,2/ENTITIES,0/LINE,8/0,0/ENDSEC,0/EOF` is read as the one entity LINE with the
attribute 8 = "0" and nothing else. -/
theorem skip_unknown_section (name : List Char)
    (hn : name ≠ "HEADER".toList ∧ name ≠ "CLASSES".toList ∧ name ≠ "BLOCKS".toList ∧
      name ≠ "ENTITIES".toList)
    (b1 b2 body b3 : List Char) (ps : List (GroupCode × List Char))
    (h1 : IsPair b1 0 "SECTION".toList) (h2 : IsPair b2 2 name) (hps : IsPairs body ps)
    (hno : (0, "ENDSEC".toList) ∉ ps) (h3 : IsPair b3 0 "ENDSEC".toList) :
    (∀ d rest, ReadFrom d (b1 ++ b2 ++ body ++ b3 ++ rest) = ReadFrom d rest) ∧
    (∀ pre rest, CompleteSections pre →
      Read (pre ++ (b1 ++ b2 ++ body ++ b3) ++ rest) = Read (pre ++ rest)) ∧
    Read (b1 ++ b2 ++ body ++ b3 ++
        "0\nSECTION\n2\nENTITIES\n0\nLINE\n8\n0\n0\nENDSEC\n0\nEOF\n".toList) =
      .ok { emptyDrawing with Entities := some [⟨"LINE".toList, [(8, "0".toList)]⟩] } := by
  have key : ∀ d rest, ReadFrom d (b1 ++ b2 ++ body ++ b3 ++ rest) = ReadFrom d rest := by
    intro d rest
    have e : b1 ++ b2 ++ body ++ b3 ++ rest = b1 ++ (b2 ++ (body ++ (b3 ++ rest))) := by
      simp
    rw [e, ReadFrom_other (h1 _) (h2 _) hn, skipSection_pairs hps hno, skipSection_close h3]
  refine ⟨key, ?_, ?_⟩
  · rintro pre rest ⟨f, hf⟩
    unfold Read
    rw [List.append_assoc, hf, hf]
    exact key _ _
  · unfold Read
    rw [key]
    decide

/-- C3 at a TABLES section holding the pairs 0/TABLE and 70/1, after an ENTITIES section. -/
theorem skip_unknown_section_witness :
    (∀ d rest, ReadFrom d (sprintfName "SECTION".toList ++ sprintfAttr 2 "TABLES".toList ++
        (sprintfName "TABLE".toList ++ sprintfAttr 70 "1".toList) ++
        sprintfName "ENDSEC".toList ++ rest) = ReadFrom d rest) ∧
    (∀ pre rest, CompleteSections pre →
      Read (pre ++ (sprintfName "SECTION".toList ++ sprintfAttr 2 "TABLES".toList ++
        (sprintfName "TABLE".toList ++ sprintfAttr 70 "1".toList) ++
        sprintfName "ENDSEC".toList) ++ rest) = Read (pre ++ rest)) ∧
    Read (sprintfName "SECTION".toList ++ sprintfAttr 2 "TABLES".toList ++
        (sprintfName "TABLE".toList ++ sprintfAttr 70 "1".toList) ++
        sprintfName "ENDSEC".toList ++
        "0\nSECTION\n2\nENTITIES\n0\nLINE\n8\n0\n0\nENDSEC\n0\nEOF\n".toList) =
      .ok { emptyDrawing with Entities := some [⟨"LINE".toList, [(8, "0".toList)]⟩] } :=
  skip_unknown_section "TABLES".toList (by decide)
    (sprintfName "SECTION".toList) (sprintfAttr 2 "TABLES".toList)
    (sprintfName "TABLE".toList ++ sprintfAttr 70 "1".toList) (sprintfName "ENDSEC".toList)
    [(0, "TABLE".toList), (70, "1".toList)]
    (IsPair_sprintfName _ (by decide) (by decide))
    (IsPair_sprintfAttr _ _ (by unfold IsInt64; omega) (by decide) (by decide))
    (IsPairs.cons (IsPair_sprintfName _ (by decide) (by decide))
      (IsPairs.single (IsPair_sprintfAttr _ _ (by unfold IsInt64; omega) (by decide)
        (by decide))))
    (by decide)
    (IsPair_sprintfName _ (by decide) (by decide))

/-! ### The pairs of an input -/

theorem splitLines_readString (r : List Char) (h : r ≠ []) :
    splitLines r = (readString r).1 :: splitLines (readString r).2.2 := by
  induction r with
  | nil => exact absurd rfl h
  | cons c cs ih =>
    by_cases hc : c = '\n'
    · simp [splitLines, readString, hc]
    · simp only [splitLines, readString, hc, if_false]
      cases cs with
      | nil => simp [splitLines, readString]
      | cons a t =>
        rw [ih (by simp)]

theorem splitLines_nil_of_readString {r : List Char} (h : (readString r).2.1 = false) :
    splitLines (readString r).2.2 = [] := by
  obtain ⟨l, _, hs⟩ := readString_shape r
  rcases hs with ⟨h1, -, -⟩ | ⟨-, -, -, h4⟩
  · rw [h1] at h; cases h
  · rw [h4]; rfl

/-- A pair `readCodes` decodes is the first pair of lines of the input, and what is left
holds the other pairs. -/
theorem readCodes_inputPairs {r : List Char} {c : GroupCode} {v r1 : List Char}
    (h : readCodes r = .ok (c, v, r1)) :
    ∃ cl vl, inputPairs r = (cl, vl) :: inputPairs r1 ∧ ParseInt (TrimSpace cl) = some c ∧
      TrimSpace vl = v := by
  unfold readCodes at h
  simp only at h
  split at h
  · split at h <;> cases h
  · rename_i hf
    split at h
    · cases h
    · rename_i hv
      split at h
      · cases h
      · rename_i codeInt hpi
        simp only [Except.ok.injEq, Prod.mk.injEq] at h
        obtain ⟨h1, h2, h3⟩ := h
        have hr : r ≠ [] := by
          intro e; rw [e] at hf; simp [readString] at hf
        have hr1 : (readString r).2.2 ≠ [] := by
          intro e; rw [e] at hv; simp [readString] at hv
        refine ⟨(readString r).1, (readString (readString r).2.2).1, ?_, ?_, h2⟩
        · unfold inputPairs
          rw [splitLines_readString r hr, splitLines_readString _ hr1, ← h3]
          rfl
        · rw [hpi, h1]

theorem Advances.inputPairs_suffix {r r1 : List Char} (h : Advances r r1) :
    inputPairs r1 <:+ inputPairs r := by
  induction h with
  | refl r => exact List.suffix_refl _
  | step hc _ ih =>
    obtain ⟨cl, vl, he, -, -⟩ := readCodes_inputPairs hc
    rw [he]
    exact ih.trans (List.suffix_cons _ _)

theorem HasBadCode_of_adv {r r1 : List Char} (h : Advances r r1) (hb : HasBadCode r1) :
    HasBadCode r := by
  obtain ⟨p, hp, hq⟩ := hb
  exact ⟨p, h.inputPairs_suffix.subset hp, hq⟩

/-- The errors of `readCodes`: end of input, a missing line, or a code line that is the
first of a pair of lines and is not an integer. -/
theorem readCodes_error {r : List Char} {e : Err} (h : readCodes r = .error e) :
    e = .ioEOF ∨ e = .ErrInvalidFormat ∨ (e = .ErrInvalidGroupCode ∧ HasBadCode r) := by
  unfold readCodes at h
  simp only at h
  split at h
  · split at h
    · cases h; exact Or.inl rfl
    · cases h; exact Or.inr (Or.inl rfl)
  · rename_i hf
    split at h
    · cases h; exact Or.inr (Or.inl rfl)
    · rename_i hv
      split at h
      · rename_i hpi
        cases h
        refine Or.inr (Or.inr ⟨rfl, ?_⟩)
        have hr : r ≠ [] := by
          intro e; rw [e] at hf; simp [readString] at hf
        have hr1 : (readString r).2.2 ≠ [] := by
          intro e; rw [e] at hv; simp [readString] at hv
        refine ⟨((readString r).1, (readString (readString r).2.2).1), ?_, hpi⟩
        unfold inputPairs
        rw [splitLines_readString r hr, splitLines_readString _ hr1]
        exact List.mem_cons_self _ _
      · cases h

/-! ### The errors of the loops -/

theorem ErrOK_of_readCodes {r : List Char} {e : Err} (h : readCodes r = .error e) :
    ErrOK (eofToFormat e) r := by
  rcases readCodes_error h with h1 | h1 | ⟨h1, h2⟩
  · rw [h1]; exact Or.inl rfl
  · rw [h1]; exact Or.inl rfl
  · rw [h1]; exact Or.inr ⟨rfl, h2⟩

theorem ErrOK_of_adv {r r1 : List Char} {e : Err} (h : Advances r r1) (he : ErrOK e r1) :
    ErrOK e r := by
  rcases he with h1 | ⟨h1, h2⟩
  · exact Or.inl h1
  · exact Or.inr ⟨h1, HasBadCode_of_adv h h2⟩

theorem ErrOK_step {r r1 : List Char} {c : GroupCode} {v : List Char} {e : Err}
    (h : readCodes r = .ok (c, v, r1)) (he : ErrOK e r1) : ErrOK e r :=
  ErrOK_of_adv (Advances.step h (Advances.refl _)) he

theorem skipSection_error : ∀ (n : Nat) (r : List Char), r.length < n → ∀ e,
    skipSection r = .error e → ErrOK e r := by
  intro n
  induction n with
  | zero => intro r h; omega
  | succ n ih =>
    intro r hl e h
    rw [skipSection_step] at h
    split at h
    · rename_i e1 hc
      cases h
      exact ErrOK_of_readCodes hc
    · rename_i c v r1 hc
      have hl1 := readCodes_length hc
      split at h
      · cases h
      · exact ErrOK_step hc (ih r1 (by omega) e h)

theorem mapGet_mapSet_self {κ ν : Type} [DecidableEq κ] (m : List (κ × ν)) (k : κ) (v : ν) :
    mapGet (mapSet m k v) k = some v := by
  induction m with
  | nil => simp [mapSet, mapGet]
  | cons a t ih =>
    obtain ⟨k1, v1⟩ := a
    by_cases h : k1 = k
    · simp [mapSet, mapGet, h]
    · simp [mapSet, mapGet, h, ih]

theorem mapGet_mapSet_ne {κ ν : Type} [DecidableEq κ] (m : List (κ × ν)) (k k1 : κ) (v : ν)
    (h : k ≠ k1) : mapGet (mapSet m k v) k1 = mapGet m k1 := by
  induction m with
  | nil => simp [mapSet, mapGet, h]
  | cons a t ih =>
    obtain ⟨k2, v2⟩ := a
    by_cases h2 : k2 = k
    · subst h2
      simp [mapSet, mapGet, h]
    · by_cases h3 : k2 = k1
      · subst h3
        simp [mapSet, mapGet, h2]
      · simp [mapSet, mapGet, h2, h3, ih]

theorem readHeaderFrom_error : ∀ (n : Nat) (hd : HeaderMap) (key r : List Char),
    r.length < n → (key ≠ [] → (mapGet hd key).isSome = true) → ∀ e,
    readHeaderFrom hd key r = .error e → ErrOK e r := by
  intro n
  induction n with
  | zero => intro hd key r h; omega
  | succ n ih =>
    intro hd key r hl hinv e h
    rw [readHeaderFrom_step] at h
    split at h
    · rename_i e1 hc
      cases h
      exact ErrOK_of_readCodes hc
    · rename_i c v r1 hc
      have hl1 := readCodes_length hc
      split at h
      · cases h
      · split at h
        · refine ErrOK_step hc (ih _ _ r1 (by omega) ?_ e h)
          intro _
          rw [mapGet_mapSet_self]; rfl
        · split at h
          · cases h; exact Or.inl rfl
          · rename_i hk
            have hsome := hinv hk
            unfold headerSet at h
            cases hg : mapGet hd key with
            | none => rw [hg] at hsome; cases hsome
            | some m =>
              rw [hg] at h
              simp only at h
              refine ErrOK_step hc (ih _ _ r1 (by omega) ?_ e h)
              intro _
              rw [mapGet_mapSet_self]; rfl

theorem readHeader_error {r : List Char} {e : Err} (h : readHeader r = .error e) :
    ErrOK e r :=
  readHeaderFrom_error (r.length + 1) [] [] r (by omega) (by simp) e h

theorem readClassLoop_error : ∀ (n : Nat) (cls : Class) (r : List Char) (e : Err),
    readClassLoop n cls r = .error e → ErrOK e r := by
  intro n
  induction n with
  | zero => intro cls r e h; simp [readClassLoop] at h
  | succ n ih =>
    intro cls r e h
    rw [readClassLoop] at h
    split at h
    · rename_i e1 hc
      cases h
      exact ErrOK_of_readCodes hc
    · rename_i c v r1 hc
      exact ErrOK_step hc (ih _ r1 e h)

theorem readEntitiesFrom_error : ∀ (n : Nat) (es : List Entity) (cur : Option Entity)
    (r : List Char), r.length < n → ∀ e,
    readEntitiesFrom es cur r = .error e → ErrOK e r := by
  intro n
  induction n with
  | zero => intro es cur r h; omega
  | succ n ih =>
    intro es cur r hl e h
    rw [readEntitiesFrom_step] at h
    split at h
    · rename_i e1 hc
      cases h
      exact ErrOK_of_readCodes hc
    · rename_i c v r1 hc
      have hl1 := readCodes_length hc
      split at h
      · split at h
        · cases h
        · exact ErrOK_step hc (ih _ _ r1 (by omega) e h)
      · split at h
        · cases h; exact Or.inl rfl
        · exact ErrOK_step hc (ih _ _ r1 (by omega) e h)

theorem readBlockFrom_error : ∀ (n : Nat) (b : Block) (cur : Option Entity)
    (r : List Char), r.length < n → ∀ e,
    readBlockFrom b cur r = .error e → ErrOK e r := by
  intro n
  induction n with
  | zero => intro b cur r h; omega
  | succ n ih =>
    intro b cur r hl e h
    rw [readBlockFrom_step] at h
    split at h
    · rename_i e1 hc
      cases h
      exact ErrOK_of_readCodes hc
    · rename_i c v r1 hc
      have hl1 := readCodes_length hc
      split at h
      · split at h
        · cases h
        · exact ErrOK_step hc (ih _ _ r1 (by omega) e h)
      · split at h
        · exact ErrOK_step hc (ih _ _ r1 (by omega) e h)
        · exact ErrOK_step hc (ih _ _ r1 (by omega) e h)

theorem readClassesFrom_error : ∀ (n : Nat) (cs : List Class) (r : List Char),
    r.length < n → ∀ e, readClassesFrom cs r = .error e → ErrOK e r := by
  intro n
  induction n with
  | zero => intro cs r h; omega
  | succ n ih =>
    intro cs r hl e h
    rw [readClassesFrom_step] at h
    split at h
    · rename_i e1 hc
      cases h
      exact ErrOK_of_readCodes hc
    · rename_i c v r1 hc
      have hl1 := readCodes_length hc
      split at h
      · split at h
        · cases h
        · split at h
          · split at h
            · rename_i e2 hcl
              cases h
              exact ErrOK_step hc (readClassLoop_error _ _ _ _ hcl)
            · rename_i cls r2 hcl
              have hadv := readClass_adv hcl
              have hl2 := hadv.length_le
              exact ErrOK_step hc (ErrOK_of_adv hadv (ih _ r2 (by omega) e h))
          · cases h; exact Or.inl rfl
      · cases h; exact Or.inl rfl

theorem readBlocksFrom_error : ∀ (n : Nat) (bs : List Block) (r : List Char),
    r.length < n → ∀ e, readBlocksFrom bs r = .error e → ErrOK e r := by
  intro n
  induction n with
  | zero => intro bs r h; omega
  | succ n ih =>
    intro bs r hl e h
    rw [readBlocksFrom_step] at h
    split at h
    · rename_i e1 hc
      cases h
      exact ErrOK_of_readCodes hc
    · rename_i c v r1 hc
      have hl1 := readCodes_length hc
      split at h
      · split at h
        · cases h
        · split at h
          · split at h
            · rename_i e2 hcl
              cases h
              exact ErrOK_step hc (readBlockFrom_error _ _ _ _ (Nat.lt_succ_self _) _ hcl)
            · rename_i blk r2 hcl
              have hadv := readBlock_adv hcl
              have hl2 := hadv.length_le
              exact ErrOK_step hc (ErrOK_of_adv hadv (ih _ r2 (by omega) e h))
          · cases h; exact Or.inl rfl
      · cases h; exact Or.inl rfl

theorem readClasses_error {r : List Char} {e : Err} (h : readClasses r = .error e) :
    ErrOK e r :=
  readClassesFrom_error (r.length + 1) [] r (by omega) e h

theorem readBlocks_error {r : List Char} {e : Err} (h : readBlocks r = .error e) :
    ErrOK e r :=
  readBlocksFrom_error (r.length + 1) [] r (by omega) e h

theorem readEntities_error {r : List Char} {e : Err} (h : readEntities r = .error e) :
    ErrOK e r :=
  readEntitiesFrom_error (r.length + 1) [] none r (by omega) e h

theorem skipSection_error1 {r : List Char} {e : Err} (h : skipSection r = .error e) :
    ErrOK e r :=
  skipSection_error (r.length + 1) r (by omega) e h

/-- The errors of the section loop. -/
theorem ReadFrom_error : ∀ (n : Nat) (d : Drawing) (r : List Char), r.length < n → ∀ e,
    ReadFrom d r = .error e → ErrOK e r := by
  intro n
  induction n with
  | zero => intro d r h; omega
  | succ n ih =>
    intro d r hl e h
    rw [ReadFrom_step] at h
    split at h
    · rename_i e1 hc
      cases h
      exact ErrOK_of_readCodes hc
    · rename_i c v r1 hc
      have hl1 := readCodes_length hc
      split at h
      · cases h; exact Or.inl rfl
      · split at h
        · cases h
        · split at h
          · cases h; exact Or.inl rfl
          · split at h
            · rename_i e1 hc2
              cases h
              exact ErrOK_step hc (ErrOK_of_readCodes hc2)
            · rename_i c2 v2 r2 hc2
              have hl2 := readCodes_length hc2
              have lift : ∀ r3, Advances r2 r3 → ErrOK e r3 → ErrOK e r := fun r3 ha he =>
                ErrOK_step hc (ErrOK_step hc2 (ErrOK_of_adv ha he))
              split at h
              · cases h; exact Or.inl rfl
              · split at h
                · split at h
                  · rename_i e2 hs
                    cases h
                    exact lift r2 (Advances.refl _) (readHeader_error hs)
                  · rename_i x r3 hs
                    have ha := readHeader_adv hs
                    have := ha.length_le
                    exact lift r3 ha (ih _ r3 (by omega) e h)
                · split at h
                  · split at h
                    · rename_i e2 hs
                      cases h
                      exact lift r2 (Advances.refl _) (readClasses_error hs)
                    · rename_i x r3 hs
                      have ha := readClasses_adv hs
                      have := ha.length_le
                      exact lift r3 ha (ih _ r3 (by omega) e h)
                  · split at h
                    · split at h
                      · rename_i e2 hs
                        cases h
                        exact lift r2 (Advances.refl _) (readBlocks_error hs)
                      · rename_i x r3 hs
                        have ha := readBlocks_adv hs
                        have := ha.length_le
                        exact lift r3 ha (ih _ r3 (by omega) e h)
                    · split at h
                      · split at h
                        · rename_i e2 hs
                          cases h
                          exact lift r2 (Advances.refl _) (readEntities_error hs)
                        · rename_i x r3 hs
                          have ha := readEntities_adv hs
                          have := ha.length_le
                          exact lift r3 ha (ih _ r3 (by omega) e h)
                      · split at h
                        · rename_i e2 hs
                          cases h
                          exact lift r2 (Advances.refl _) (skipSection_error1 hs)
                        · rename_i r3 hs
                          have ha := skipSection_adv hs
                          have := ha.length_le
                          exact lift r3 ha (ih _ r3 (by omega) e h)

/-- The section loop returns a drawing only at a pair 0/EOF of the input. -/
theorem ReadFrom_ok_eof : ∀ (n : Nat) (d : Drawing) (r : List Char), r.length < n → ∀ d1,
    ReadFrom d r = .ok d1 → ∃ p ∈ inputPairs r, IsEOFPair p := by
  intro n
  induction n with
  | zero => intro d r h; omega
  | succ n ih =>
    intro d r hl d1 h
    rw [ReadFrom_step] at h
    split at h
    · cases h
    · rename_i c v r1 hc
      have hl1 := readCodes_length hc
      obtain ⟨cl, vl, hp, hpc, hpv⟩ := readCodes_inputPairs hc
      split at h
      · cases h
      · rename_i hc0
        split at h
        · rename_i hv
          refine ⟨(cl, vl), by rw [hp]; exact List.mem_cons_self _ _, ?_, ?_⟩
          · rw [hpc]
            have : c = 0 := by simpa using hc0
            rw [this]
          · rw [hpv, hv]
        · split at h
          · cases h
          · split at h
            · cases h
            · rename_i c2 v2 r2 hc2
              have hl2 := readCodes_length hc2
              have lift : ∀ r3, Advances r2 r3 → (∃ p ∈ inputPairs r3, IsEOFPair p) →
                  ∃ p ∈ inputPairs r, IsEOFPair p := fun r3 ha ⟨p, hm, hq⟩ =>
                ⟨p, ((Advances.step hc (Advances.step hc2 ha)).inputPairs_suffix).subset hm, hq⟩
              split at h
              · cases h
              · split at h
                · split at h
                  · cases h
                  · rename_i x r3 hs
                    have ha := readHeader_adv hs
                    have := ha.length_le
                    exact lift r3 ha (ih _ r3 (by omega) d1 h)
                · split at h
                  · split at h
                    · cases h
                    · rename_i x r3 hs
                      have ha := readClasses_adv hs
                      have := ha.length_le
                      exact lift r3 ha (ih _ r3 (by omega) d1 h)
                  · split at h
                    · split at h
                      · cases h
                      · rename_i x r3 hs
                        have ha := readBlocks_adv hs
                        have := ha.length_le
                        exact lift r3 ha (ih _ r3 (by omega) d1 h)
                    · split at h
                      · split at h
                        · cases h
                        · rename_i x r3 hs
                          have ha := readEntities_adv hs
                          have := ha.length_le
                          exact lift r3 ha (ih _ r3 (by omega) d1 h)
                      · split at h
                        · cases h
                        · rename_i r3 hs
                          have ha := skipSection_adv hs
                          have := ha.length_le
                          exact lift r3 ha (ih _ r3 (by omega) d1 h)

/-- C4: on an input without a pair 0/EOF, `Read` fails; the error is `ErrInvalidFormat` or
`ErrInvalidGroupCode`, never `io.EOF`, and it is `ErrInvalidFormat` when every code line of
the input is an integer; the input that is the pair 0/SECTION alone fails with
`ErrInvalidFormat`. -/
theorem Read_needs_end_marker (input : List Char)
    (h : ∀ p ∈ inputPairs input, ¬ IsEOFPair p) :
    (Read input = .error .ErrInvalidFormat ∨ Read input = .error .ErrInvalidGroupCode) ∧
    ((∀ p ∈ inputPairs input, (ParseInt (TrimSpace p.1)).isSome = true) →
      Read input = .error .ErrInvalidFormat) ∧
    Read "0\nSECTION\n".toList = .error .ErrInvalidFormat := by
  have hres : ∃ e, Read input = .error e ∧ ErrOK e input := by
    cases hr : Read input with
    | ok d1 =>
      obtain ⟨p, hp, hq⟩ := ReadFrom_ok_eof (input.length + 1) _ input (by omega) d1 hr
      exact absurd hq (h p hp)
    | error e => exact ⟨e, rfl, ReadFrom_error (input.length + 1) _ input (by omega) e hr⟩
  obtain ⟨e, he, hok⟩ := hres
  refine ⟨?_, ?_, by decide⟩
  · rcases hok with h1 | ⟨h1, -⟩
    · left; rw [he, h1]
    · right; rw [he, h1]
  · intro hall
    rcases hok with h1 | ⟨-, p, hp, hq⟩
    · rw [he, h1]
    · have := hall p hp
      rw [hq] at this
      cases this

/-- C4 at the input that is the pair 0/SECTION and nothing else. -/
theorem Read_needs_end_marker_witness :
    (Read "0\nSECTION\n".toList = .error .ErrInvalidFormat ∨
      Read "0\nSECTION\n".toList = .error .ErrInvalidGroupCode) ∧
    ((∀ p ∈ inputPairs "0\nSECTION\n".toList, (ParseInt (TrimSpace p.1)).isSome = true) →
      Read "0\nSECTION\n".toList = .error .ErrInvalidFormat) ∧
    Read "0\nSECTION\n".toList = .error .ErrInvalidFormat :=
  Read_needs_end_marker "0\nSECTION\n".toList (by decide)

/-! ### The class record -/

theorem readClassLoop_pairs {bs : List Char} {ps : List (GroupCode × List Char)}
    (h : IsPairs bs ps) (cls : Class) (rest : List Char) :
    readClassLoop ps.length cls (bs ++ rest) =
      .ok ({ Attributes := mapSetAll cls.Attributes ps }, rest) := by
  induction h generalizing cls with
  | nil => rfl
  | @cons b bs c v ps hp _ ih =>
    rw [List.length_cons, readClassLoop, List.append_assoc, hp]
    simp only
    rw [ih]
    rfl

theorem readClassLoop_short {bs : List Char} {ps : List (GroupCode × List Char)}
    (h : IsPairs bs ps) (n : Nat) (hn : ps.length < n) (cls : Class) :
    readClassLoop n cls bs = .error .ErrInvalidFormat := by
  induction h generalizing n cls with
  | nil =>
    cases n with
    | zero => simp at hn
    | succ m => rfl
  | @cons b bs c v ps hp _ ih =>
    cases n with
    | zero => simp at hn
    | succ m =>
      have hp1 := hp bs
      rw [readClassLoop, hp1]
      simp only
      exact ih m (by simpa using hn) _

/-- C8: after a pair 0/CLASS the reader takes the next seven pairs, whatever their group
codes and values, stores each by its group code in the attribute mapping of the class and
goes on with what follows them; with fewer than seven pairs before the end of the input the
result is `ErrInvalidFormat`. -/
theorem readClass_fixed_arity (b bs : List Char) (ps : List (GroupCode × List Char))
    (hb : IsPair b 0 "CLASS".toList) (hps : IsPairs bs ps) (hlen : ps.length = 7) :
    (∀ rest, readClass (bs ++ rest) = .ok ({ Attributes := mapSetAll [] ps }, rest)) ∧
    (∀ cs rest, readClassesFrom cs (b ++ bs ++ rest) =
      readClassesFrom (cs ++ [{ Attributes := mapSetAll [] ps }]) rest) ∧
    (∀ bs1 ps1, IsPairs bs1 ps1 → ps1.length < 7 →
      readClass bs1 = .error .ErrInvalidFormat ∧
      ∀ cs, readClassesFrom cs (b ++ bs1) = .error .ErrInvalidFormat) := by
  have h1 : ∀ rest, readClass (bs ++ rest) = .ok ({ Attributes := mapSetAll [] ps }, rest) := by
    intro rest
    have := readClassLoop_pairs hps { Attributes := [] } rest
    rw [hlen] at this
    exact this
  refine ⟨h1, ?_, ?_⟩
  · intro cs rest
    rw [List.append_assoc, readClassesFrom_step, hb]
    simp +decide only [↓reduceIte]
    rw [h1]
  · intro bs1 ps1 hps1 hl1
    have h2 : readClass bs1 = .error .ErrInvalidFormat :=
      readClassLoop_short hps1 7 hl1 _
    refine ⟨h2, fun cs => ?_⟩
    rw [readClassesFrom_step, hb]
    simp +decide only [↓reduceIte]
    rw [h2]

/-- C8 at a class record of seven pairs with group codes unrelated to those of a class, two
of them with group code 0 (0/ENDSEC and 0/CLASS). -/
theorem readClass_fixed_arity_witness :
    (∀ rest, readClass ("0\nENDSEC\n0\nCLASS\n5\na\n6\nb\n7\nc\n8\nd\n9\ne\n".toList ++ rest) =
      .ok ({ Attributes := mapSetAll [] [(0, "ENDSEC".toList), (0, "CLASS".toList),
        (5, "a".toList), (6, "b".toList), (7, "c".toList), (8, "d".toList),
        (9, "e".toList)] }, rest)) ∧
    (∀ cs rest, readClassesFrom cs ("0\nCLASS\n".toList ++
        "0\nENDSEC\n0\nCLASS\n5\na\n6\nb\n7\nc\n8\nd\n9\ne\n".toList ++ rest) =
      readClassesFrom (cs ++ [{ Attributes := mapSetAll [] [(0, "ENDSEC".toList),
        (0, "CLASS".toList), (5, "a".toList), (6, "b".toList), (7, "c".toList),
        (8, "d".toList), (9, "e".toList)] }]) rest) ∧
    (∀ bs1 ps1, IsPairs bs1 ps1 → ps1.length < 7 →
      readClass bs1 = .error .ErrInvalidFormat ∧
      ∀ cs, readClassesFrom cs ("0\nCLASS\n".toList ++ bs1) = .error .ErrInvalidFormat) :=
  readClass_fixed_arity "0\nCLASS\n".toList
    "0\nENDSEC\n0\nCLASS\n5\na\n6\nb\n7\nc\n8\nd\n9\ne\n".toList
    [(0, "ENDSEC".toList), (0, "CLASS".toList), (5, "a".toList), (6, "b".toList),
      (7, "c".toList), (8, "d".toList), (9, "e".toList)]
    (IsPair_of_lines "0".toList "CLASS".toList 0 (by decide) (by decide) (by decide))
    (IsPairs.cons
      (IsPair_of_lines "0".toList "ENDSEC".toList 0 (by decide) (by decide) (by decide))
      (IsPairs.cons
        (IsPair_of_lines "0".toList "CLASS".toList 0 (by decide) (by decide) (by decide))
        (IsPairs.cons
          (IsPair_of_lines "5".toList "a".toList 5 (by decide) (by decide) (by decide))
          (IsPairs.cons
            (IsPair_of_lines "6".toList "b".toList 6 (by decide) (by decide) (by decide))
            (IsPairs.cons
              (IsPair_of_lines "7".toList "c".toList 7 (by decide) (by decide) (by decide))
              (IsPairs.cons
                (IsPair_of_lines "8".toList "d".toList 8 (by decide) (by decide) (by decide))
                (IsPairs.single
                  (IsPair_of_lines "9".toList "e".toList 9 (by decide) (by decide)
                    (by decide)))))))))
    (by decide)

/-! ### Invariants of the drawing returned -/

/-- A property of the drawing that every section reader keeps holds of what `Read` returns. -/
theorem ReadFrom_invariant (P : Drawing → Prop)
    (hH : ∀ d r hd r1, P d → readHeader r = .ok (hd, r1) → P { d with Header := some hd })
    (hC : ∀ d r cs r1, P d → readClasses r = .ok (cs, r1) → P { d with Classes := some cs })
    (hB : ∀ d r bs r1, P d → readBlocks r = .ok (bs, r1) → P { d with Blocks := some bs })
    (hE : ∀ d r es r1, P d → readEntities r = .ok (es, r1) →
      P { d with Entities := some es }) :
    ∀ (n : Nat) (d : Drawing) (r : List Char), r.length < n → P d → ∀ d1,
      ReadFrom d r = .ok d1 → P d1 := by
  intro n
  induction n with
  | zero => intro d r h; omega
  | succ n ih =>
    intro d r hl hd d1 h
    rw [ReadFrom_step] at h
    split at h
    · cases h
    · rename_i c v r1 hc
      have hl1 := readCodes_length hc
      split at h
      · cases h
      · split at h
        · cases h; exact hd
        · split at h
          · cases h
          · split at h
            · cases h
            · rename_i c2 v2 r2 hc2
              have hl2 := readCodes_length hc2
              split at h
              · cases h
              · split at h
                · split at h
                  · cases h
                  · rename_i x r3 hs
                    have := (readHeader_adv hs).length_le
                    exact ih _ r3 (by omega) (hH _ _ _ _ hd hs) d1 h
                · split at h
                  · split at h
                    · cases h
                    · rename_i x r3 hs
                      have := (readClasses_adv hs).length_le
                      exact ih _ r3 (by omega) (hC _ _ _ _ hd hs) d1 h
                  · split at h
                    · split at h
                      · cases h
                      · rename_i x r3 hs
                        have := (readBlocks_adv hs).length_le
                        exact ih _ r3 (by omega) (hB _ _ _ _ hd hs) d1 h
                    · split at h
                      · split at h
                        · cases h
                        · rename_i x r3 hs
                          have := (readEntities_adv hs).length_le
                          exact ih _ r3 (by omega) (hE _ _ _ _ hd hs) d1 h
                      · split at h
                        · cases h
                        · rename_i r3 hs
                          have := (skipSection_adv hs).length_le
                          exact ih _ r3 (by omega) hd d1 h

theorem Read_invariant (P : Drawing → Prop) (h0 : P emptyDrawing)
    (hH : ∀ d r hd r1, P d → readHeader r = .ok (hd, r1) → P { d with Header := some hd })
    (hC : ∀ d r cs r1, P d → readClasses r = .ok (cs, r1) → P { d with Classes := some cs })
    (hB : ∀ d r bs r1, P d → readBlocks r = .ok (bs, r1) → P { d with Blocks := some bs })
    (hE : ∀ d r es r1, P d → readEntities r = .ok (es, r1) →
      P { d with Entities := some es })
    {input : List Char} {d : Drawing} (h : Read input = .ok d) : P d :=
  ReadFrom_invariant P hH hC hB hE (input.length + 1) _ input (by omega) h0 d h

/-! ### The shape of a class -/

theorem mapSetAll_length {κ ν : Type} [DecidableEq κ] (m ps : List (κ × ν)) :
    m.length ≤ (mapSetAll m ps).length ∧ (mapSetAll m ps).length ≤ m.length + ps.length ∧
      (ps ≠ [] → 0 < (mapSetAll m ps).length) := by
  induction ps generalizing m with
  | nil => simp [mapSetAll]
  | cons p t ih =>
    rw [mapSetAll_cons]
    have h1 := mapSet_length_le m p.1 p.2
    have h2 := ih (mapSet m p.1 p.2)
    simp only [List.length_cons]
    refine ⟨by omega, by omega, fun _ => by omega⟩

theorem mapSetAll_nodup {κ ν : Type} [DecidableEq κ] (m ps : List (κ × ν))
    (h : (m.map Prod.fst).Nodup) : ((mapSetAll m ps).map Prod.fst).Nodup := by
  induction ps generalizing m with
  | nil => exact h
  | cons p t ih =>
    rw [mapSetAll_cons]
    exact ih _ (mapSet_nodup m p.1 p.2 h)

theorem readClassLoop_shape : ∀ (n : Nat) (cls : Class) (r : List Char) (res : Class)
    (r1 : List Char), readClassLoop n cls r = .ok (res, r1) →
    ∃ ps : List (GroupCode × List Char), ps.length = n ∧
      res.Attributes = mapSetAll cls.Attributes ps := by
  intro n
  induction n with
  | zero =>
    intro cls r res r1 h
    simp only [readClassLoop, Except.ok.injEq, Prod.mk.injEq] at h
    exact ⟨[], rfl, by rw [← h.1]; rfl⟩
  | succ n ih =>
    intro cls r res r1 h
    rw [readClassLoop] at h
    split at h
    · cases h
    · rename_i c v r2 hc
      obtain ⟨ps, hl, hp⟩ := ih _ _ _ _ h
      exact ⟨(c, v) :: ps, by simp [hl], by rw [hp]; rfl⟩

theorem readClassesLoop_shape : ∀ (n : Nat) (cs : List Class) (r : List Char)
    (res : List Class) (r1 : List Char), readClassesLoop n cs r = .ok (res, r1) →
    (∀ c ∈ cs, ∃ ps : List (GroupCode × List Char), ps.length = 7 ∧
      c.Attributes = mapSetAll [] ps) →
    ∀ c ∈ res, ∃ ps : List (GroupCode × List Char), ps.length = 7 ∧
      c.Attributes = mapSetAll [] ps := by
  intro n
  induction n with
  | zero => intro cs r res r1 h; simp [readClassesLoop] at h
  | succ n ih =>
    intro cs r res r1 h hcs
    rw [readClassesLoop] at h
    split at h
    · cases h
    · split at h
      · split at h
        · simp only [Except.ok.injEq, Prod.mk.injEq] at h
          rw [← h.1]; exact hcs
        · split at h
          · split at h
            · cases h
            · rename_i cls r3 hcl
              refine ih _ _ _ _ h ?_
              intro c hc
              rcases List.mem_append.mp hc with h1 | h1
              · exact hcs c h1
              · simp only [List.mem_singleton] at h1
                rw [h1]
                exact readClassLoop_shape _ _ _ _ _ hcl
          · cases h
      · cases h

theorem readClasses_shape {r : List Char} {cs : List Class} {r1 : List Char}
    (h : readClasses r = .ok (cs, r1)) :
    ∀ c ∈ cs, ∃ ps : List (GroupCode × List Char), ps.length = 7 ∧
      c.Attributes = mapSetAll [] ps :=
  readClassesLoop_shape _ _ _ _ _ h (by simp)

/-- C9 as amended: every class of a drawing `Read` returns holds the attributes that seven
pairs leave in a mapping, one per distinct group code: at least one attribute and at most
seven, without repeated group codes, and exactly seven when the group codes of the seven
pairs are pairwise distinct. -/
theorem Read_class_shape (input : List Char) (d : Drawing) (cs : List Class) (c : Class)
    (h : Read input = .ok d) (hcs : d.Classes = some cs) (hc : c ∈ cs) :
    (∃ ps : List (GroupCode × List Char), ps.length = 7 ∧ c.Attributes = mapSetAll [] ps ∧
      ((ps.map Prod.fst).Nodup → c.Attributes.length = 7)) ∧
    1 ≤ c.Attributes.length ∧ c.Attributes.length ≤ 7 ∧
    (c.Attributes.map Prod.fst).Nodup := by
  have hP := Read_invariant
    (fun d => ∀ cs, d.Classes = some cs → ∀ c ∈ cs,
      ∃ ps : List (GroupCode × List Char), ps.length = 7 ∧ c.Attributes = mapSetAll [] ps)
    (by intro cs h; cases h)
    (fun d r hd r1 hp _ => hp)
    (fun d r cs r1 _ hr cs1 he => by
      simp only [Option.some.injEq] at he
      rw [← he]; exact readClasses_shape hr)
    (fun d r bs r1 hp _ => hp)
    (fun d r es r1 hp _ => hp)
    h
  obtain ⟨ps, hl, hp⟩ := hP cs hcs c hc
  have hlen := mapSetAll_length ([] : Attrs) ps
  have hne : ps ≠ [] := by intro e; rw [e] at hl; cases hl
  refine ⟨⟨ps, hl, hp, fun hnd => ?_⟩, ?_, ?_, ?_⟩
  · rw [hp, mapSetAll_empty ps hnd, hl]
  · rw [hp]; exact hlen.2.2 hne
  · rw [hp]; have := hlen.2.1; simp only [List.length_nil] at this; omega
  · rw [hp]; exact mapSetAll_nodup [] ps (by simp)

/-- C9 as stated fails: a class record whose seven pairs all carry the group code 1 is read
as a class with one attribute. -/
theorem Read_class_not_seven :
    Read ("0\nSECTION\n2\nCLASSES\n0\nCLASS\n1\na\n1\nb\n1\nc\n1\nd\n1\ne\n1\nf\n1\ng\n" ++
        "0\nENDSEC\n0\nEOF\n").toList =
      .ok { emptyDrawing with Classes := some [{ Attributes := [(1, "g".toList)] }] } ∧
    ¬ ∀ (input : List Char) (d : Drawing) (cs : List Class) (c : Class),
      Read input = .ok d → d.Classes = some cs → c ∈ cs → c.Attributes.length = 7 := by
  have h1 : Read ("0\nSECTION\n2\nCLASSES\n0\nCLASS\n1\na\n1\nb\n1\nc\n1\nd\n1\ne\n1\nf\n1\ng\n" ++
        "0\nENDSEC\n0\nEOF\n").toList =
      .ok { emptyDrawing with Classes := some [{ Attributes := [(1, "g".toList)] }] } := by
    decide
  refine ⟨h1, fun hall => ?_⟩
  have := hall _ _ [{ Attributes := [(1, "g".toList)] }] { Attributes := [(1, "g".toList)] }
    h1 rfl (by simp)
  simp at this

/-- C9 as amended, at the class record whose seven pairs all carry the group code 1. -/
theorem Read_class_shape_witness :
    (∃ ps : List (GroupCode × List Char), ps.length = 7 ∧
      [((1 : GroupCode), "g".toList)] = mapSetAll [] ps ∧
      ((ps.map Prod.fst).Nodup → [((1 : GroupCode), "g".toList)].length = 7)) ∧
    1 ≤ [((1 : GroupCode), "g".toList)].length ∧ [((1 : GroupCode), "g".toList)].length ≤ 7 ∧
    ([((1 : GroupCode), "g".toList)].map Prod.fst).Nodup :=
  Read_class_shape
    ("0\nSECTION\n2\nCLASSES\n0\nCLASS\n1\na\n1\nb\n1\nc\n1\nd\n1\ne\n1\nf\n1\ng\n" ++
        "0\nENDSEC\n0\nEOF\n").toList
    { emptyDrawing with Classes := some [{ Attributes := [(1, "g".toList)] }] }
    [{ Attributes := [(1, "g".toList)] }] { Attributes := [(1, "g".toList)] }
    (by decide) rfl (by simp)

/-! ### The blocks the reader returns -/

theorem readBlockLoop_good : ∀ (n : Nat) (b : Block) (e : Option Entity)
    (r : List Char) (res : Block) (r1 : List Char),
    readBlockLoop n b e r = .ok (res, r1) → GoodBlock b →
    (∀ x, e = some x → GoodEntity "ENDBLK".toList x) → GoodBlock res := by
  intro n
  induction n with
  | zero => intro b e r res r1 h; simp [readBlockLoop] at h
  | succ n ih =>
    intro b e r res r1 h hb he
    rw [readBlockLoop] at h
    split at h
    · cases h
    · rename_i c v r2 hc
      obtain ⟨hv1, hv2, hv3⟩ := readCodes_value hc
      have happ : GoodBlock { b with Entities := appendEntity b.Entities e } := by
        refine ⟨?_, hb.2.1, hb.2.2⟩
        intro x hx
        rcases appendEntity_mem b.Entities e x hx with h1 | h1
        · exact hb.1 x h1
        · exact he x h1
      split at h
      · split at h
        · simp only [Except.ok.injEq, Prod.mk.injEq] at h
          rw [← h.1]; exact happ
        · rename_i hne
          refine ih _ _ _ _ _ h happ ?_
          intro x hx
          simp only [Option.some.injEq] at hx
          subst hx
          exact ⟨hv1, hv2, hne, by simp, by simp⟩
      · rename_i hc0
        split at h
        · rename_i e0
          obtain ⟨g1, g2, g3, g4, g5⟩ := he e0 rfl
          refine ih _ _ _ _ _ h hb ?_
          intro x hx
          simp only [Option.some.injEq] at hx
          subst hx
          have := mapSet_good e0.Attributes c v ⟨g4, g5⟩ ⟨hc0, hv3, hv1, hv2⟩
          exact ⟨g1, g2, g3, this.1, this.2⟩
        · have := mapSet_good b.Attributes c v ⟨hb.2.1, hb.2.2⟩ ⟨hc0, hv3, hv1, hv2⟩
          exact ih _ _ _ _ _ h ⟨hb.1, this.1, this.2⟩ (by simp)

theorem readBlock_good {r : List Char} {b : Block} {r1 : List Char}
    (h : readBlock r = .ok (b, r1)) : GoodBlock b :=
  readBlockLoop_good _ _ _ _ _ _ h ⟨by simp, by simp, by simp⟩ (by simp)

theorem readBlocksLoop_good : ∀ (n : Nat) (bs : List Block) (r : List Char)
    (res : List Block) (r1 : List Char), readBlocksLoop n bs r = .ok (res, r1) →
    (∀ b ∈ bs, GoodBlock b) → ∀ b ∈ res, GoodBlock b := by
  intro n
  induction n with
  | zero => intro bs r res r1 h; simp [readBlocksLoop] at h
  | succ n ih =>
    intro bs r res r1 h hbs
    rw [readBlocksLoop] at h
    split at h
    · cases h
    · split at h
      · split at h
        · simp only [Except.ok.injEq, Prod.mk.injEq] at h
          rw [← h.1]; exact hbs
        · split at h
          · split at h
            · cases h
            · rename_i blk r3 hb
              refine ih _ _ _ _ h ?_
              intro b hm
              rcases List.mem_append.mp hm with h1 | h1
              · exact hbs b h1
              · simp only [List.mem_singleton] at h1
                rw [h1]
                exact readBlock_good hb
          · cases h
      · cases h

theorem readBlocks_good {r : List Char} {bs : List Block} {r1 : List Char}
    (h : readBlocks r = .ok (bs, r1)) : ∀ b ∈ bs, GoodBlock b :=
  readBlocksLoop_good _ _ _ _ _ h (by simp)

/-- The entities and blocks of a drawing `Read` returns are such as the writer needs them. -/
theorem Read_good {input : List Char} {d : Drawing} (h : Read input = .ok d) :
    (∀ es, d.Entities = some es → ∀ e ∈ es, GoodEntity "ENDSEC".toList e) ∧
    (∀ bs, d.Blocks = some bs → ∀ b ∈ bs, GoodBlock b) :=
  Read_invariant
    (fun d => (∀ es, d.Entities = some es → ∀ e ∈ es, GoodEntity "ENDSEC".toList e) ∧
      (∀ bs, d.Blocks = some bs → ∀ b ∈ bs, GoodBlock b))
    (And.intro (by intro es h; cases h) (by intro bs h; cases h))
    (fun d r hd r1 hp _ => hp)
    (fun d r cs r1 hp _ => hp)
    (fun d r bs r1 hp hr => And.intro hp.1 (fun bs1 he => by
      simp only [Option.some.injEq] at he
      rw [← he]
      exact readBlocks_good hr))
    (fun d r es r1 hp hr => And.intro (fun es1 he => by
      simp only [Option.some.injEq] at he
      rw [← he]
      exact readEntities_good hr) hp.2)
    h

/-- C10 as amended: the name of every entity of a drawing `Read` returns is a trimmed value
free of line feeds, possibly empty; it is not ENDSEC in the top-level list and not ENDBLK in
the list of a block. -/
theorem Read_entity_names (input : List Char) (d : Drawing) (h : Read input = .ok d) :
    (∀ es, d.Entities = some es → ∀ e ∈ es,
      TrimSpace e.Name = e.Name ∧ '\n' ∉ e.Name ∧ e.Name ≠ "ENDSEC".toList) ∧
    (∀ bs, d.Blocks = some bs → ∀ b ∈ bs, ∀ e ∈ b.Entities,
      TrimSpace e.Name = e.Name ∧ '\n' ∉ e.Name ∧ e.Name ≠ "ENDBLK".toList) := by
  obtain ⟨h1, h2⟩ := Read_good h
  constructor
  · intro es hes e he
    obtain ⟨g1, g2, g3, -, -⟩ := h1 es hes e he
    exact ⟨g1, g2, g3⟩
  · intro bs hbs b hb e he
    obtain ⟨g1, g2, g3, -, -⟩ := (h2 bs hbs b hb).1 e he
    exact ⟨g1, g2, g3⟩

/-- C10 as stated fails: a pair with group code 0 and a blank value line opens an entity
with the empty name, in an ENTITIES section and in a block. -/
theorem Read_entity_empty_name :
    Read "0\nSECTION\n2\nENTITIES\n0\n\n0\nENDSEC\n0\nEOF\n".toList =
      .ok { emptyDrawing with Entities := some [{ Name := [], Attributes := [] }] } ∧
    Read "0\nSECTION\n2\nBLOCKS\n0\nBLOCK\n0\n \n0\nENDBLK\n0\nENDSEC\n0\nEOF\n".toList =
      .ok { emptyDrawing with
        Blocks := some [{ Entities := [{ Name := [], Attributes := [] }], Attributes := [] }] } ∧
    ¬ ∀ (input : List Char) (d : Drawing) (es : List Entity) (e : Entity),
      Read input = .ok d → d.Entities = some es → e ∈ es → e.Name ≠ [] := by
  have h1 : Read "0\nSECTION\n2\nENTITIES\n0\n\n0\nENDSEC\n0\nEOF\n".toList =
      .ok { emptyDrawing with Entities := some [{ Name := [], Attributes := [] }] } := by
    decide
  refine ⟨h1, by decide, fun hall => ?_⟩
  exact hall _ _ [{ Name := [], Attributes := [] }] { Name := [], Attributes := [] } h1 rfl
    (by simp) rfl

/-- C10 as amended, at an input with an entity of empty name. -/
theorem Read_entity_names_witness :
    (∀ es, (some [({ Name := [], Attributes := [] } : Entity)]) = some es → ∀ e ∈ es,
      TrimSpace e.Name = e.Name ∧ '\n' ∉ e.Name ∧ e.Name ≠ "ENDSEC".toList) ∧
    (∀ bs, (none : Option (List Block)) = some bs → ∀ b ∈ bs, ∀ e ∈ b.Entities,
      TrimSpace e.Name = e.Name ∧ '\n' ∉ e.Name ∧ e.Name ≠ "ENDBLK".toList) :=
  Read_entity_names "0\nSECTION\n2\nENTITIES\n0\n\n0\nENDSEC\n0\nEOF\n".toList
    { emptyDrawing with Entities := some [{ Name := [], Attributes := [] }] } (by decide)

/-! ### The header rule -/

theorem lastName_concat (pre : List (GroupCode × List Char)) (c : GroupCode) (v : List Char) :
    lastName (pre ++ [(c, v)]) = if c = 9 then v else lastName pre := by
  unfold lastName
  by_cases h : c = 9
  · simp [List.filter_append, h]
  · simp [List.filter_append, h]

theorem headerSet_eq_store (hd : HeaderMap) (key : List Char) (c : GroupCode) (v : List Char)
    (h : (mapGet hd key).isSome = true) :
    headerSet hd key c v = .ok (headerStore hd key c v) := by
  unfold headerSet headerStore
  cases hg : mapGet hd key with
  | none => rw [hg] at h; cases h
  | some m => rfl

theorem mapGet_headerStore (hd : HeaderMap) (key : List Char) (c : GroupCode) (v : List Char) :
    (mapGet (headerStore hd key c v) key).isSome = true := by
  unfold headerStore
  rw [mapGet_mapSet_self]; rfl

/-- The loop of `readHeader` on the pairs of a section follows the header rule. -/
theorem readHeaderFrom_pairs {body : List Char} {ps : List (GroupCode × List Char)}
    (hps : IsPairs body ps) (hno : (0, "ENDSEC".toList) ∉ ps) {b3 : List Char}
    (h3 : IsPair b3 0 "ENDSEC".toList) (rest : List Char)
    (pre : List (GroupCode × List Char)) (hd : HeaderMap)
    (hinv : lastName pre ≠ [] → (mapGet hd (lastName pre)).isSome = true) :
    readHeaderFrom hd (lastName pre) (body ++ (b3 ++ rest)) =
      if headerBad pre ps = true then .error .ErrInvalidFormat
      else .ok (headerTable pre hd ps, rest) := by
  induction hps generalizing pre hd with
  | nil =>
    rw [List.nil_append, readHeaderFrom_step, h3]
    simp [headerBad, headerTable]
  | @cons b bs c v ps hp _ ih =>
    have hcv : ¬ (c = 0 ∧ v = "ENDSEC".toList) := by
      rintro ⟨h1, h2⟩
      exact hno (by rw [h1, h2]; exact List.mem_cons_self _ _)
    have hno1 : (0, "ENDSEC".toList) ∉ ps := fun hm => hno (List.mem_cons_of_mem _ hm)
    rw [List.append_assoc, readHeaderFrom_step, hp]
    simp only [hcv, if_false]
    by_cases h9 : c = 9
    · subst h9
      have hl : lastName (pre ++ [(9, v)]) = v := by rw [lastName_concat]; simp
      have := ih hno1 (pre ++ [(9, v)]) (mapSet hd v [])
        (by intro _; rw [hl, mapGet_mapSet_self]; rfl)
      rw [hl] at this
      simp only [if_true, this, headerBad, headerTable]
      simp
    · have hl : lastName (pre ++ [(c, v)]) = lastName pre := by
        rw [lastName_concat]; simp [h9]
      simp only [h9, if_false]
      by_cases hk : lastName pre = []
      · simp [hk, headerBad, h9]
      · rw [if_neg hk, headerSet_eq_store _ _ _ _ (hinv hk)]
        have := ih hno1 (pre ++ [(c, v)]) (headerStore hd (lastName pre) c v)
          (by intro _; rw [hl]; exact mapGet_headerStore _ _ _ _)
        rw [hl] at this
        simp only [this, headerBad, headerTable, h9, hk, if_false]
        simp

theorem headerBad_iff (pre0 ps : List (GroupCode × List Char)) :
    headerBad pre0 ps = true ↔
      ∃ pre c v post, ps = pre ++ (c, v) :: post ∧ c ≠ 9 ∧ lastName (pre0 ++ pre) = [] := by
  induction ps generalizing pre0 with
  | nil => simp [headerBad]
  | cons p t ih =>
    obtain ⟨c, v⟩ := p
    simp only [headerBad, Bool.or_eq_true, Bool.and_eq_true, decide_eq_true_eq, ih]
    constructor
    · rintro (⟨h1, h2⟩ | ⟨pre, c1, v1, post, h1, h2, h3⟩)
      · exact ⟨[], c, v, t, rfl, h1, by simpa using h2⟩
      · refine ⟨(c, v) :: pre, c1, v1, post, by rw [h1]; rfl, h2, ?_⟩
        simpa using h3
    · rintro ⟨pre, c1, v1, post, h1, h2, h3⟩
      cases pre with
      | nil =>
        simp only [List.nil_append, List.cons.injEq, Prod.mk.injEq] at h1
        obtain ⟨⟨e1, e2⟩, e3⟩ := h1
        left
        exact ⟨by rw [e1]; exact h2, by simpa using h3⟩
      | cons q pre1 =>
        simp only [List.cons_append, List.cons.injEq] at h1
        obtain ⟨e1, e2⟩ := h1
        right
        refine ⟨pre1, c1, v1, post, e2, h2, ?_⟩
        rw [e1]
        simpa using h3

/-- C7 as amended: in a HEADER section whose pairs before 0/ENDSEC are `ps`, a pair with
group code 9 opens a fresh empty mapping under its value, replacing a prior one of that
name, and any other pair is stored in the mapping of the variable named by the most recent
preceding pair with group code 9; the section is a format error if and only if some pair
with a group code other than 9 comes while that name is empty, that is before any pair with
group code 9 or after one with an empty value. The header of the specification decodes to
the one variable `$ACADVER` with the attribute 1 = "AC1009". -/
theorem readHeader_rule (body b3 : List Char) (ps : List (GroupCode × List Char))
    (hps : IsPairs body ps) (hno : (0, "ENDSEC".toList) ∉ ps)
    (h3 : IsPair b3 0 "ENDSEC".toList) :
    (∀ rest, readHeader (body ++ b3 ++ rest) =
      if headerBad [] ps = true then .error .ErrInvalidFormat
      else .ok (headerTable [] [] ps, rest)) ∧
    (headerBad [] ps = true ↔
      ∃ pre c v post, ps = pre ++ (c, v) :: post ∧ c ≠ 9 ∧ lastName pre = []) ∧
    Read "0\nSECTION\n2\nHEADER\n9\n$ACADVER\n1\nAC1009\n0\nENDSEC\n0\nEOF\n".toList =
      .ok { emptyDrawing with
        Header := some [("$ACADVER".toList, [(1, "AC1009".toList)])] } := by
  refine ⟨fun rest => ?_, ?_, by decide⟩
  · rw [List.append_assoc]
    exact readHeaderFrom_pairs hps hno h3 rest [] [] (by intro h; exact absurd rfl h)
  · simpa using headerBad_iff [] ps

/-- C7 as stated fails: after a pair with group code 9 and a blank value line, an attribute
pair is a format error although a pair with group code 9 has preceded it. -/
theorem readHeader_empty_name :
    readCodes "9\n\n1\nx\n0\nENDSEC\n".toList = .ok (9, [], "1\nx\n0\nENDSEC\n".toList) ∧
    readHeader "9\n\n1\nx\n0\nENDSEC\n".toList = .error .ErrInvalidFormat ∧
    Read "0\nSECTION\n2\nHEADER\n9\n\n1\nx\n0\nENDSEC\n0\nEOF\n".toList =
      .error .ErrInvalidFormat := by
  refine ⟨by decide, by rfl, by decide⟩

/-- C7 as amended, at the header of the specification. -/
theorem readHeader_rule_witness :
    (∀ rest, readHeader ("9\n$ACADVER\n1\nAC1009\n".toList ++ "0\nENDSEC\n".toList ++ rest) =
      if headerBad [] [(9, "$ACADVER".toList), (1, "AC1009".toList)] = true then
        .error .ErrInvalidFormat
      else .ok (headerTable [] [] [(9, "$ACADVER".toList), (1, "AC1009".toList)], rest)) ∧
    (headerBad [] [(9, "$ACADVER".toList), (1, "AC1009".toList)] = true ↔
      ∃ pre c v post, [(9, "$ACADVER".toList), (1, "AC1009".toList)] =
        pre ++ (c, v) :: post ∧ c ≠ 9 ∧ lastName pre = []) ∧
    Read "0\nSECTION\n2\nHEADER\n9\n$ACADVER\n1\nAC1009\n0\nENDSEC\n0\nEOF\n".toList =
      .ok { emptyDrawing with
        Header := some [("$ACADVER".toList, [(1, "AC1009".toList)])] } :=
  readHeader_rule "9\n$ACADVER\n1\nAC1009\n".toList "0\nENDSEC\n".toList
    [(9, "$ACADVER".toList), (1, "AC1009".toList)]
    (IsPairs.cons
      (IsPair_of_lines "9".toList "$ACADVER".toList 9 (by decide) (by decide) (by decide))
      (IsPairs.single
        (IsPair_of_lines "1".toList "AC1009".toList 1 (by decide) (by decide) (by decide))))
    (by decide)
    (IsPair_of_lines "0".toList "ENDSEC".toList 0 (by decide) (by decide) (by decide))

/-- C14 as amended: the lexer reports the end of input (`io.EOF`) on the empty input, and
`Read` turns it into `ErrInvalidFormat`, the error of every other input that ends where a
section or the end marker is expected. -/
theorem Read_empty_input :
    readCodes [] = .error .ioEOF ∧
    Read [] = .error .ErrInvalidFormat ∧
    Read "0\nSECTION\n2\nENTITIES\n0\nENDSEC\n".toList = .error .ErrInvalidFormat := by
  refine ⟨by decide, by decide, by decide⟩

/-- C14 as stated fails: `Read` on the empty input fails with `ErrInvalidFormat`. -/
theorem Read_empty_is_format_error :
    ¬ (Read [] ≠ .error .ErrInvalidFormat) := by
  decide

/-- C17: at a section boundary, the pair 0/EOF makes `Read` return the drawing accumulated;
a pair with a non-zero group code, or with group code 0 and a value other than SECTION and
EOF, is `ErrInvalidFormat`; and after the pair 0/SECTION a pair with a group code other than
2 is `ErrInvalidFormat`. -/
theorem Read_section_boundary (d : Drawing) (r r1 : List Char) (c : GroupCode)
    (v : List Char) (h : readCodes r = .ok (c, v, r1)) :
    (c = 0 → v = "EOF".toList → ReadFrom d r = .ok d) ∧
    (c ≠ 0 → ReadFrom d r = .error .ErrInvalidFormat) ∧
    (c = 0 → v ≠ "SECTION".toList → v ≠ "EOF".toList →
      ReadFrom d r = .error .ErrInvalidFormat) ∧
    (c = 0 → v = "SECTION".toList → ∀ c2 v2 r2, readCodes r1 = .ok (c2, v2, r2) → c2 ≠ 2 →
      ReadFrom d r = .error .ErrInvalidFormat) := by
  refine ⟨?_, ?_, ?_, ?_⟩
  · intro hc hv
    rw [hc, hv] at h
    exact ReadFrom_eof h d
  · intro hc
    rw [ReadFrom_step, h]
    simp only [ne_eq, hc, not_false_eq_true, if_true]
  · intro hc hv1 hv2
    rw [ReadFrom_step, h]
    simp only [ne_eq, hc, not_true_eq_false, if_false, hv2, hv1, not_false_eq_true, if_true]
  · intro hc hv c2 v2 r2 h2 hc2
    rw [ReadFrom_step, h]
    simp only [ne_eq, hc, not_true_eq_false, if_false, hv]
    simp +decide only [↓reduceIte]
    rw [h2]
    simp only [ne_eq, hc2, not_false_eq_true, if_true]

/-- C17 at the input whose first pair is 0/SECTION and whose second pair is 0/ENTITIES. -/
theorem Read_section_boundary_witness :
    ((0 : GroupCode) = 0 → "SECTION".toList = "EOF".toList →
      ReadFrom emptyDrawing "0\nSECTION\n0\nENTITIES\n".toList = .ok emptyDrawing) ∧
    ((0 : GroupCode) ≠ 0 →
      ReadFrom emptyDrawing "0\nSECTION\n0\nENTITIES\n".toList = .error .ErrInvalidFormat) ∧
    ((0 : GroupCode) = 0 → "SECTION".toList ≠ "SECTION".toList →
      "SECTION".toList ≠ "EOF".toList →
      ReadFrom emptyDrawing "0\nSECTION\n0\nENTITIES\n".toList = .error .ErrInvalidFormat) ∧
    ((0 : GroupCode) = 0 → "SECTION".toList = "SECTION".toList → ∀ c2 v2 r2,
      readCodes "0\nENTITIES\n".toList = .ok (c2, v2, r2) → c2 ≠ 2 →
      ReadFrom emptyDrawing "0\nSECTION\n0\nENTITIES\n".toList = .error .ErrInvalidFormat) :=
  Read_section_boundary emptyDrawing "0\nSECTION\n0\nENTITIES\n".toList
    "0\nENTITIES\n".toList 0 "SECTION".toList (by decide)

/-! ### The block loop on a sequence of pairs -/

/-- An in-progress entity of a block takes the attribute pairs that follow, in order. -/
theorem readBlockFrom_attrs {bs : List Char} {ps : List (GroupCode × List Char)}
    (h : IsPairs bs ps) (h0 : ∀ p ∈ ps, p.1 ≠ 0) (b : Block) (e : Entity)
    (rest : List Char) :
    readBlockFrom b (some e) (bs ++ rest) =
      readBlockFrom b (some { e with Attributes := mapSetAll e.Attributes ps }) rest := by
  induction h generalizing e with
  | nil => rfl
  | @cons b1 bs c v ps hp _ ih =>
    have hc : c ≠ 0 := h0 (c, v) (List.mem_cons_self _ _)
    rw [List.append_assoc, readBlockFrom_step, hp]
    simp only [hc, if_false]
    rw [ih (fun p hp => h0 p (List.mem_cons_of_mem _ hp))]
    rfl

/-- Before the first entity, the block takes the attribute pairs itself. -/
theorem readBlockFrom_own {bs : List Char} {ps : List (GroupCode × List Char)}
    (h : IsPairs bs ps) (h0 : ∀ p ∈ ps, p.1 ≠ 0) (b : Block) (rest : List Char) :
    readBlockFrom b none (bs ++ rest) =
      readBlockFrom { b with Attributes := mapSetAll b.Attributes ps } none rest := by
  induction h generalizing b with
  | nil => rfl
  | @cons b1 bs c v ps hp _ ih =>
    have hc : c ≠ 0 := h0 (c, v) (List.mem_cons_self _ _)
    rw [List.append_assoc, readBlockFrom_step, hp]
    simp only [hc, if_false]
    rw [ih (fun p hp => h0 p (List.mem_cons_of_mem _ hp))]
    rfl

/-- A pair with group code 0 and a value other than ENDBLK closes the entity in progress and
opens a new one. -/
theorem readBlockFrom_open {b1 : List Char} {v : List Char} (h : IsPair b1 0 v)
    (hv : v ≠ "ENDBLK".toList) (b : Block) (e : Option Entity) (rest : List Char) :
    readBlockFrom b e (b1 ++ rest) =
      readBlockFrom { b with Entities := appendEntity b.Entities e }
        (some { Name := v, Attributes := [] }) rest := by
  rw [readBlockFrom_step, h]
  simp only [↓reduceIte, hv]

/-- The pair 0/ENDBLK closes the entity in progress and ends the block. -/
theorem readBlockFrom_close {b1 : List Char} (h : IsPair b1 0 "ENDBLK".toList)
    (b : Block) (e : Option Entity) (rest : List Char) :
    readBlockFrom b e (b1 ++ rest) =
      .ok ({ b with Entities := appendEntity b.Entities e }, rest) := by
  rw [readBlockFrom_step, h]
  simp

/-! ### The last assignment wins -/

theorem lastValue_cons (p : GroupCode × List Char) (t : List (GroupCode × List Char))
    (c : GroupCode) :
    lastValue (p :: t) c =
      match lastValue t c with
      | some v => some v
      | none => if p.1 = c then some p.2 else none := by
  unfold lastValue
  by_cases h : p.1 = c
  · simp only [List.filter_cons, h, decide_True, if_true]
    generalize List.filter (fun p => decide (p.1 = c)) t = q
    cases q with
    | nil => simp
    | cons a l =>
      have e : (a :: l).getLast? = some ((a :: l).getLast (by simp)) :=
        List.getLast?_eq_getLast _ _
      rw [List.getLast?_cons_cons, e]
      rfl
  · simp only [List.filter_cons, h, decide_False, Bool.false_eq_true, if_false]
    generalize Option.map Prod.snd (List.filter (fun p => decide (p.1 = c)) t).getLast? = o
    cases o <;> rfl

theorem mapGet_mapSetAll (m ps : Attrs) (c : GroupCode) :
    mapGet (mapSetAll m ps) c =
      match lastValue ps c with
      | some v => some v
      | none => mapGet m c := by
  induction ps generalizing m with
  | nil => simp [mapSetAll, lastValue]
  | cons p t ih =>
    rw [mapSetAll_cons, ih, lastValue_cons]
    cases lastValue t c with
    | some v => rfl
    | none =>
      simp only
      by_cases h : p.1 = c
      · simp only [h, if_true]
        rw [← h, mapGet_mapSet_self]
      · simp only [h, if_false]
        exact mapGet_mapSet_ne m p.1 c p.2 h

theorem mapSetAll_keys {κ ν : Type} [DecidableEq κ] (m ps : List (κ × ν)) (k : κ) :
    k ∈ (mapSetAll m ps).map Prod.fst ↔ k ∈ m.map Prod.fst ∨ k ∈ ps.map Prod.fst := by
  induction ps generalizing m with
  | nil => simp [mapSetAll]
  | cons p t ih =>
    rw [mapSetAll_cons, ih, mapSet_keys]
    split
    · rename_i hp
      simp only [List.map_cons, List.mem_cons]
      constructor
      · rintro (h | h)
        · exact Or.inl h
        · exact Or.inr (Or.inr h)
      · rintro (h | h | h)
        · exact Or.inl h
        · exact Or.inl (h ▸ hp)
        · exact Or.inr h
    · simp only [List.mem_append, List.mem_singleton, List.map_cons, List.mem_cons]
      tauto

/-- C11: an entity opened by a pair 0/name and followed by the attribute pairs `ps`, in an
ENTITIES section or in a block, gets the mapping the pairs leave when assigned in order; in
it each group code has one entry, the group codes are those of `ps`, and the value of a
group code is the value of the last pair of `ps` with that group code. -/
theorem last_write_wins (bname battrs : List Char) (name : List Char)
    (ps : List (GroupCode × List Char)) (hname : IsPair bname 0 name)
    (hps : IsPairs battrs ps) (h0 : ∀ p ∈ ps, p.1 ≠ 0) :
    (name ≠ "ENDSEC".toList → ∀ es cur bend rest, IsPair bend 0 "ENDSEC".toList →
      readEntitiesFrom es cur (bname ++ battrs ++ rest) =
        readEntitiesFrom (appendEntity es cur)
          (some { Name := name, Attributes := mapSetAll [] ps }) rest ∧
      readEntitiesFrom es cur (bname ++ battrs ++ bend ++ rest) =
        .ok (appendEntity es cur ++ [{ Name := name, Attributes := mapSetAll [] ps }],
          rest)) ∧
    (name ≠ "ENDBLK".toList → ∀ b cur bend rest, IsPair bend 0 "ENDBLK".toList →
      readBlockFrom b cur (bname ++ battrs ++ rest) =
        readBlockFrom { b with Entities := appendEntity b.Entities cur }
          (some { Name := name, Attributes := mapSetAll [] ps }) rest ∧
      readBlockFrom b cur (bname ++ battrs ++ bend ++ rest) =
        .ok ({ b with Entities := appendEntity b.Entities cur ++
          [{ Name := name, Attributes := mapSetAll [] ps }] }, rest)) ∧
    (∀ c, mapGet (mapSetAll [] ps) c = lastValue ps c) ∧
    ((mapSetAll ([] : Attrs) ps).map Prod.fst).Nodup ∧
    (∀ c, c ∈ (mapSetAll ([] : Attrs) ps).map Prod.fst ↔ c ∈ ps.map Prod.fst) := by
  refine ⟨?_, ?_, ?_, mapSetAll_nodup [] ps (by simp), ?_⟩
  · intro hn es cur bend rest hend
    have e1 : ∀ rest, readEntitiesFrom es cur (bname ++ battrs ++ rest) =
        readEntitiesFrom (appendEntity es cur)
          (some { Name := name, Attributes := mapSetAll [] ps }) rest := by
      intro rest
      rw [List.append_assoc, readEntitiesFrom_open hname hn, readEntitiesFrom_attrs hps h0]
    refine ⟨e1 rest, ?_⟩
    rw [List.append_assoc (bname ++ battrs), e1, readEntitiesFrom_close hend]
    rfl
  · intro hn b cur bend rest hend
    have e1 : ∀ rest, readBlockFrom b cur (bname ++ battrs ++ rest) =
        readBlockFrom { b with Entities := appendEntity b.Entities cur }
          (some { Name := name, Attributes := mapSetAll [] ps }) rest := by
      intro rest
      rw [List.append_assoc, readBlockFrom_open hname hn, readBlockFrom_attrs hps h0]
    refine ⟨e1 rest, ?_⟩
    rw [List.append_assoc (bname ++ battrs), e1, readBlockFrom_close hend]
    rfl
  · intro c
    rw [mapGet_mapSetAll]
    cases lastValue ps c <;> rfl
  · intro c
    rw [mapSetAll_keys]
    simp

/-- C11 at the entity LINE with the pairs 8/a, 62/1, 8/b: the group code 8 keeps "b". -/
theorem last_write_wins_witness :
    Read "0\nSECTION\n2\nENTITIES\n0\nLINE\n8\na\n62\n1\n8\nb\n0\nENDSEC\n0\nEOF\n".toList =
      .ok { emptyDrawing with
        Entities := some [⟨"LINE".toList, [(8, "b".toList), (62, "1".toList)]⟩] } ∧
    (∀ c, mapGet (mapSetAll [] [((8 : GroupCode), "a".toList), (62, "1".toList),
        (8, "b".toList)]) c =
      lastValue [(8, "a".toList), (62, "1".toList), (8, "b".toList)] c) :=
  ⟨by decide,
    (last_write_wins "0\nLINE\n".toList "8\na\n62\n1\n8\nb\n".toList "LINE".toList
      [(8, "a".toList), (62, "1".toList), (8, "b".toList)]
      (IsPair_of_lines "0".toList "LINE".toList 0 (by decide) (by decide) (by decide))
      (IsPairs.cons
        (IsPair_of_lines "8".toList "a".toList 8 (by decide) (by decide) (by decide))
        (IsPairs.cons
          (IsPair_of_lines "62".toList "1".toList 62 (by decide) (by decide) (by decide))
          (IsPairs.single
            (IsPair_of_lines "8".toList "b".toList 8 (by decide) (by decide) (by decide)))))
      (by decide)).2.2.1⟩

/-! ### What trimming removes -/

theorem rdropWhile_append_rtakeWhile_self {α : Type} (p : α → Bool) (u : List α) :
    u.rdropWhile p ++ u.rtakeWhile p = u := by
  unfold List.rdropWhile List.rtakeWhile
  rw [← List.reverse_append, List.takeWhile_append_dropWhile, List.reverse_reverse]

/-- Trimming removes white space at both ends and nothing else. -/
theorem TrimSpace_decompose (s : List Char) :
    ∃ a b, s = a ++ TrimSpace s ++ b ∧ (∀ x ∈ a, isSpace x = true) ∧
      (∀ x ∈ b, isSpace x = true) := by
  refine ⟨s.takeWhile isSpace, (s.dropWhile isSpace).rtakeWhile isSpace, ?_,
    fun x hx => List.mem_takeWhile_imp hx, fun x hx => List.mem_rtakeWhile_imp hx⟩
  rw [TrimSpace_eq, List.append_assoc, rdropWhile_append_rtakeWhile_self,
    List.takeWhile_append_dropWhile]

/-- A trimmed text neither starts nor ends with white space. -/
theorem TrimSpace_ends (s : List Char) :
    (∀ x, (TrimSpace s).head? = some x → isSpace x = false) ∧
    (∀ x, (TrimSpace s).getLast? = some x → isSpace x = false) := by
  have h1 : (TrimSpace s).dropWhile isSpace = TrimSpace s := by
    rw [TrimSpace_eq]
    exact dropWhile_rdropWhile_self isSpace _ (List.dropWhile_idempotent isSpace s)
  have h2 : (TrimSpace s).rdropWhile isSpace = TrimSpace s := by
    rw [TrimSpace_eq, List.rdropWhile_idempotent]
  constructor
  · intro x hx
    cases ht : TrimSpace s with
    | nil => rw [ht] at hx; cases hx
    | cons a t =>
      rw [ht] at hx h1
      simp only [List.head?_cons, Option.some.injEq] at hx
      subst hx
      cases hs : isSpace a with
      | false => rfl
      | true =>
        exfalso
        have hlen := congrArg List.length h1
        have hle := (List.dropWhile_sublist isSpace (l := t)).length_le
        simp only [List.dropWhile_cons, hs, if_true, List.length_cons] at hlen
        omega
  · intro x hx
    rw [List.rdropWhile_eq_self_iff] at h2
    by_cases hne : TrimSpace s = []
    · rw [hne] at hx; cases hx
    · have := h2 hne
      rw [List.getLast?_eq_getLast _ hne] at hx
      simp only [Option.some.injEq] at hx
      rw [hx] at this
      simpa using this

theorem readCodes_code_only (cl : List Char) (hcl : '\n' ∉ cl) :
    (cl ≠ [] → readCodes cl = .error .ErrInvalidFormat) ∧
    readCodes (cl ++ ['\n']) = .error .ErrInvalidFormat := by
  constructor
  · intro hne
    unfold readCodes
    simp [readString_no_newline cl hcl, hne]
  · unfold readCodes
    simp [readString_line cl [] hcl, readString]

theorem readCodes_last_line (cl vl : List Char) (c : GroupCode) (hcl : '\n' ∉ cl)
    (hvl : '\n' ∉ vl) (hne : vl ≠ []) (hp : ParseInt (TrimSpace cl) = some c) :
    readCodes (cl ++ '\n' :: vl) = .ok (c, TrimSpace vl, []) := by
  unfold readCodes
  simp only [readString_line cl _ hcl, readString_no_newline vl hvl,
    TrimSpace_concat_space _ _ isSpace_newline, hp]
  simp [hne]

/-- C13: on the empty input the lexer returns `io.EOF`, which is not `ErrInvalidFormat`; on
an input that ends right after a code line, with or without its line feed, it returns
`ErrInvalidFormat`; and on a code line that is an integer followed by a value line (the last
line may lack its line feed) it returns the group code and the value line without the white
space at its two ends, the rest of the line unchanged. -/
theorem readCodes_end_of_input :
    readCodes [] = .error .ioEOF ∧ Err.ioEOF ≠ Err.ErrInvalidFormat ∧
    (∀ cl, '\n' ∉ cl →
      (cl ≠ [] → readCodes cl = .error .ErrInvalidFormat) ∧
      readCodes (cl ++ ['\n']) = .error .ErrInvalidFormat) ∧
    (∀ cl vl c, '\n' ∉ cl → '\n' ∉ vl → ParseInt (TrimSpace cl) = some c →
      (∀ rest, readCodes (cl ++ '\n' :: (vl ++ '\n' :: rest)) = .ok (c, TrimSpace vl, rest)) ∧
      (vl ≠ [] → readCodes (cl ++ '\n' :: vl) = .ok (c, TrimSpace vl, []))) ∧
    (∀ vl, (∃ a b, vl = a ++ TrimSpace vl ++ b ∧ (∀ x ∈ a, isSpace x = true) ∧
        (∀ x ∈ b, isSpace x = true)) ∧
      (∀ x, (TrimSpace vl).head? = some x → isSpace x = false) ∧
      (∀ x, (TrimSpace vl).getLast? = some x → isSpace x = false)) := by
  refine ⟨by decide, by decide, fun cl hcl => readCodes_code_only cl hcl, ?_, ?_⟩
  · intro cl vl c hcl hvl hp
    exact ⟨fun rest => readCodes_lines cl vl rest c hcl hvl hp,
      fun hne => readCodes_last_line cl vl c hcl hvl hne hp⟩
  · intro vl
    exact ⟨TrimSpace_decompose vl, (TrimSpace_ends vl).1, (TrimSpace_ends vl).2⟩

/-! ### Code lines that are not integers -/

theorem parseDigits_digits : ∀ (s : List Char) (a n : Nat), parseDigits s a = some n →
    ∀ x ∈ s, (digitVal x).isSome = true := by
  intro s
  induction s with
  | nil => intro a n _ x hx; cases hx
  | cons c cs ih =>
    intro a n h x hx
    simp only [parseDigits] at h
    cases hd : digitVal c with
    | none => rw [hd] at h; cases h
    | some d =>
      rw [hd] at h
      rcases List.mem_cons.mp hx with h1 | h1
      · rw [h1, hd]; rfl
      · exact ih _ _ h x h1

theorem ParseUint_digits (s : List Char) (n : Nat) (h : ParseUint s = some n) :
    s ≠ [] ∧ ∀ x ∈ s, (digitVal x).isSome = true := by
  unfold ParseUint at h
  split at h
  · cases h
  · rename_i hne
    exact ⟨hne, parseDigits_digits s 0 n h⟩

/-- What `ParseInt` accepts is a base-10 signed integer. -/
theorem ParseInt_signed_decimal (s : List Char) (c : Int) (h : ParseInt s = some c) :
    IsSignedDecimal s := by
  cases s with
  | nil => simp [ParseInt] at h
  | cons a t =>
    rw [ParseInt_cons] at h
    split at h
    · cases h
    · rename_i un hu
      by_cases hs : a = '+' ∨ a = '-'
      · rw [if_pos hs] at hu
        obtain ⟨h1, h2⟩ := ParseUint_digits _ _ hu
        refine ⟨[a], t, rfl, ?_, h1, h2⟩
        rcases hs with e | e
        · right; left; rw [e]
        · right; right; rw [e]
      · rw [if_neg hs] at hu
        obtain ⟨h1, h2⟩ := ParseUint_digits _ _ hu
        exact ⟨[], a :: t, rfl, Or.inl rfl, h1, h2⟩

theorem ParseInt_none_of_not_decimal (s : List Char) (h : ¬ IsSignedDecimal s) :
    ParseInt s = none := by
  cases hp : ParseInt s with
  | none => rfl
  | some c => exact absurd (ParseInt_signed_decimal s c hp) h

theorem readCodes_bad_code (cl vl : List Char) (hcl : '\n' ∉ cl) (hvl : '\n' ∉ vl)
    (hp : ParseInt (TrimSpace cl) = none) :
    (∀ rest, readCodes (cl ++ '\n' :: (vl ++ '\n' :: rest)) = .error .ErrInvalidGroupCode) ∧
    (vl ≠ [] → readCodes (cl ++ '\n' :: vl) = .error .ErrInvalidGroupCode) := by
  constructor
  · intro rest
    unfold readCodes
    simp only [readString_line cl _ hcl, readString_line vl _ hvl,
      TrimSpace_concat_space _ _ isSpace_newline, hp]
    simp
  · intro hne
    unfold readCodes
    simp only [readString_line cl _ hcl, readString_no_newline vl hvl,
      TrimSpace_concat_space _ _ isSpace_newline, hp]
    simp [hne]

theorem not_decimal_of_last (s : List Char) (x : Char) (hx : s.getLast? = some x)
    (hd : (digitVal x).isSome = false) : ¬ IsSignedDecimal s := by
  rintro ⟨sign, digits, h1, -, h3, h4⟩
  rw [h1, List.getLast?_append_of_ne_nil _ h3, List.getLast?_eq_getLast _ h3] at hx
  simp only [Option.some.injEq] at hx
  have := h4 x (hx ▸ List.getLast_mem h3)
  rw [hd] at this
  cases this

theorem eofToFormat_groupCode : eofToFormat .ErrInvalidGroupCode = .ErrInvalidGroupCode := rfl

/-- C12: a code line that, trimmed, is not a base-10 signed integer, followed by a value
line, makes the lexer return `ErrInvalidGroupCode`, which is not `ErrInvalidFormat`; and
in whichever state the reader calls the lexer on such a pair (section boundary, section
name, header, classes, class record, blocks, block body, entities, skip mode) it returns
that error, which every caller of a sub-reader returns unchanged. -/
theorem invalid_group_code (cl vl : List Char) (hcl : '\n' ∉ cl) (hvl : '\n' ∉ vl)
    (hnot : ¬ IsSignedDecimal (TrimSpace cl)) (r : List Char)
    (hr : (∃ rest, r = cl ++ '\n' :: (vl ++ '\n' :: rest)) ∨ (vl ≠ [] ∧ r = cl ++ '\n' :: vl)) :
    readCodes r = .error .ErrInvalidGroupCode ∧
    Err.ErrInvalidGroupCode ≠ Err.ErrInvalidFormat ∧
    (∀ d, ReadFrom d r = .error .ErrInvalidGroupCode) ∧
    (∀ d r0, readCodes r0 = .ok (0, "SECTION".toList, r) →
      ReadFrom d r0 = .error .ErrInvalidGroupCode) ∧
    (∀ hd key, readHeaderFrom hd key r = .error .ErrInvalidGroupCode) ∧
    (∀ cs, readClassesFrom cs r = .error .ErrInvalidGroupCode) ∧
    (∀ n cls, readClassLoop (n + 1) cls r = .error .ErrInvalidGroupCode) ∧
    (∀ bs, readBlocksFrom bs r = .error .ErrInvalidGroupCode) ∧
    (∀ b cur, readBlockFrom b cur r = .error .ErrInvalidGroupCode) ∧
    (∀ es cur, readEntitiesFrom es cur r = .error .ErrInvalidGroupCode) ∧
    skipSection r = .error .ErrInvalidGroupCode ∧
    (∀ cs r0 e, readCodes r0 = .ok (0, "CLASS".toList, r) → readClass r = .error e →
      readClassesFrom cs r0 = .error e) ∧
    (∀ bs r0 e, readCodes r0 = .ok (0, "BLOCK".toList, r) → readBlock r = .error e →
      readBlocksFrom bs r0 = .error e) ∧
    (∀ d r0 r1 name e, readCodes r0 = .ok (0, "SECTION".toList, r1) →
      readCodes r1 = .ok (2, name, r) →
      (name = "HEADER".toList → readHeader r = .error e → ReadFrom d r0 = .error e) ∧
      (name = "CLASSES".toList → readClasses r = .error e → ReadFrom d r0 = .error e) ∧
      (name = "BLOCKS".toList → readBlocks r = .error e → ReadFrom d r0 = .error e) ∧
      (name = "ENTITIES".toList → readEntities r = .error e → ReadFrom d r0 = .error e) ∧
      (name ≠ "HEADER".toList ∧ name ≠ "CLASSES".toList ∧ name ≠ "BLOCKS".toList ∧
        name ≠ "ENTITIES".toList → skipSection r = .error e → ReadFrom d r0 = .error e)) := by
  have hp := ParseInt_none_of_not_decimal _ hnot
  have hbad : readCodes r = .error .ErrInvalidGroupCode := by
    rcases hr with ⟨rest, e⟩ | ⟨hne, e⟩
    · rw [e]; exact (readCodes_bad_code cl vl hcl hvl hp).1 rest
    · rw [e]; exact (readCodes_bad_code cl vl hcl hvl hp).2 hne
  refine ⟨hbad, by decide, ?_, ?_, ?_, ?_, ?_, ?_, ?_, ?_, ?_, ?_, ?_, ?_⟩
  · intro d
    rw [ReadFrom_step, hbad]; rfl
  · intro d r0 h0
    rw [ReadFrom_step, h0]
    simp +decide only [ne_eq, not_true_eq_false, ↓reduceIte]
    rw [hbad]
    all_goals rfl
  · intro hd key
    rw [readHeaderFrom_step, hbad]; rfl
  · intro cs
    rw [readClassesFrom_step, hbad]; rfl
  · intro n cls
    rw [readClassLoop, hbad]; rfl
  · intro bs
    rw [readBlocksFrom_step, hbad]; rfl
  · intro b cur
    rw [readBlockFrom_step, hbad]; rfl
  · intro es cur
    rw [readEntitiesFrom_step, hbad]; rfl
  · rw [skipSection_step, hbad]; rfl
  · intro cs r0 e h0 he
    rw [readClassesFrom_step, h0]
    simp +decide only [↓reduceIte]
    rw [he]
  · intro bs r0 e h0 he
    rw [readBlocksFrom_step, h0]
    simp +decide only [↓reduceIte]
    rw [he]
  · intro d r0 r1 name e h0 h1
    refine ⟨?_, ?_, ?_, ?_, ?_⟩
    · intro hn he
      rw [hn] at h1
      rw [ReadFrom_header h0 h1, he]
    · intro hn he
      rw [hn] at h1
      rw [ReadFrom_classes h0 h1, he]
    · intro hn he
      rw [hn] at h1
      rw [ReadFrom_blocks h0 h1, he]
    · intro hn he
      rw [hn] at h1
      rw [ReadFrom_entities h0 h1, he]
    · intro hn he
      rw [ReadFrom_other h0 h1 hn, he]

/-- C12 at the pair of lines `x`, `y`, met at a section boundary, and the same pair met by
`Read` as a section name, in a header, in a class list, in a class record, in a block list,
in a block body, in an entity list and in skip mode. -/
theorem invalid_group_code_witness :
    readCodes "x\ny\n".toList = .error .ErrInvalidGroupCode ∧
    (∀ d, ReadFrom d "x\ny\n".toList = .error .ErrInvalidGroupCode) ∧
    Read "0\nSECTION\nx\ny\n".toList = .error .ErrInvalidGroupCode ∧
    Read "0\nSECTION\n2\nHEADER\nx\ny\n".toList = .error .ErrInvalidGroupCode ∧
    Read "0\nSECTION\n2\nCLASSES\nx\ny\n".toList = .error .ErrInvalidGroupCode ∧
    Read "0\nSECTION\n2\nCLASSES\n0\nCLASS\n1\na\nx\ny\n".toList =
      .error .ErrInvalidGroupCode ∧
    Read "0\nSECTION\n2\nBLOCKS\nx\ny\n".toList = .error .ErrInvalidGroupCode ∧
    Read "0\nSECTION\n2\nBLOCKS\n0\nBLOCK\nx\ny\n".toList = .error .ErrInvalidGroupCode ∧
    Read "0\nSECTION\n2\nENTITIES\n0\nLINE\nx\ny\n".toList = .error .ErrInvalidGroupCode ∧
    Read "0\nSECTION\n2\nTABLES\nx\ny\n".toList = .error .ErrInvalidGroupCode :=
  (fun h => ⟨h.1, h.2.2.1, by decide, by decide, by decide, by decide, by decide, by decide,
      by decide, by decide⟩)
    (invalid_group_code "x".toList "y".toList (by decide) (by decide)
      (not_decimal_of_last _ 'x' (by decide) (by decide)) "x\ny\n".toList
      (Or.inl ⟨[], by decide⟩))

/-! ### Grouping pairs into entities -/

theorem leadingAttrs_cons_zero (v : List Char) (ps : List (GroupCode × List Char)) :
    leadingAttrs ((0, v) :: ps) = [] := by
  simp [leadingAttrs]

theorem leadingAttrs_cons_ne (c : GroupCode) (v : List Char)
    (ps : List (GroupCode × List Char)) (h : c ≠ 0) :
    leadingAttrs ((c, v) :: ps) = (c, v) :: leadingAttrs ps := by
  simp [leadingAttrs, h]

theorem entitiesOf_names (ps : List (GroupCode × List Char)) :
    (entitiesOf ps).map Entity.Name = (ps.filter (fun p => decide (p.1 = 0))).map Prod.snd := by
  induction ps with
  | nil => rfl
  | cons p t ih =>
    obtain ⟨c, v⟩ := p
    by_cases h : c = 0
    · simp [entitiesOf, h, ih]
    · simp [entitiesOf, h, ih]

/-- The loop of `readBlock` on the pairs of a block body, closed by 0/ENDBLK. -/
theorem readBlockFrom_pairs {body : List Char} {ps : List (GroupCode × List Char)}
    (hps : IsPairs body ps) (hno : (0, "ENDBLK".toList) ∉ ps) {bend : List Char}
    (hend : IsPair bend 0 "ENDBLK".toList) (rest : List Char) (b : Block)
    (cur : Option Entity) :
    readBlockFrom b cur (body ++ (bend ++ rest)) =
      .ok ({ Entities := b.Entities ++ closeEntity cur ps ++ entitiesOf ps,
             Attributes := match cur with
               | none => mapSetAll b.Attributes (leadingAttrs ps)
               | some _ => b.Attributes }, rest) := by
  induction hps generalizing b cur with
  | nil =>
    rw [List.nil_append, readBlockFrom_close hend]
    cases cur <;> simp [closeEntity, entitiesOf, appendEntity, leadingAttrs, mapSetAll]
  | @cons b1 bs c v ps hp _ ih =>
    have hno1 : (0, "ENDBLK".toList) ∉ ps := fun hm => hno (List.mem_cons_of_mem _ hm)
    rw [List.append_assoc]
    by_cases hc : c = 0
    · subst hc
      have hv : v ≠ "ENDBLK".toList := fun e => hno (by rw [e]; exact List.mem_cons_self _ _)
      rw [readBlockFrom_open hp hv, ih hno1]
      cases cur <;>
        simp [closeEntity, entitiesOf, appendEntity, leadingAttrs_cons_zero, mapSetAll]
    · rw [readBlockFrom_step, hp]
      simp only [hc, if_false]
      cases cur with
      | none =>
        simp only
        rw [ih hno1]
        simp [closeEntity, entitiesOf, hc, leadingAttrs_cons_ne _ _ _ hc, mapSetAll_cons]
      | some e =>
        simp only
        rw [ih hno1]
        simp [closeEntity, entitiesOf, hc, leadingAttrs_cons_ne _ _ _ hc, mapSetAll_cons]

/-- The loop of `readBlock` on pairs none of which is 0/ENDBLK, followed by the end of the
input. -/
theorem readBlockFrom_exhausted {body : List Char} {ps : List (GroupCode × List Char)}
    (hps : IsPairs body ps) (hno : (0, "ENDBLK".toList) ∉ ps) (tail : List Char)
    (ht : readCodes tail = .error .ioEOF ∨ readCodes tail = .error .ErrInvalidFormat)
    (b : Block) (cur : Option Entity) :
    readBlockFrom b cur (body ++ tail) = .error .ErrInvalidFormat := by
  induction hps generalizing b cur with
  | nil =>
    rw [List.nil_append, readBlockFrom_step]
    rcases ht with h | h <;> rw [h] <;> rfl
  | @cons b1 bs c v ps hp _ ih =>
    have hno1 : (0, "ENDBLK".toList) ∉ ps := fun hm => hno (List.mem_cons_of_mem _ hm)
    rw [List.append_assoc]
    by_cases hc : c = 0
    · subst hc
      have hv : v ≠ "ENDBLK".toList := fun e => hno (by rw [e]; exact List.mem_cons_self _ _)
      rw [readBlockFrom_open hp hv, ih hno1]
    · rw [readBlockFrom_step, hp]
      simp only [hc, if_false]
      cases cur with
      | none => simp only; rw [ih hno1]
      | some e => simp only; rw [ih hno1]

/-- The loop of `readEntities` on the pairs of a section, closed by 0/ENDSEC. -/
theorem readEntitiesFrom_pairs {body : List Char} {ps : List (GroupCode × List Char)}
    (hps : IsPairs body ps) (hno : (0, "ENDSEC".toList) ∉ ps) {bend : List Char}
    (hend : IsPair bend 0 "ENDSEC".toList) (rest : List Char) (es : List Entity)
    (cur : Option Entity) :
    readEntitiesFrom es cur (body ++ (bend ++ rest)) =
      if cur = none ∧ hasPreamble ps = true then .error .ErrInvalidFormat
      else .ok (es ++ closeEntity cur ps ++ entitiesOf ps, rest) := by
  induction hps generalizing es cur with
  | nil =>
    rw [List.nil_append, readEntitiesFrom_close hend]
    cases cur <;> simp [closeEntity, entitiesOf, appendEntity, leadingAttrs, mapSetAll,
      hasPreamble]
  | @cons b1 bs c v ps hp _ ih =>
    have hno1 : (0, "ENDSEC".toList) ∉ ps := fun hm => hno (List.mem_cons_of_mem _ hm)
    rw [List.append_assoc]
    by_cases hc : c = 0
    · subst hc
      have hv : v ≠ "ENDSEC".toList := fun e => hno (by rw [e]; exact List.mem_cons_self _ _)
      rw [readEntitiesFrom_open hp hv, ih hno1]
      cases cur <;>
        simp [closeEntity, entitiesOf, appendEntity, leadingAttrs_cons_zero, mapSetAll,
          hasPreamble]
    · rw [readEntitiesFrom_step, hp]
      simp only [hc, if_false]
      cases cur with
      | none => simp [hasPreamble, hc]
      | some e =>
        simp only
        rw [ih hno1]
        simp [closeEntity, entitiesOf, hc, leadingAttrs_cons_ne _ _ _ hc, mapSetAll_cons]

theorem hasPreamble_iff (ps : List (GroupCode × List Char)) :
    hasPreamble ps = true ↔
      ∃ pre c v post, ps = pre ++ (c, v) :: post ∧ c ≠ 0 ∧ ∀ p ∈ pre, p.1 ≠ 0 := by
  constructor
  · intro h
    cases ps with
    | nil => simp [hasPreamble] at h
    | cons p t =>
      obtain ⟨c, v⟩ := p
      refine ⟨[], c, v, t, rfl, ?_, by simp⟩
      simpa [hasPreamble] using h
  · rintro ⟨pre, c, v, post, h1, h2, h3⟩
    cases pre with
    | nil =>
      rw [h1]
      simpa [hasPreamble] using h2
    | cons q pre1 =>
      rw [h1]
      obtain ⟨c1, v1⟩ := q
      have := h3 (c1, v1) (List.mem_cons_self _ _)
      simpa [hasPreamble] using this

/-- C15: the pairs `ps` that follow a pair 0/BLOCK up to the first pair 0/ENDBLK give the
block whose own attributes are the pairs before the first pair with group code 0 and whose
entities are, in order, one entity per pair with group code 0, named by its value, with the
attributes of the pairs between it and the next pair with group code 0; when the input ends
before a pair 0/ENDBLK the result is `ErrInvalidFormat`. -/
theorem readBlock_routing (body bend : List Char) (ps : List (GroupCode × List Char))
    (hps : IsPairs body ps) (hno : (0, "ENDBLK".toList) ∉ ps)
    (hend : IsPair bend 0 "ENDBLK".toList) :
    (∀ rest, readBlock (body ++ bend ++ rest) =
      .ok ({ Entities := entitiesOf ps, Attributes := mapSetAll [] (leadingAttrs ps) },
        rest)) ∧
    (∀ bblock bs rest, IsPair bblock 0 "BLOCK".toList →
      readBlocksFrom bs (bblock ++ body ++ bend ++ rest) =
        readBlocksFrom
          (bs ++ [{ Entities := entitiesOf ps, Attributes := mapSetAll [] (leadingAttrs ps) }])
          rest) ∧
    (∀ tail, readCodes tail = .error .ioEOF ∨ readCodes tail = .error .ErrInvalidFormat →
      readBlock (body ++ tail) = .error .ErrInvalidFormat) ∧
    (entitiesOf ps).map Entity.Name =
      (ps.filter (fun p => decide (p.1 = 0))).map Prod.snd := by
  have h1 : ∀ rest, readBlock (body ++ bend ++ rest) =
      .ok ({ Entities := entitiesOf ps, Attributes := mapSetAll [] (leadingAttrs ps) },
        rest) := by
    intro rest
    have := readBlockFrom_pairs hps hno hend rest { Entities := [], Attributes := [] } none
    rw [List.append_assoc]
    simpa [readBlock, closeEntity] using this
  refine ⟨h1, ?_, ?_, entitiesOf_names ps⟩
  · intro bblock bs rest hb
    have e : bblock ++ body ++ bend ++ rest = bblock ++ (body ++ bend ++ rest) := by simp
    rw [e, readBlocksFrom_step, hb]
    simp +decide only [↓reduceIte]
    rw [h1]
  · intro tail ht
    exact readBlockFrom_exhausted hps hno tail ht _ _

/-- C15 at the block body 8/0, 2/B, 0/LINE, 8/1, 0/ARC. -/
theorem readBlock_routing_witness :
    readBlock ("8\n0\n2\nB\n0\nLINE\n8\n1\n0\nARC\n".toList ++ "0\nENDBLK\n".toList ++
        "0\nENDSEC\n".toList) =
      .ok ({ Entities := [⟨"LINE".toList, [(8, "1".toList)]⟩, ⟨"ARC".toList, []⟩],
             Attributes := [(8, "0".toList), (2, "B".toList)] }, "0\nENDSEC\n".toList) ∧
    readBlock "8\n0\n2\nB\n0\nLINE\n8\n1\n0\nARC\n".toList = .error .ErrInvalidFormat :=
  (fun h => ⟨h.1 "0\nENDSEC\n".toList, by simpa using h.2.2.1 [] (Or.inl (by decide))⟩)
    (readBlock_routing "8\n0\n2\nB\n0\nLINE\n8\n1\n0\nARC\n".toList "0\nENDBLK\n".toList
      [(8, "0".toList), (2, "B".toList), (0, "LINE".toList), (8, "1".toList),
        (0, "ARC".toList)]
      (IsPairs.cons
        (IsPair_of_lines "8".toList "0".toList 8 (by decide) (by decide) (by decide))
        (IsPairs.cons
          (IsPair_of_lines "2".toList "B".toList 2 (by decide) (by decide) (by decide))
          (IsPairs.cons
            (IsPair_of_lines "0".toList "LINE".toList 0 (by decide) (by decide) (by decide))
            (IsPairs.cons
              (IsPair_of_lines "8".toList "1".toList 8 (by decide) (by decide) (by decide))
              (IsPairs.single
                (IsPair_of_lines "0".toList "ARC".toList 0 (by decide) (by decide)
                  (by decide)))))))
      (by decide)
      (IsPair_of_lines "0".toList "ENDBLK".toList 0 (by decide) (by decide) (by decide)))

/-- C16: an ENTITIES section whose pairs before 0/ENDSEC are `ps` (well-formed pairs, so
without exhaustion or invalid group code) is `ErrInvalidFormat` if and only if a pair with a
non-zero group code comes before the first pair with group code 0; otherwise the section
gives, in order, one entity per pair with group code 0, and the pair 0/ENDSEC closes the
entity in progress and ends the section. -/
theorem readEntities_no_preamble (body bend : List Char)
    (ps : List (GroupCode × List Char)) (hps : IsPairs body ps)
    (hno : (0, "ENDSEC".toList) ∉ ps) (hend : IsPair bend 0 "ENDSEC".toList) :
    (∀ rest, readEntities (body ++ bend ++ rest) =
      if hasPreamble ps = true then .error .ErrInvalidFormat
      else .ok (entitiesOf ps, rest)) ∧
    (hasPreamble ps = true ↔
      ∃ pre c v post, ps = pre ++ (c, v) :: post ∧ c ≠ 0 ∧ ∀ p ∈ pre, p.1 ≠ 0) ∧
    (entitiesOf ps).map Entity.Name =
      (ps.filter (fun p => decide (p.1 = 0))).map Prod.snd ∧
    (∀ d r0 r1 rest, readCodes r0 = .ok (0, "SECTION".toList, r1) →
      readCodes r1 = .ok (2, "ENTITIES".toList, body ++ bend ++ rest) →
      ReadFrom d r0 =
        if hasPreamble ps = true then .error .ErrInvalidFormat
        else ReadFrom { d with Entities := some (entitiesOf ps) } rest) := by
  have h1 : ∀ rest, readEntities (body ++ bend ++ rest) =
      if hasPreamble ps = true then .error .ErrInvalidFormat
      else .ok (entitiesOf ps, rest) := by
    intro rest
    have := readEntitiesFrom_pairs hps hno hend rest [] none
    rw [List.append_assoc]
    simpa [readEntities, closeEntity] using this
  refine ⟨h1, hasPreamble_iff ps, entitiesOf_names ps, ?_⟩
  intro d r0 r1 rest h0 h2
  rw [ReadFrom_entities h0 h2, h1]
  by_cases hp : hasPreamble ps = true
  · rw [if_pos hp, if_pos hp]
  · rw [if_neg hp, if_neg hp]

/-- C16 at the section 0/LINE, 8/1, 0/ARC, which has no preamble. -/
theorem readEntities_no_preamble_witness :
    readEntities ("0\nLINE\n8\n1\n0\nARC\n".toList ++ "0\nENDSEC\n".toList ++ "0\nEOF\n".toList) =
      .ok ([⟨"LINE".toList, [(8, "1".toList)]⟩, ⟨"ARC".toList, []⟩], "0\nEOF\n".toList) ∧
    Read "0\nSECTION\n2\nENTITIES\n8\n1\n0\nLINE\n0\nENDSEC\n0\nEOF\n".toList =
      .error .ErrInvalidFormat :=
  (fun h => ⟨by simpa [hasPreamble] using h.1 "0\nEOF\n".toList, by decide⟩)
    (readEntities_no_preamble "0\nLINE\n8\n1\n0\nARC\n".toList "0\nENDSEC\n".toList
      [(0, "LINE".toList), (8, "1".toList), (0, "ARC".toList)]
      (IsPairs.cons
        (IsPair_of_lines "0".toList "LINE".toList 0 (by decide) (by decide) (by decide))
        (IsPairs.cons
          (IsPair_of_lines "8".toList "1".toList 8 (by decide) (by decide) (by decide))
          (IsPairs.single
            (IsPair_of_lines "0".toList "ARC".toList 0 (by decide) (by decide)
              (by decide)))))
      (by decide)
      (IsPair_of_lines "0".toList "ENDSEC".toList 0 (by decide) (by decide) (by decide)))

/-! ### Reading back the blocks and entities written -/

/-- The block loop decodes the text of one entity written by the writer. -/
theorem readBlockFrom_writeEntity (e : Entity) (h : GoodEntity "ENDBLK".toList e)
    (b : Block) (cur : Option Entity) (rest : List Char) :
    readBlockFrom b cur (writeEntity [] e ++ rest) =
      readBlockFrom { b with Entities := appendEntity b.Entities cur } (some e) rest := by
  obtain ⟨h1, h2, h3, h4, h5⟩ := h
  rw [writeEntity_text, List.append_assoc,
    readBlockFrom_open (IsPair_sprintfName e.Name h1 h2) h3,
    readBlockFrom_attrs (IsPairs_attrs e.Attributes h4) (fun p hp => (h4 p hp).1)]
  simp only [mapSetAll_empty _ h5]

theorem readBlockFrom_written (es : List Entity)
    (h : ∀ e ∈ es, GoodEntity "ENDBLK".toList e) (b : Block) (cur : Option Entity)
    (rest : List Char) :
    readBlockFrom b cur (es.flatMap (writeEntity []) ++ (" 0\nENDBLK\n".toList ++ rest)) =
      .ok ({ b with Entities := appendEntity b.Entities cur ++ es }, rest) := by
  induction es generalizing b cur with
  | nil =>
    have hp : IsPair " 0\nENDBLK\n".toList 0 "ENDBLK".toList :=
      IsPair_sprintfName "ENDBLK".toList (by decide) (by decide)
    simpa using readBlockFrom_close hp b cur rest
  | cons e t ih =>
    rw [List.flatMap_cons, List.append_assoc,
      readBlockFrom_writeEntity e (h e (List.mem_cons_self _ _)),
      ih (fun x hx => h x (List.mem_cons_of_mem _ hx))]
    simp [appendEntity]

/-- The reader decodes the text of one block written by the writer. -/
theorem readBlock_writeBlock (b : Block) (h : GoodBlock b) (rest : List Char) :
    readBlock (b.Attributes.flatMap (fun p => sprintfAttr p.1 p.2) ++
        (b.Entities.flatMap (writeEntity []) ++ (" 0\nENDBLK\n".toList ++ rest))) =
      .ok (b, rest) := by
  obtain ⟨h1, h2, h3⟩ := h
  unfold readBlock
  rw [readBlockFrom_own (IsPairs_attrs b.Attributes h2) (fun p hp => (h2 p hp).1),
    readBlockFrom_written b.Entities h1]
  simp [appendEntity, mapSetAll_empty _ h3]

theorem readBlocksFrom_written (bs : List Block) (h : ∀ b ∈ bs, GoodBlock b)
    (acc : List Block) (rest : List Char) :
    readBlocksFrom acc (bs.flatMap (writeBlock []) ++ (" 0\nENDSEC\n".toList ++ rest)) =
      .ok (acc ++ bs, rest) := by
  induction bs generalizing acc with
  | nil =>
    have hp : IsPair " 0\nENDSEC\n".toList 0 "ENDSEC".toList :=
      IsPair_sprintfName "ENDSEC".toList (by decide) (by decide)
    rw [List.flatMap_nil, List.nil_append, readBlocksFrom_step, hp]
    simp
  | cons b t ih =>
    have hp : IsPair " 0\nBLOCK\n".toList 0 "BLOCK".toList :=
      IsPair_sprintfName "BLOCK".toList (by decide) (by decide)
    have e1 : (b :: t).flatMap (writeBlock []) ++ (" 0\nENDSEC\n".toList ++ rest) =
        " 0\nBLOCK\n".toList ++ (b.Attributes.flatMap (fun p => sprintfAttr p.1 p.2) ++
          (b.Entities.flatMap (writeEntity []) ++ (" 0\nENDBLK\n".toList ++
            (t.flatMap (writeBlock []) ++ (" 0\nENDSEC\n".toList ++ rest))))) := by
      rw [List.flatMap_cons, writeBlock_text]
      simp only [List.append_assoc]
    rw [e1, readBlocksFrom_step, hp]
    simp +decide only [↓reduceIte]
    rw [readBlock_writeBlock b (h b (List.mem_cons_self _ _))]
    simp only
    rw [ih (fun x hx => h x (List.mem_cons_of_mem _ hx))]
    simp

/-- The section loop decodes a BLOCKS section written by the writer and goes on. -/
theorem ReadFrom_written_blocks (bs : List Block) (h : ∀ b ∈ bs, GoodBlock b)
    (d : Drawing) (rest : List Char) :
    ReadFrom d (writeBlocks [] bs ++ rest) = ReadFrom { d with Blocks := some bs } rest := by
  have p1 : IsPair " 0\nSECTION\n".toList 0 "SECTION".toList :=
    IsPair_sprintfName "SECTION".toList (by decide) (by decide)
  have p2 : IsPair " 2\nBLOCKS\n".toList 2 "BLOCKS".toList :=
    IsPair_sprintfAttr 2 "BLOCKS".toList (by unfold IsInt64; omega) (by decide) (by decide)
  have e1 : writeBlocks [] bs ++ rest =
      " 0\nSECTION\n".toList ++ (" 2\nBLOCKS\n".toList ++
        (bs.flatMap (writeBlock []) ++ (" 0\nENDSEC\n".toList ++ rest))) := by
    rw [writeBlocks_text]
    simp
  have e2 : readBlocks (bs.flatMap (writeBlock []) ++ (" 0\nENDSEC\n".toList ++ rest)) =
      .ok (bs, rest) := by
    simpa [readBlocks] using readBlocksFrom_written bs h [] rest
  rw [e1, ReadFrom_blocks (p1 _) (p2 _), e2]

/-- The section loop decodes an ENTITIES section written by the writer and goes on. -/
theorem ReadFrom_written_entities (es : List Entity)
    (h : ∀ e ∈ es, GoodEntity "ENDSEC".toList e) (d : Drawing) (rest : List Char) :
    ReadFrom d (writeEntities [] es ++ rest) =
      ReadFrom { d with Entities := some es } rest := by
  have p1 : IsPair " 0\nSECTION\n".toList 0 "SECTION".toList :=
    IsPair_sprintfName "SECTION".toList (by decide) (by decide)
  have p2 : IsPair " 2\nENTITIES\n".toList 2 "ENTITIES".toList :=
    IsPair_sprintfAttr 2 "ENTITIES".toList (by unfold IsInt64; omega) (by decide) (by decide)
  have e1 : writeEntities [] es ++ rest =
      " 0\nSECTION\n".toList ++ (" 2\nENTITIES\n".toList ++
        (es.flatMap (writeEntity []) ++ (" 0\nENDSEC\n".toList ++ rest))) := by
    rw [writeEntities_text]
    simp
  have e2 : readEntities (es.flatMap (writeEntity []) ++ (" 0\nENDSEC\n".toList ++ rest)) =
      .ok (es, rest) := by
    have := readEntitiesFrom_written es h [] none rest
    simpa [appendEntity, readEntities] using this
  rw [e1, ReadFrom_entities (p1 _) (p2 _), e2]

/-- Reading back a drawing without header and classes whose blocks and entities are such
as the writer needs them gives the drawing. -/
theorem Read_Write_blocks_entities (d : Drawing) (hH : d.Header = none)
    (hC : d.Classes = none) (hB : ∀ bs, d.Blocks = some bs → ∀ b ∈ bs, GoodBlock b)
    (hE : ∀ es, d.Entities = some es → ∀ e ∈ es, GoodEntity "ENDSEC".toList e) :
    Read (Write d) = .ok d := by
  obtain ⟨hd, cs, bs, es⟩ := d
  simp only at hH hC hB hE
  subst hH hC
  have e3 : readCodes " 0\nEOF".toList = .ok (0, "EOF".toList, []) := by decide
  rw [Write_text]
  unfold Read
  cases bs with
  | none =>
    cases es with
    | none => exact ReadFrom_eof e3 _
    | some es =>
      simp only [sectionText, List.nil_append]
      rw [ReadFrom_written_entities es (hE es rfl)]
      exact ReadFrom_eof e3 _
  | some bs =>
    cases es with
    | none =>
      simp only [sectionText, List.nil_append, List.append_nil]
      rw [ReadFrom_written_blocks bs (hB bs rfl)]
      exact ReadFrom_eof e3 _
    | some es =>
      simp only [sectionText, List.nil_append, List.append_assoc]
      rw [ReadFrom_written_blocks bs (hB bs rfl), ReadFrom_written_entities es (hE es rfl)]
      exact ReadFrom_eof e3 _

theorem GoodBlock_same {a b : Block} (hp : a.Attributes.Perm b.Attributes)
    (he : SameEntities a.Entities b.Entities) (h : GoodBlock b) : GoodBlock a := by
  obtain ⟨h1, h2, h3⟩ := h
  refine ⟨SameEntities_good he h1, fun p hm => h2 p (hp.subset hm), ?_⟩
  exact (hp.map Prod.fst).nodup_iff.mpr h3

theorem SameBlocks_good {bs1 bs2 : List Block} (h : SameBlocks bs1 bs2)
    (hg : ∀ b ∈ bs2, GoodBlock b) : ∀ b ∈ bs1, GoodBlock b := by
  induction h with
  | nil => simp
  | cons hab _ ih =>
    intro b hb
    rcases List.mem_cons.mp hb with h1 | h1
    · rw [h1]; exact GoodBlock_same hab.1 hab.2 (hg _ (List.mem_cons_self _ _))
    · exact ih (fun x hx => hg x (List.mem_cons_of_mem _ hx)) b h1

/-- C18: let `d` be a drawing without header and classes whose entity names and attribute
values are trimmed and free of line feeds, whose top-level entity names are not ENDSEC, whose
block entity names are not ENDBLK and whose attribute group codes are non-zero (`int64`
values, one entry per group code, as the Go types have it). Whatever the order `d1` in which
the writer enumerates the attribute mappings of `d`, reading back what it writes succeeds and
returns the blocks and the entities of `d`: a nil field stays nil, and a list comes back
with the same blocks, block attributes, entities and entity attributes, in order. -/
theorem roundtrip_blocks_entities (d d1 : Drawing) (hH : d.Header = none)
    (hC : d.Classes = none) (hB : ∀ bs, d.Blocks = some bs → ∀ b ∈ bs, GoodBlock b)
    (hE : ∀ es, d.Entities = some es → ∀ e ∈ es, GoodEntity "ENDSEC".toList e)
    (hH1 : d1.Header = none) (hC1 : d1.Classes = none)
    (hB1 : SameField SameBlocks d1.Blocks d.Blocks)
    (hE1 : SameField SameEntities d1.Entities d.Entities) :
    ∃ d2, Read (Write d1) = .ok d2 ∧ d2.Header = none ∧ d2.Classes = none ∧
      SameField SameBlocks d2.Blocks d.Blocks ∧
      SameField SameEntities d2.Entities d.Entities := by
  refine ⟨d1, Read_Write_blocks_entities d1 hH1 hC1 ?_ ?_, hH1, hC1, hB1, hE1⟩
  · intro bs1 hbs1 b hb
    rw [hbs1] at hB1
    cases hdb : d.Blocks with
    | none => rw [hdb] at hB1; exact absurd hB1 (by simp [SameField])
    | some bs =>
      rw [hdb] at hB1
      exact SameBlocks_good hB1 (hB bs hdb) b hb
  · intro es1 hes1 e he
    rw [hes1] at hE1
    cases hde : d.Entities with
    | none => rw [hde] at hE1; exact absurd hE1 (by simp [SameField])
    | some es =>
      rw [hde] at hE1
      exact SameEntities_good hE1 (hE es hde) e he

/-- C18 at a drawing with one block (attribute 2 = "B", entity LINE with two attributes) and
an empty entity list, the attributes of LINE written in the other order. -/
theorem roundtrip_blocks_entities_witness :
    ∃ d2, Read (Write { emptyDrawing with
        Blocks := some [{ Entities := [⟨"LINE".toList, [(10, "1.5".toList), (8, "0".toList)]⟩],
                          Attributes := [(2, "B".toList)] }],
        Entities := some [] }) = .ok d2 ∧ d2.Header = none ∧ d2.Classes = none ∧
      SameField SameBlocks d2.Blocks
        (some [{ Entities := [⟨"LINE".toList, [(8, "0".toList), (10, "1.5".toList)]⟩],
                 Attributes := [(2, "B".toList)] }]) ∧
      SameField SameEntities d2.Entities (some []) :=
  roundtrip_blocks_entities
    { emptyDrawing with
        Blocks := some [{ Entities := [⟨"LINE".toList, [(8, "0".toList), (10, "1.5".toList)]⟩],
                          Attributes := [(2, "B".toList)] }],
        Entities := some [] }
    { emptyDrawing with
        Blocks := some [{ Entities := [⟨"LINE".toList, [(10, "1.5".toList), (8, "0".toList)]⟩],
                          Attributes := [(2, "B".toList)] }],
        Entities := some [] }
    rfl rfl
    (by
      intro bs hbs b hb
      simp only [emptyDrawing, Option.some.injEq] at hbs
      subst hbs
      simp only [List.mem_singleton] at hb
      subst hb
      refine ⟨?_, ?_, by decide⟩
      · intro e he
        simp only [List.mem_singleton] at he
        subst he
        refine ⟨by decide, by decide, by decide, ?_, by decide⟩
        intro p hp
        simp only [List.mem_cons, List.mem_singleton, List.not_mem_nil, or_false] at hp
        rcases hp with h | h <;> subst h <;>
          exact ⟨by decide, by unfold IsInt64; constructor <;> decide, by decide, by decide⟩
      · intro p hp
        simp only [List.mem_singleton] at hp
        subst hp
        exact ⟨by decide, by unfold IsInt64; constructor <;> decide, by decide, by decide⟩)
    (by
      intro es hes e he
      simp only [emptyDrawing, Option.some.injEq] at hes
      subst hes
      cases he)
    rfl rfl
    (List.Forall₂.cons
      ⟨List.Perm.refl _,
        List.Forall₂.cons ⟨rfl, List.Perm.swap _ _ _⟩ List.Forall₂.nil⟩
      List.Forall₂.nil)
    List.Forall₂.nil

/-! ### What follows the text read does not matter -/

theorem readString_append (r t : List Char) (h : (readString r).2.1 = true) :
    readString (r ++ t) = ((readString r).1, true, (readString r).2.2 ++ t) := by
  induction r with
  | nil => simp [readString] at h
  | cons c cs ih =>
    by_cases hc : c = '\n'
    · simp [readString, hc]
    · simp only [readString, hc, if_false] at h
      show readString (c :: (cs ++ t)) = _
      simp only [readString, hc, if_false, ih h]

theorem readString_found_of_terminated (r : List Char) (hne : r ≠ [])
    (h : r.getLast? = some '\n') : (readString r).2.1 = true := by
  obtain ⟨l, hl, hs⟩ := readString_shape r
  rcases hs with ⟨h1, -, -⟩ | ⟨-, -, h3, -⟩
  · exact h1
  · exfalso
    rw [h3] at h hne
    rw [List.getLast?_eq_getLast _ hne] at h
    simp only [Option.some.injEq] at h
    exact hl (h ▸ List.getLast_mem hne)

theorem readString_rest_terminated (r : List Char) (h : Terminated r) :
    Terminated (readString r).2.2 := by
  rcases h with h | h
  · rw [h]; exact Or.inl rfl
  · obtain ⟨l, hl, hs⟩ := readString_shape r
    rcases hs with ⟨-, -, h3⟩ | ⟨-, -, -, h4⟩
    · by_cases hr : (readString r).2.2 = []
      · exact Or.inl hr
      · right
        rw [h3] at h
        rw [← h]
        rw [List.getLast?_append_of_ne_nil _ (by simp)]
        generalize (readString r).2.2 = q at hr
        cases q with
        | nil => exact absurd rfl hr
        | cons a q1 => rw [List.getLast?_cons_cons]
    · exact Or.inl h4

/-- A pair decoded from a text whose lines are terminated is decoded the same way when more
text follows. -/
theorem readCodes_append {r : List Char} (hT : Terminated r) {c : GroupCode}
    {v r1 : List Char} (h : readCodes r = .ok (c, v, r1)) (t : List Char) :
    readCodes (r ++ t) = .ok (c, v, r1 ++ t) ∧ Terminated r1 := by
  have hT1 := readString_rest_terminated r hT
  have hT2 := readString_rest_terminated _ hT1
  unfold readCodes at h
  simp only at h
  split at h
  · split at h <;> cases h
  · rename_i hf
    have hf1 : (readString r).2.1 = true := by simpa using hf
    split at h
    · cases h
    · rename_i hv
      have hne : (readString r).2.2 ≠ [] := by
        intro e; rw [e] at hv; simp [readString] at hv
      have hf2 : (readString (readString r).2.2).2.1 = true := by
        rcases hT1 with e | e
        · exact absurd e hne
        · exact readString_found_of_terminated _ hne e
      split at h
      · cases h
      · rename_i codeInt hpi
        simp only [Except.ok.injEq, Prod.mk.injEq] at h
        obtain ⟨h1, h2, h3⟩ := h
        refine ⟨?_, h3 ▸ hT2⟩
        unfold readCodes
        simp only [readString_append r t hf1, readString_append _ t hf2, hpi, h1, h2, h3]
        simp

theorem readClassLoop_append (t : List Char) : ∀ (n : Nat) (cls : Class) (r : List Char),
    Terminated r → ∀ res r1, readClassLoop n cls r = .ok (res, r1) →
    readClassLoop n cls (r ++ t) = .ok (res, r1 ++ t) ∧ Terminated r1 := by
  intro n
  induction n with
  | zero =>
    intro cls r hT res r1 h
    simp only [readClassLoop, Except.ok.injEq, Prod.mk.injEq] at h
    obtain ⟨h1, h2⟩ := h
    subst h1 h2
    exact ⟨rfl, hT⟩
  | succ n ih =>
    intro cls r hT res r1 h
    rw [readClassLoop] at h ⊢
    cases hc : readCodes r with
    | error e => rw [hc] at h; cases h
    | ok p =>
      obtain ⟨c, v, r2⟩ := p
      obtain ⟨hc1, hT1⟩ := readCodes_append hT hc t
      rw [hc] at h
      rw [hc1]
      exact ih _ r2 hT1 res r1 h

theorem skipSection_append (t : List Char) : ∀ (n : Nat) (r : List Char), r.length < n →
    Terminated r → ∀ r1, skipSection r = .ok r1 →
    skipSection (r ++ t) = .ok (r1 ++ t) ∧ Terminated r1 := by
  intro n
  induction n with
  | zero => intro r h; omega
  | succ n ih =>
    intro r hl hT r1 h
    rw [skipSection_step] at h ⊢
    cases hc : readCodes r with
    | error e => rw [hc] at h; cases h
    | ok p =>
      obtain ⟨c, v, r2⟩ := p
      obtain ⟨hc1, hT1⟩ := readCodes_append hT hc t
      have hl1 := readCodes_length hc
      rw [hc] at h
      rw [hc1]
      simp only at h ⊢
      by_cases h0 : c = 0 ∧ v = "ENDSEC".toList
      · rw [if_pos h0] at h ⊢
        cases h
        exact ⟨rfl, hT1⟩
      · rw [if_neg h0] at h ⊢
        exact ih r2 (by omega) hT1 r1 h

theorem readHeaderFrom_append (t : List Char) : ∀ (n : Nat) (hd : HeaderMap)
    (key r : List Char), r.length < n → Terminated r → ∀ res r1,
    readHeaderFrom hd key r = .ok (res, r1) →
    readHeaderFrom hd key (r ++ t) = .ok (res, r1 ++ t) ∧ Terminated r1 := by
  intro n
  induction n with
  | zero => intro hd key r h; omega
  | succ n ih =>
    intro hd key r hl hT res r1 h
    rw [readHeaderFrom_step] at h ⊢
    cases hc : readCodes r with
    | error e => rw [hc] at h; cases h
    | ok p =>
      obtain ⟨c, v, r2⟩ := p
      obtain ⟨hc1, hT1⟩ := readCodes_append hT hc t
      have hl1 := readCodes_length hc
      rw [hc] at h
      rw [hc1]
      simp only at h ⊢
      by_cases h0 : c = 0 ∧ v = "ENDSEC".toList
      · rw [if_pos h0] at h ⊢
        cases h
        exact ⟨rfl, hT1⟩
      · rw [if_neg h0] at h ⊢
        by_cases h9 : c = 9
        · rw [if_pos h9] at h ⊢
          exact ih _ _ r2 (by omega) hT1 res r1 h
        · rw [if_neg h9] at h ⊢
          by_cases hk : key = []
          · rw [if_pos hk] at h; cases h
          · rw [if_neg hk] at h ⊢
            cases hs : headerSet hd key c v with
            | error e => rw [hs] at h; cases h
            | ok hd1 =>
              rw [hs] at h
              exact ih _ _ r2 (by omega) hT1 res r1 h

theorem readEntitiesFrom_append (t : List Char) : ∀ (n : Nat) (es : List Entity)
    (cur : Option Entity) (r : List Char), r.length < n → Terminated r → ∀ res r1,
    readEntitiesFrom es cur r = .ok (res, r1) →
    readEntitiesFrom es cur (r ++ t) = .ok (res, r1 ++ t) ∧ Terminated r1 := by
  intro n
  induction n with
  | zero => intro es cur r h; omega
  | succ n ih =>
    intro es cur r hl hT res r1 h
    rw [readEntitiesFrom_step] at h ⊢
    cases hc : readCodes r with
    | error e => rw [hc] at h; cases h
    | ok p =>
      obtain ⟨c, v, r2⟩ := p
      obtain ⟨hc1, hT1⟩ := readCodes_append hT hc t
      have hl1 := readCodes_length hc
      rw [hc] at h
      rw [hc1]
      simp only at h ⊢
      by_cases h0 : c = 0
      · rw [if_pos h0] at h ⊢
        by_cases hv : v = "ENDSEC".toList
        · rw [if_pos hv] at h ⊢
          cases h
          exact ⟨rfl, hT1⟩
        · rw [if_neg hv] at h ⊢
          exact ih _ _ r2 (by omega) hT1 res r1 h
      · rw [if_neg h0] at h ⊢
        cases cur with
        | none => cases h
        | some e0 => exact ih _ _ r2 (by omega) hT1 res r1 h

theorem readBlockFrom_append (t : List Char) : ∀ (n : Nat) (b : Block)
    (cur : Option Entity) (r : List Char), r.length < n → Terminated r → ∀ res r1,
    readBlockFrom b cur r = .ok (res, r1) →
    readBlockFrom b cur (r ++ t) = .ok (res, r1 ++ t) ∧ Terminated r1 := by
  intro n
  induction n with
  | zero => intro b cur r h; omega
  | succ n ih =>
    intro b cur r hl hT res r1 h
    rw [readBlockFrom_step] at h ⊢
    cases hc : readCodes r with
    | error e => rw [hc] at h; cases h
    | ok p =>
      obtain ⟨c, v, r2⟩ := p
      obtain ⟨hc1, hT1⟩ := readCodes_append hT hc t
      have hl1 := readCodes_length hc
      rw [hc] at h
      rw [hc1]
      simp only at h ⊢
      by_cases h0 : c = 0
      · rw [if_pos h0] at h ⊢
        by_cases hv : v = "ENDBLK".toList
        · rw [if_pos hv] at h ⊢
          cases h
          exact ⟨rfl, hT1⟩
        · rw [if_neg hv] at h ⊢
          exact ih _ _ r2 (by omega) hT1 res r1 h
      · rw [if_neg h0] at h ⊢
        cases cur with
        | none => exact ih _ _ r2 (by omega) hT1 res r1 h
        | some e0 => exact ih _ _ r2 (by omega) hT1 res r1 h

theorem readClassesFrom_append (t : List Char) : ∀ (n : Nat) (cs : List Class)
    (r : List Char), r.length < n → Terminated r → ∀ res r1,
    readClassesFrom cs r = .ok (res, r1) →
    readClassesFrom cs (r ++ t) = .ok (res, r1 ++ t) ∧ Terminated r1 := by
  intro n
  induction n with
  | zero => intro cs r h; omega
  | succ n ih =>
    intro cs r hl hT res r1 h
    rw [readClassesFrom_step] at h ⊢
    cases hc : readCodes r with
    | error e => rw [hc] at h; cases h
    | ok p =>
      obtain ⟨c, v, r2⟩ := p
      obtain ⟨hc1, hT1⟩ := readCodes_append hT hc t
      have hl1 := readCodes_length hc
      rw [hc] at h
      rw [hc1]
      simp only at h ⊢
      by_cases h0 : c = 0
      · rw [if_pos h0] at h ⊢
        by_cases hv : v = "ENDSEC".toList
        · rw [if_pos hv] at h ⊢
          cases h
          exact ⟨rfl, hT1⟩
        · rw [if_neg hv] at h ⊢
          by_cases hk : v = "CLASS".toList
          · rw [if_pos hk] at h ⊢
            cases hs : readClass r2 with
            | error e => rw [hs] at h; cases h
            | ok q =>
              obtain ⟨cls, r3⟩ := q
              obtain ⟨hs1, hT2⟩ := readClassLoop_append t 7 _ r2 hT1 cls r3 hs
              have hl2 := (readClass_adv hs).length_le
              rw [hs] at h
              have hs2 : readClass (r2 ++ t) = .ok (cls, r3 ++ t) := hs1
              rw [hs2]
              exact ih _ r3 (by omega) hT2 res r1 h
          · rw [if_neg hk] at h; cases h
      · rw [if_neg h0] at h; cases h

theorem readBlocksFrom_append (t : List Char) : ∀ (n : Nat) (bs : List Block)
    (r : List Char), r.length < n → Terminated r → ∀ res r1,
    readBlocksFrom bs r = .ok (res, r1) →
    readBlocksFrom bs (r ++ t) = .ok (res, r1 ++ t) ∧ Terminated r1 := by
  intro n
  induction n with
  | zero => intro bs r h; omega
  | succ n ih =>
    intro bs r hl hT res r1 h
    rw [readBlocksFrom_step] at h ⊢
    cases hc : readCodes r with
    | error e => rw [hc] at h; cases h
    | ok p =>
      obtain ⟨c, v, r2⟩ := p
      obtain ⟨hc1, hT1⟩ := readCodes_append hT hc t
      have hl1 := readCodes_length hc
      rw [hc] at h
      rw [hc1]
      simp only at h ⊢
      by_cases h0 : c = 0
      · rw [if_pos h0] at h ⊢
        by_cases hv : v = "ENDSEC".toList
        · rw [if_pos hv] at h ⊢
          cases h
          exact ⟨rfl, hT1⟩
        · rw [if_neg hv] at h ⊢
          by_cases hk : v = "BLOCK".toList
          · rw [if_pos hk] at h ⊢
            cases hs : readBlock r2 with
            | error e => rw [hs] at h; cases h
            | ok q =>
              obtain ⟨blk, r3⟩ := q
              obtain ⟨hs1, hT2⟩ :=
                readBlockFrom_append t (r2.length + 1) _ none r2 (by omega) hT1 blk r3 hs
              have hl2 := (readBlock_adv hs).length_le
              rw [hs] at h
              have hs2 : readBlock (r2 ++ t) = .ok (blk, r3 ++ t) := hs1
              rw [hs2]
              exact ih _ r3 (by omega) hT2 res r1 h
          · rw [if_neg hk] at h; cases h
      · rw [if_neg h0] at h; cases h

/-- What `Read` returns on a text whose lines are terminated, it returns when more text
follows. -/
theorem ReadFrom_append (t : List Char) : ∀ (n : Nat) (d : Drawing) (r : List Char),
    r.length < n → Terminated r → ∀ d1, ReadFrom d r = .ok d1 →
    ReadFrom d (r ++ t) = .ok d1 := by
  intro n
  induction n with
  | zero => intro d r h; omega
  | succ n ih =>
    intro d r hl hT d1 h
    rw [ReadFrom_step] at h ⊢
    cases hc : readCodes r with
    | error e => rw [hc] at h; cases h
    | ok p =>
      obtain ⟨c, v, r1⟩ := p
      obtain ⟨hc1, hT1⟩ := readCodes_append hT hc t
      have hl1 := readCodes_length hc
      rw [hc] at h
      rw [hc1]
      simp only at h ⊢
      by_cases h0 : c ≠ 0
      · rw [if_pos h0] at h; cases h
      · rw [if_neg h0] at h ⊢
        by_cases hv : v = "EOF".toList
        · rw [if_pos hv] at h ⊢
          exact h
        · rw [if_neg hv] at h ⊢
          by_cases hs : v ≠ "SECTION".toList
          · rw [if_pos hs] at h; cases h
          · rw [if_neg hs] at h ⊢
            cases hc2 : readCodes r1 with
            | error e => rw [hc2] at h; cases h
            | ok p2 =>
              obtain ⟨c2, v2, r2⟩ := p2
              obtain ⟨hc3, hT2⟩ := readCodes_append hT1 hc2 t
              have hl2 := readCodes_length hc2
              rw [hc2] at h
              rw [hc3]
              simp only at h ⊢
              by_cases h2 : c2 ≠ 2
              · rw [if_pos h2] at h; cases h
              · rw [if_neg h2] at h ⊢
                by_cases hH : v2 = "HEADER".toList
                · rw [if_pos hH] at h ⊢
                  cases hr : readHeader r2 with
                  | error e => rw [hr] at h; cases h
                  | ok q =>
                    obtain ⟨x, r3⟩ := q
                    obtain ⟨hr1, hT3⟩ :=
                      readHeaderFrom_append t (r2.length + 1) [] [] r2 (by omega) hT2 x r3 hr
                    have hl3 := (readHeader_adv hr).length_le
                    have hr2 : readHeader (r2 ++ t) = .ok (x, r3 ++ t) := hr1
                    rw [hr] at h
                    rw [hr2]
                    exact ih _ r3 (by omega) hT3 d1 h
                · rw [if_neg hH] at h ⊢
                  by_cases hC : v2 = "CLASSES".toList
                  · rw [if_pos hC] at h ⊢
                    cases hr : readClasses r2 with
                    | error e => rw [hr] at h; cases h
                    | ok q =>
                      obtain ⟨x, r3⟩ := q
                      obtain ⟨hr1, hT3⟩ :=
                        readClassesFrom_append t (r2.length + 1) [] r2 (by omega) hT2 x r3 hr
                      have hl3 := (readClasses_adv hr).length_le
                      have hr2 : readClasses (r2 ++ t) = .ok (x, r3 ++ t) := hr1
                      rw [hr] at h
                      rw [hr2]
                      exact ih _ r3 (by omega) hT3 d1 h
                  · rw [if_neg hC] at h ⊢
                    by_cases hB : v2 = "BLOCKS".toList
                    · rw [if_pos hB] at h ⊢
                      cases hr : readBlocks r2 with
                      | error e => rw [hr] at h; cases h
                      | ok q =>
                        obtain ⟨x, r3⟩ := q
                        obtain ⟨hr1, hT3⟩ :=
                          readBlocksFrom_append t (r2.length + 1) [] r2 (by omega) hT2 x r3 hr
                        have hl3 := (readBlocks_adv hr).length_le
                        have hr2 : readBlocks (r2 ++ t) = .ok (x, r3 ++ t) := hr1
                        rw [hr] at h
                        rw [hr2]
                        exact ih _ r3 (by omega) hT3 d1 h
                    · rw [if_neg hB] at h ⊢
                      by_cases hE : v2 = "ENTITIES".toList
                      · rw [if_pos hE] at h ⊢
                        cases hr : readEntities r2 with
                        | error e => rw [hr] at h; cases h
                        | ok q =>
                          obtain ⟨x, r3⟩ := q
                          obtain ⟨hr1, hT3⟩ :=
                            readEntitiesFrom_append t (r2.length + 1) [] none r2 (by omega)
                              hT2 x r3 hr
                          have hl3 := (readEntities_adv hr).length_le
                          have hr2 : readEntities (r2 ++ t) = .ok (x, r3 ++ t) := hr1
                          rw [hr] at h
                          rw [hr2]
                          exact ih _ r3 (by omega) hT3 d1 h
                      · rw [if_neg hE] at h ⊢
                        cases hr : skipSection r2 with
                        | error e => rw [hr] at h; cases h
                        | ok r3 =>
                          obtain ⟨hr1, hT3⟩ :=
                            skipSection_append t (r2.length + 1) r2 (by omega) hT2 r3 hr
                          have hl3 := (skipSection_adv hr).length_le
                          rw [hr] at h
                          rw [hr1]
                          exact ih _ r3 (by omega) hT3 d1 h

/-- C19: when `Read` returns a drawing on an input that ends with a line feed, it returns
the same drawing on that input followed by any text. -/
theorem Read_ignores_trailing (p t : List Char) (d : Drawing)
    (hp : p.getLast? = some '\n') (h : Read p = .ok d) : Read (p ++ t) = .ok d :=
  ReadFrom_append t (p.length + 1) _ p (by omega) (Or.inr hp) d h

/-- C19 at an input with one entity, followed by text that is no pair at all. -/
theorem Read_ignores_trailing_witness :
    Read ("0\nSECTION\n2\nENTITIES\n0\nLINE\n8\n0\n0\nENDSEC\n0\nEOF\n".toList ++
        "not a pair".toList) =
      .ok { emptyDrawing with Entities := some [⟨"LINE".toList, [(8, "0".toList)]⟩] } :=
  Read_ignores_trailing "0\nSECTION\n2\nENTITIES\n0\nLINE\n8\n0\n0\nENDSEC\n0\nEOF\n".toList
    "not a pair".toList _ (by decide) (by decide)

/-! ### The sections of an input -/

/-- The loop of `Read` returns the drawing that the sections of the input leave, assigned in
order. -/
theorem ReadFrom_parses : ∀ (n : Nat) (d0 : Drawing) (r : List Char), r.length < n → ∀ d,
    ReadFrom d0 r = .ok d → ∃ secs, Parses r secs ∧ d = secs.foldl applySection d0 := by
  intro n
  induction n with
  | zero => intro d0 r h; omega
  | succ n ih =>
    intro d0 r hl d h
    rw [ReadFrom_step] at h
    split at h
    · cases h
    · rename_i c v r1 hc
      have hl1 := readCodes_length hc
      split at h
      · cases h
      · rename_i hc0
        have hc0' : c = 0 := by simpa using hc0
        subst hc0'
        split at h
        · rename_i hv
          subst hv
          cases h
          exact ⟨[], Parses.eof hc, rfl⟩
        · split at h
          · cases h
          · rename_i hs
            have hs' : v = "SECTION".toList := by simpa using hs
            subst hs'
            split at h
            · cases h
            · rename_i c2 v2 r2 hc2
              have hl2 := readCodes_length hc2
              split at h
              · cases h
              · rename_i h2
                have h2' : c2 = 2 := by simpa using h2
                subst h2'
                split at h
                · rename_i hn
                  subst hn
                  split at h
                  · cases h
                  · rename_i x r3 hr
                    have := (readHeader_adv hr).length_le
                    obtain ⟨secs, hp, he⟩ := ih _ r3 (by omega) d h
                    exact ⟨Section.header x :: secs, Parses.header hc hc2 hr hp, he⟩
                · rename_i hnH
                  split at h
                  · rename_i hn
                    subst hn
                    split at h
                    · cases h
                    · rename_i x r3 hr
                      have := (readClasses_adv hr).length_le
                      obtain ⟨secs, hp, he⟩ := ih _ r3 (by omega) d h
                      exact ⟨Section.classes x :: secs, Parses.classes hc hc2 hr hp, he⟩
                  · rename_i hnC
                    split at h
                    · rename_i hn
                      subst hn
                      split at h
                      · cases h
                      · rename_i x r3 hr
                        have := (readBlocks_adv hr).length_le
                        obtain ⟨secs, hp, he⟩ := ih _ r3 (by omega) d h
                        exact ⟨Section.blocks x :: secs, Parses.blocks hc hc2 hr hp, he⟩
                    · rename_i hnB
                      split at h
                      · rename_i hn
                        subst hn
                        split at h
                        · cases h
                        · rename_i x r3 hr
                          have := (readEntities_adv hr).length_le
                          obtain ⟨secs, hp, he⟩ := ih _ r3 (by omega) d h
                          exact ⟨Section.entities x :: secs,
                            Parses.entities hc hc2 hr hp, he⟩
                      · rename_i hnE
                        split at h
                        · cases h
                        · rename_i r3 hr
                          have := (skipSection_adv hr).length_le
                          obtain ⟨secs, hp, he⟩ := ih _ r3 (by omega) d h
                          exact ⟨Section.other v2 :: secs,
                            Parses.other hc hc2 ⟨hnH, hnC, hnB, hnE⟩ hr hp, he⟩

/-- A field of the drawing after the sections `secs`: the content of the last section of its
name, or what the field held before. -/
theorem foldl_applySection (secs : List Section) (d : Drawing) :
    (secs.foldl applySection d).Header = (lastOf Section.header? secs).or d.Header ∧
    (secs.foldl applySection d).Classes = (lastOf Section.classes? secs).or d.Classes ∧
    (secs.foldl applySection d).Blocks = (lastOf Section.blocks? secs).or d.Blocks ∧
    (secs.foldl applySection d).Entities = (lastOf Section.entities? secs).or d.Entities := by
  induction secs using List.reverseRecOn with
  | nil => simp [lastOf]
  | append_singleton l s ih =>
    obtain ⟨i1, i2, i3, i4⟩ := ih
    simp only [List.foldl_append, List.foldl_cons, List.foldl_nil, lastOf,
      List.filterMap_append, List.getLast?_append]
    simp only [lastOf] at i1 i2 i3 i4
    cases s <;>
      simp [applySection, Section.header?, Section.classes?, Section.blocks?,
        Section.entities?, i1, i2, i3, i4]

theorem lastOf_eq_none {α : Type} (f : Section → Option α) (secs : List Section) :
    lastOf f secs = none ↔ ∀ s ∈ secs, f s = none := by
  unfold lastOf
  rw [List.getLast?_eq_none_iff, List.filterMap_eq_nil_iff]

/-- An input is a sequence of sections in one way only. -/
theorem Parses_unique {r : List Char} {s1 s2 : List Section} (h1 : Parses r s1)
    (h2 : Parses r s2) : s1 = s2 := by
  induction h1 generalizing s2 with
  | eof hc =>
    cases h2 with
    | eof _ => rfl
    | header a _ _ _ => rw [hc] at a; cases a
    | classes a _ _ _ => rw [hc] at a; cases a
    | blocks a _ _ _ => rw [hc] at a; cases a
    | entities a _ _ _ => rw [hc] at a; cases a
    | other a _ _ _ _ => rw [hc] at a; cases a
  | header hc hc2 hr _ ih =>
    cases h2 with
    | eof a => rw [hc] at a; cases a
    | header a b c1 d1 =>
      rw [hc] at a; cases a
      rw [hc2] at b; cases b
      rw [hr] at c1; cases c1
      rw [ih d1]
    | classes a b _ _ => rw [hc] at a; cases a; rw [hc2] at b; cases b
    | blocks a b _ _ => rw [hc] at a; cases a; rw [hc2] at b; cases b
    | entities a b _ _ => rw [hc] at a; cases a; rw [hc2] at b; cases b
    | other a b n _ _ =>
      rw [hc] at a; cases a
      rw [hc2] at b; cases b
      exact absurd rfl n.1
  | classes hc hc2 hr _ ih =>
    cases h2 with
    | eof a => rw [hc] at a; cases a
    | classes a b c1 d1 =>
      rw [hc] at a; cases a
      rw [hc2] at b; cases b
      rw [hr] at c1; cases c1
      rw [ih d1]
    | header a b _ _ => rw [hc] at a; cases a; rw [hc2] at b; cases b
    | blocks a b _ _ => rw [hc] at a; cases a; rw [hc2] at b; cases b
    | entities a b _ _ => rw [hc] at a; cases a; rw [hc2] at b; cases b
    | other a b n _ _ =>
      rw [hc] at a; cases a
      rw [hc2] at b; cases b
      exact absurd rfl n.2.1
  | blocks hc hc2 hr _ ih =>
    cases h2 with
    | eof a => rw [hc] at a; cases a
    | blocks a b c1 d1 =>
      rw [hc] at a; cases a
      rw [hc2] at b; cases b
      rw [hr] at c1; cases c1
      rw [ih d1]
    | header a b _ _ => rw [hc] at a; cases a; rw [hc2] at b; cases b
    | classes a b _ _ => rw [hc] at a; cases a; rw [hc2] at b; cases b
    | entities a b _ _ => rw [hc] at a; cases a; rw [hc2] at b; cases b
    | other a b n _ _ =>
      rw [hc] at a; cases a
      rw [hc2] at b; cases b
      exact absurd rfl n.2.2.1
  | entities hc hc2 hr _ ih =>
    cases h2 with
    | eof a => rw [hc] at a; cases a
    | entities a b c1 d1 =>
      rw [hc] at a; cases a
      rw [hc2] at b; cases b
      rw [hr] at c1; cases c1
      rw [ih d1]
    | header a b _ _ => rw [hc] at a; cases a; rw [hc2] at b; cases b
    | classes a b _ _ => rw [hc] at a; cases a; rw [hc2] at b; cases b
    | blocks a b _ _ => rw [hc] at a; cases a; rw [hc2] at b; cases b
    | other a b n _ _ =>
      rw [hc] at a; cases a
      rw [hc2] at b; cases b
      exact absurd rfl n.2.2.2
  | other hc hc2 hn hr _ ih =>
    cases h2 with
    | eof a => rw [hc] at a; cases a
    | other a b _ c1 d1 =>
      rw [hc] at a; cases a
      rw [hc2] at b; cases b
      rw [hr] at c1; cases c1
      rw [ih d1]
    | header a b _ _ =>
      rw [hc] at a; cases a; rw [hc2] at b; cases b; exact absurd rfl hn.1
    | classes a b _ _ =>
      rw [hc] at a; cases a; rw [hc2] at b; cases b; exact absurd rfl hn.2.1
    | blocks a b _ _ =>
      rw [hc] at a; cases a; rw [hc2] at b; cases b; exact absurd rfl hn.2.2.1
    | entities a b _ _ =>
      rw [hc] at a; cases a; rw [hc2] at b; cases b; exact absurd rfl hn.2.2.2

/-- C20: when `Read` returns a drawing, the input is a sequence of sections followed by the
end marker, in one way only; each field of the drawing holds the content of the last
section of its name and nothing of the earlier ones, and it is nil exactly when the input
has no section of that name. -/
theorem Read_last_section_wins (input : List Char) (d : Drawing) (h : Read input = .ok d) :
    ∃ secs, Parses input secs ∧ (∀ secs1, Parses input secs1 → secs1 = secs) ∧
      d.Header = lastOf Section.header? secs ∧
      d.Classes = lastOf Section.classes? secs ∧
      d.Blocks = lastOf Section.blocks? secs ∧
      d.Entities = lastOf Section.entities? secs ∧
      (d.Header = none ↔ ∀ s ∈ secs, s.header? = none) ∧
      (d.Classes = none ↔ ∀ s ∈ secs, s.classes? = none) ∧
      (d.Blocks = none ↔ ∀ s ∈ secs, s.blocks? = none) ∧
      (d.Entities = none ↔ ∀ s ∈ secs, s.entities? = none) := by
  obtain ⟨secs, hp, he⟩ := ReadFrom_parses (input.length + 1) _ input (by omega) d h
  obtain ⟨f1, f2, f3, f4⟩ := foldl_applySection secs emptyDrawing
  have e1 : d.Header = lastOf Section.header? secs := by
    rw [he]
    show (secs.foldl applySection emptyDrawing).Header = _
    rw [f1]; simp [emptyDrawing]
  have e2 : d.Classes = lastOf Section.classes? secs := by
    rw [he]
    show (secs.foldl applySection emptyDrawing).Classes = _
    rw [f2]; simp [emptyDrawing]
  have e3 : d.Blocks = lastOf Section.blocks? secs := by
    rw [he]
    show (secs.foldl applySection emptyDrawing).Blocks = _
    rw [f3]; simp [emptyDrawing]
  have e4 : d.Entities = lastOf Section.entities? secs := by
    rw [he]
    show (secs.foldl applySection emptyDrawing).Entities = _
    rw [f4]; simp [emptyDrawing]
  refine ⟨secs, hp, fun secs1 h1 => Parses_unique h1 hp, e1, e2, e3, e4, ?_, ?_, ?_, ?_⟩
  · rw [e1]; exact lastOf_eq_none _ _
  · rw [e2]; exact lastOf_eq_none _ _
  · rw [e3]; exact lastOf_eq_none _ _
  · rw [e4]; exact lastOf_eq_none _ _

/-- C20 at an input with two ENTITIES sections: the drawing holds the entity of the second
one, and its other fields are nil. -/
theorem Read_last_section_wins_witness :
    Read ("0\nSECTION\n2\nENTITIES\n0\nLINE\n0\nENDSEC\n" ++
        "0\nSECTION\n2\nENTITIES\n0\nARC\n0\nENDSEC\n0\nEOF\n").toList =
      .ok { emptyDrawing with Entities := some [⟨"ARC".toList, []⟩] } ∧
    ∃ secs, Parses ("0\nSECTION\n2\nENTITIES\n0\nLINE\n0\nENDSEC\n" ++
        "0\nSECTION\n2\nENTITIES\n0\nARC\n0\nENDSEC\n0\nEOF\n").toList secs ∧
      some [(⟨"ARC".toList, []⟩ : Entity)] = lastOf Section.entities? secs ∧
      ((none : Option HeaderMap) = none ↔ ∀ s ∈ secs, s.header? = none) :=
  ⟨by decide,
    (fun h => h.elim (fun secs hs => ⟨secs, hs.1, hs.2.2.2.2.2.1, hs.2.2.2.2.2.2.1⟩))
      (Read_last_section_wins
        ("0\nSECTION\n2\nENTITIES\n0\nLINE\n0\nENDSEC\n" ++
          "0\nSECTION\n2\nENTITIES\n0\nARC\n0\nENDSEC\n0\nEOF\n").toList
        { emptyDrawing with Entities := some [⟨"ARC".toList, []⟩] } (by decide))⟩

/-! ### The BLOCKS bracket in the text written -/

theorem FormatInt_eq_zero {c : GroupCode} (h : FormatInt c = ['0']) : c = 0 := by
  unfold FormatInt at h
  by_cases hc : c < 0
  · rw [if_pos hc] at h
    simp at h
  · rw [if_neg hc] at h
    have h1 := parseDigits_natDigits c.natAbs
    rw [h] at h1
    have h0 : parseDigits ['0'] 0 = some 0 := by decide
    rw [h0] at h1
    have h2 : 0 = c.natAbs := Option.some.inj h1
    exact Int.natAbs_eq_zero.mp h2.symm

theorem lines_agree {a b v X : List Char} (ha : '\n' ∉ a) (hv : '\n' ∉ v)
    (h : a ++ '\n' :: b <+: v ++ '\n' :: X) : a = v ∧ b <+: X := by
  induction a generalizing v with
  | nil =>
    cases v with
    | nil => simpa using h
    | cons c v1 =>
      simp only [List.nil_append, List.cons_append, List.cons_prefix_cons] at h
      exact absurd (by rw [h.1]; exact List.mem_cons_self _ _) hv
  | cons x a ih =>
    cases v with
    | nil =>
      simp only [List.nil_append, List.cons_append, List.cons_prefix_cons] at h
      exact absurd (by rw [h.1]; exact List.mem_cons_self _ _) ha
    | cons c v1 =>
      simp only [List.cons_append, List.cons_prefix_cons] at h
      have := ih (fun hm => ha (List.mem_cons_of_mem _ hm))
        (fun hm => hv (List.mem_cons_of_mem _ hm)) h.2
      exact ⟨by rw [h.1, this.1], this.2⟩

theorem blocksOpen_eq :
    blocksOpen = ' ' :: (['0'] ++ '\n' :: ("SECTION".toList ++ '\n' :: " 2\nBLOCKS\n".toList)) := by
  decide

theorem blocksOpen_skip (s X : List Char) (hs : ∀ c ∈ s, c ≠ ' ')
    (h : blocksOpen <:+: s ++ X) : blocksOpen <:+: X := by
  induction s with
  | nil => simpa using h
  | cons c s ih =>
    rw [List.cons_append, List.infix_cons_iff] at h
    rcases h with h | h
    · rw [blocksOpen_eq, List.cons_prefix_cons] at h
      exact absurd h.1.symm (hs c (List.mem_cons_self _ _))
    · exact ih (fun x hx => hs x (List.mem_cons_of_mem _ hx)) h

theorem blocksOpen_skip_value (v X : List Char) (hv : '\n' ∉ v)
    (hX : X = [] ∨ ∃ Y, X = ' ' :: Y) (h : blocksOpen <:+: v ++ '\n' :: X) :
    blocksOpen <:+: X := by
  induction v with
  | nil =>
    rw [List.nil_append, List.infix_cons_iff] at h
    rcases h with h | h
    · rw [blocksOpen_eq, List.cons_prefix_cons] at h
      exact absurd h.1 (by decide)
    · exact h
  | cons c v ih =>
    rw [List.cons_append, List.infix_cons_iff] at h
    rcases h with h | h
    · have h1 : " 0".toList ++ '\n' :: ("SECTION".toList ++ '\n' :: " 2\nBLOCKS\n".toList)
          <+: (c :: v) ++ '\n' :: X := h
      have h2 := (lines_agree (by decide) hv h1).2
      rcases hX with hX | ⟨Y, hX⟩
      · rw [hX] at h2
        exact absurd (List.prefix_nil.mp h2) (by decide)
      · rw [hX] at h2
        have h3 : 'S' :: ("ECTION".toList ++ '\n' :: " 2\nBLOCKS\n".toList) <+: ' ' :: Y := h2
        rw [List.cons_prefix_cons] at h3
        exact absurd h3.1 (by decide)
    · exact ih (fun hm => hv (List.mem_cons_of_mem _ hm)) h

theorem blocksOpen_pair (c : GroupCode) (v X : List Char) (hv : '\n' ∉ v)
    (hX : X = [] ∨ ∃ Y, X = ' ' :: Y) (h : blocksOpen <:+: sprintfAttr c v ++ X) :
    (c = 0 ∧ v = "SECTION".toList ∧ " 2\nBLOCKS\n".toList <+: X) ∨ blocksOpen <:+: X := by
  have hs : sprintfAttr c v ++ X = ' ' :: (FormatInt c ++ '\n' :: (v ++ '\n' :: X)) := by
    simp [sprintfAttr]
  rw [hs, List.infix_cons_iff] at h
  rcases h with h | h
  · left
    rw [blocksOpen_eq, List.cons_prefix_cons] at h
    have h1 := lines_agree (by decide) (fun hm => (FormatInt_chars c _ hm).2 rfl) h.2
    have h2 := lines_agree (by decide) hv h1.2
    exact ⟨FormatInt_eq_zero h1.1.symm, h2.1.symm, h2.2⟩
  · right
    have h1 := blocksOpen_skip _ _ (fun x hx hx1 => by
      have := (FormatInt_chars c x hx).1
      rw [hx1] at this
      exact absurd this (by decide)) h
    rw [List.infix_cons_iff] at h1
    rcases h1 with h1 | h1
    · rw [blocksOpen_eq, List.cons_prefix_cons] at h1
      exact absurd h1.1 (by decide)
    · exact blocksOpen_skip_value v X hv hX h1

theorem NoBracket_pair (c : GroupCode) (v X : List Char) (hp : PlainPair c v)
    (hX : NoBracket X) : NoBracket (sprintfAttr c v ++ X) := by
  refine ⟨Or.inr ⟨FormatInt c ++ '\n' :: (v ++ '\n' :: X), by simp [sprintfAttr]⟩, ?_⟩
  intro h
  rcases blocksOpen_pair c v X hp.1 hX.1 h with h1 | h1
  · exact hp.2 ⟨h1.1, h1.2.1⟩
  · exact hX.2 h1

theorem NoBracket_attrs (a : Attrs) (X : List Char) (ha : PlainAttrs a) (hX : NoBracket X) :
    NoBracket (a.flatMap (fun p => sprintfAttr p.1 p.2) ++ X) := by
  induction a with
  | nil => simpa using hX
  | cons p a ih =>
    rw [List.flatMap_cons, List.append_assoc]
    exact NoBracket_pair _ _ _ (ha p (List.mem_cons_self _ _))
      (ih (fun q hq => ha q (List.mem_cons_of_mem _ hq)))

theorem sprintfName_eq (n : List Char) : sprintfName n = sprintfAttr 0 n := by
  simp [sprintfName, sprintfAttr, FormatInt, natDigits]

theorem NoBracket_eof : NoBracket " 0\nEOF".toList := by
  refine ⟨Or.inr ⟨_, rfl⟩, ?_⟩
  intro h
  have := h.length_le
  revert this
  decide

/-- The opening of a section other than BLOCKS. -/
theorem NoBracket_open (name X : List Char) (hn : '\n' ∉ name) (hb : name ≠ "BLOCKS".toList)
    (hX : NoBracket X) :
    NoBracket (sprintfAttr 0 "SECTION".toList ++ (sprintfAttr 2 name ++ X)) := by
  have h2 : NoBracket (sprintfAttr 2 name ++ X) :=
    NoBracket_pair _ _ _ ⟨hn, fun h => absurd h.1 (by decide)⟩ hX
  refine ⟨Or.inr ⟨_, by simp [sprintfAttr]; rfl⟩, ?_⟩
  intro h
  rcases blocksOpen_pair _ _ _ (by decide) h2.1 h with h1 | h1
  · have h3 : " 2".toList ++ '\n' :: ("BLOCKS".toList ++ '\n' :: [])
        <+: " 2".toList ++ '\n' :: (name ++ '\n' :: X) := by
      have := h1.2.2
      simpa [sprintfAttr, FormatInt, natDigits] using this
    have h4 := (lines_agree (by decide) (by decide) h3).2
    exact hb (lines_agree (by decide) hn h4).1.symm
  · exact h2.2 h1

theorem NoBracket_close (X : List Char) (hX : NoBracket X) :
    NoBracket (" 0\nENDSEC\n".toList ++ X) := by
  have h : " 0\nENDSEC\n".toList = sprintfAttr 0 "ENDSEC".toList := by decide
  rw [h]
  exact NoBracket_pair _ _ _ ⟨by decide, fun h => absurd h.2 (by decide)⟩ hX

theorem NoBracket_entity (e : Entity) (X : List Char)
    (he : PlainPair 0 e.Name ∧ PlainAttrs e.Attributes) (hX : NoBracket X) :
    NoBracket (writeEntity [] e ++ X) := by
  rw [writeEntity_text, sprintfName_eq, List.append_assoc]
  exact NoBracket_pair _ _ _ he.1 (NoBracket_attrs _ _ he.2 hX)

theorem NoBracket_entityList (es : List Entity) (X : List Char)
    (hes : ∀ e ∈ es, PlainPair 0 e.Name ∧ PlainAttrs e.Attributes) (hX : NoBracket X) :
    NoBracket (es.flatMap (writeEntity []) ++ X) := by
  induction es with
  | nil => simpa using hX
  | cons e es ih =>
    rw [List.flatMap_cons, List.append_assoc]
    exact NoBracket_entity _ _ (hes e (List.mem_cons_self _ _))
      (ih (fun q hq => hes q (List.mem_cons_of_mem _ hq)))

theorem NoBracket_classList (cs : List Class) (X : List Char)
    (hcs : ∀ c ∈ cs, PlainAttrs c.Attributes) (hX : NoBracket X) :
    NoBracket (cs.flatMap (writeClass []) ++ X) := by
  induction cs with
  | nil => simpa using hX
  | cons c cs ih =>
    have hc : writeClass [] c =
        sprintfAttr 0 "CLASS".toList ++ c.Attributes.flatMap (fun p => sprintfAttr p.1 p.2) := by
      have h : " 0\nCLASS\n".toList = sprintfAttr 0 "CLASS".toList := by decide
      rw [← h]
      simp [writeClass, writeAttributes_sink, WriteString]
    rw [List.flatMap_cons, List.append_assoc, hc, List.append_assoc]
    exact NoBracket_pair _ _ _ ⟨by decide, fun h => absurd h.2 (by decide)⟩
      (NoBracket_attrs _ _ (hcs c (List.mem_cons_self _ _))
        (ih (fun q hq => hcs q (List.mem_cons_of_mem _ hq))))

theorem NoBracket_headerBody (h : HeaderMap) (X : List Char)
    (hh : ∀ kv ∈ h, PlainPair 0 kv.1 ∧ PlainAttrs kv.2) (hX : NoBracket X) :
    NoBracket (h.flatMap
      (fun kv => sprintfName kv.1 ++ kv.2.flatMap (fun p => sprintfAttr p.1 p.2)) ++ X) := by
  induction h with
  | nil => simpa using hX
  | cons kv h ih =>
    rw [List.flatMap_cons, List.append_assoc, sprintfName_eq, List.append_assoc]
    exact NoBracket_pair _ _ _ (hh kv (List.mem_cons_self _ _)).1
      (NoBracket_attrs _ _ (hh kv (List.mem_cons_self _ _)).2
        (ih (fun q hq => hh q (List.mem_cons_of_mem _ hq))))

theorem NoBracket_header (h : HeaderMap) (X : List Char)
    (hh : ∀ kv ∈ h, PlainPair 0 kv.1 ∧ PlainAttrs kv.2) (hX : NoBracket X) :
    NoBracket (writeHeader [] h ++ X) := by
  have ho : " 0\nSECTION\n 2\nHEADER\n".toList =
      sprintfAttr 0 "SECTION".toList ++ sprintfAttr 2 "HEADER".toList := by decide
  rw [writeHeader_text, List.nil_append, ho]
  simp only [List.append_assoc]
  exact NoBracket_open _ _ (by decide) (by decide)
    (NoBracket_headerBody _ _ hh (NoBracket_close _ hX))

theorem NoBracket_classes (cs : List Class) (X : List Char)
    (hcs : ∀ c ∈ cs, PlainAttrs c.Attributes) (hX : NoBracket X) :
    NoBracket (writeClasses [] cs ++ X) := by
  have ho : " 0\nSECTION\n 2\nCLASSES\n".toList =
      sprintfAttr 0 "SECTION".toList ++ sprintfAttr 2 "CLASSES".toList := by decide
  rw [writeClasses_text, List.nil_append, ho]
  simp only [List.append_assoc]
  exact NoBracket_open _ _ (by decide) (by decide)
    (NoBracket_classList _ _ hcs (NoBracket_close _ hX))

theorem NoBracket_entities (es : List Entity) (X : List Char)
    (hes : ∀ e ∈ es, PlainPair 0 e.Name ∧ PlainAttrs e.Attributes) (hX : NoBracket X) :
    NoBracket (writeEntities [] es ++ X) := by
  have ho : " 0\nSECTION\n 2\nENTITIES\n".toList =
      sprintfAttr 0 "SECTION".toList ++ sprintfAttr 2 "ENTITIES".toList := by decide
  rw [writeEntities_text, List.nil_append, ho]
  simp only [List.append_assoc]
  exact NoBracket_open _ _ (by decide) (by decide)
    (NoBracket_entityList _ _ hes (NoBracket_close _ hX))

theorem Write_no_bracket (d : Drawing) (hd : PlainOutside d) (hb : d.Blocks = none) :
    NoBracket (Write d) := by
  obtain ⟨h, c, b, e⟩ := d
  simp only at hb
  subst hb
  rw [Write_text]
  simp only [List.append_assoc]
  have he : NoBracket (sectionText writeEntities e ++ " 0\nEOF".toList) := by
    cases e with
    | none => simpa [sectionText] using NoBracket_eof
    | some es => exact NoBracket_entities es _ (hd.2.2 es rfl) NoBracket_eof
  have hb : NoBracket (sectionText writeBlocks (none : Option (List Block)) ++
      (sectionText writeEntities e ++ " 0\nEOF".toList)) := by
    simpa [sectionText] using he
  have hc : NoBracket (sectionText writeClasses c ++
      (sectionText writeBlocks (none : Option (List Block)) ++
        (sectionText writeEntities e ++ " 0\nEOF".toList))) := by
    cases c with
    | none => simpa [sectionText] using he
    | some cs => exact NoBracket_classes cs _ (hd.2.1 cs rfl) hb
  cases h with
  | none => simpa [sectionText] using hc
  | some hm => exact NoBracket_header hm _ (hd.1 hm rfl) hc

theorem Write_has_bracket (d : Drawing) (hb : d.Blocks ≠ none) : HasBlocksBracket (Write d) := by
  obtain ⟨bs, hbs⟩ := Option.ne_none_iff_exists'.mp hb
  refine ⟨sectionText writeHeader d.Header ++ sectionText writeClasses d.Classes,
    bs.flatMap (writeBlock []), sectionText writeEntities d.Entities ++ " 0\nEOF".toList, ?_⟩
  rw [Write_text, hbs]
  simp only [sectionText, writeBlocks_text, blocksOpen, List.nil_append, List.append_assoc]

theorem HasBlocksBracket_opening {text : List Char} (h : HasBlocksBracket text) :
    blocksOpen <:+: text := by
  obtain ⟨pre, body, post, h⟩ := h
  exact ⟨pre, body ++ " 0\nENDSEC\n".toList ++ post, by rw [h]; simp only [List.append_assoc]⟩

/-- C5 as amended: the drawing with every field nil is written as the pair 0/EOF alone; the
drawing whose only non-nil field is an empty `Blocks` is written as an empty BLOCKS bracket and
0/EOF; whenever `Blocks` is non-nil the BLOCKS bracket appears in the text written; and when
the other fields are written as plain pairs (no line feed in a name or value, no pair
0/SECTION), the opening of the bracket does not appear in the text written for a nil `Blocks`,
so that the bracket appears if and only if `Blocks` is non-nil. -/
theorem Write_blocks_bracket :
    Write emptyDrawing = " 0\nEOF".toList ∧
    Write { emptyDrawing with Blocks := some [] } =
      " 0\nSECTION\n 2\nBLOCKS\n 0\nENDSEC\n 0\nEOF".toList ∧
    (∀ d : Drawing, d.Blocks ≠ none → HasBlocksBracket (Write d)) ∧
    (∀ d : Drawing, PlainOutside d → d.Blocks = none → ¬ blocksOpen <:+: Write d) ∧
    (∀ d : Drawing, PlainOutside d → (HasBlocksBracket (Write d) ↔ d.Blocks ≠ none)) := by
  refine ⟨by decide, by decide, Write_has_bracket, ?_, ?_⟩
  · intro d hd hb
    exact (Write_no_bracket d hd hb).2
  · intro d hd
    constructor
    · intro h hb
      exact (Write_no_bracket d hd hb).2 (HasBlocksBracket_opening h)
    · exact Write_has_bracket d

theorem PlainOutside_line :
    PlainOutside { emptyDrawing with
      Entities := some [⟨"LINE".toList, [(2, "BLOCKS".toList), (8, "0".toList)]⟩] } := by
  refine ⟨fun h hh => Option.noConfusion hh, fun cs hc => Option.noConfusion hc, ?_⟩
  intro es hes
  cases hes
  intro e he
  rw [List.mem_singleton] at he
  subst he
  refine ⟨⟨by decide, by decide⟩, ?_⟩
  intro p hp
  simp only [List.mem_cons, List.mem_singleton, List.not_mem_nil, or_false] at hp
  rcases hp with hp | hp <;> subst hp <;> exact ⟨by decide, by decide⟩

/-- C5 as amended, at the drawing with no `Blocks` whose only entity, LINE, has the attributes
2/BLOCKS and 8/0: it is written as plain pairs and the text written holds no BLOCKS bracket. -/
theorem Write_blocks_bracket_witness :
    PlainOutside { emptyDrawing with
        Entities := some [⟨"LINE".toList, [(2, "BLOCKS".toList), (8, "0".toList)]⟩] } ∧
      (HasBlocksBracket (Write { emptyDrawing with
          Entities := some [⟨"LINE".toList, [(2, "BLOCKS".toList), (8, "0".toList)]⟩] }) ↔
        ({ emptyDrawing with
          Entities := some [⟨"LINE".toList, [(2, "BLOCKS".toList), (8, "0".toList)]⟩] } :
            Drawing).Blocks ≠ none) :=
  And.intro PlainOutside_line (Write_blocks_bracket.2.2.2.2 _ PlainOutside_line)

/-- C5 as stated fails: the drawing with no `Blocks` and the one entity SECTION with the
attribute 2/BLOCKS is written with the text of an empty BLOCKS bracket in it; and a drawing
with no `Blocks` is written as the same text as a drawing with an empty `Blocks`, so that
nothing read off the text written tells whether `Blocks` is nil. -/
theorem Write_bracket_without_blocks :
    Write { emptyDrawing with
        Entities := some [⟨"SECTION".toList, [(2, "BLOCKS".toList)]⟩] } =
      " 0\nSECTION\n 2\nENTITIES\n".toList ++
        " 0\nSECTION\n 2\nBLOCKS\n 0\nENDSEC\n".toList ++ " 0\nEOF".toList ∧
    Write { emptyDrawing with
        Header := some [("ENDSEC\n 0\nSECTION\n 2\nBLOCKS".toList, [])] } =
      Write { emptyDrawing with Header := some [], Blocks := some [] } ∧
    ¬ (∀ d : Drawing, HasBlocksBracket (Write d) ↔ d.Blocks ≠ none) := by
  refine ⟨by decide, by decide, ?_⟩
  intro h
  have h1 : HasBlocksBracket (Write { emptyDrawing with
      Entities := some [⟨"SECTION".toList, [(2, "BLOCKS".toList)]⟩] }) :=
    ⟨" 0\nSECTION\n 2\nENTITIES\n".toList, [], " 0\nEOF".toList, by decide⟩
  exact (h _).mp h1 rfl

end Dxf
